import Mathlib

/-!
# GenDb Cassandra interface (`src/gendb/cdb_if.cc`)

A shallow embedding of `CdbIf`: the type codec registry, the composite and
non-composite wire encodings, the key/column builders, the column-family schema
registry, the asynchronous write queue with its ready gate, the drain callback and
the range-slice pagination, followed by the properties established for them.

Conventions of the embedding:

* a `std::string` is a list of bytes (`Bytes`), each byte a natural number below 256;
* machine integers are natural numbers, reduced modulo `2 ^ w` wherever the
  source stores them in a `w`-bit variable;
* a decoder that would read beyond the buffer of its input string, or hit an
  `assert`, has no defined result: it returns `none`; so does a member function that
  dereferences the null queue pointer;
* a function that returns `bool` and fills an output parameter returns the
  pair of the flag and the final content of the output parameter;
* a member function that may change the object takes the object state and returns
  it with its result; the remote calls it issues and the handlers it invokes are
  appended to the events of the state, and the backend's answers are a parameter;
* a loop that need not terminate is run under a bound on its iterations.
-/

namespace CdbIf

/-! ## Bytes and the helpers of `base/parse_object.h` -/

/-- The content of a `std::string`: a sequence of bytes. -/
abbrev Bytes := List Nat

/-- Every element of the list is a byte. -/
def isBytes (s : Bytes) : Bool := s.all (fun b => decide (b < 256))

/-- Modelled from the spec: `put_value(data, size, value)` of `base/parse_object.h` writes
`value`, a `uint64_t`, right-aligned in big-endian order into `size` bytes; positions
above the eighth byte are zero. -/
def put_value : Nat → Nat → Bytes
  | 0, _ => []
  | size + 1, value => ((value % 2 ^ 64) / 256 ^ size % 256) :: put_value size value

/-- Modelled from the spec: `get_value(data, size)` and `get_value_unaligned(data, size)`
of `base/parse_object.h` read `size` bytes as an unsigned big-endian integer accumulated
in a `uint64_t`. The argument is the list of the `size` bytes read. -/
def get_value (data : Bytes) : Nat :=
  data.foldl (fun value b => (value * 256 + b) % 2 ^ 64) 0

/-- The bytes `off, ..., off + n - 1` of a buffer, or `none` when the buffer is shorter. -/
def readBytes (buf : Bytes) (off n : Nat) : Option Bytes :=
  if off + n ≤ buf.length then some ((buf.drop off).take n) else none

/-- The buffer behind `input.c_str()`: the bytes of the string and the terminating NUL. -/
def c_str (input : Bytes) : Bytes := input ++ [0]

/-! ## Data model (`gendb_if.h`) -/

/-- Modelled from the spec: the scalar type tags of `GenDb::DbDataType::type`
(declared in `gendb_if.h`). The seven named tags
are the ones `CdbIfTypeMap` registers; `Unregistered n` stands for any other
value a variable of the enumeration type can hold. -/
inductive DbDataType where
  | AsciiType
  | LexicalUUIDType
  | TimeUUIDType
  | Unsigned8Type
  | Unsigned16Type
  | Unsigned32Type
  | Unsigned64Type
  | Unregistered (tag : Nat)
  deriving DecidableEq, Repr

/-- Modelled from the spec: `GenDb::DbDataValue`, a tagged union of a byte string,
a 128-bit UUID (its 16 bytes) and the unsigned integers of 8, 16, 32 and 64 bits. -/
inductive DbDataValue where
  | string (s : Bytes)
  | uuid (u : Bytes)
  | uint8 (n : Nat)
  | uint16 (n : Nat)
  | uint32 (n : Nat)
  | uint64 (n : Nat)
  deriving DecidableEq, Repr

abbrev DbDataTypeVec := List DbDataType
abbrev DbDataValueVec := List DbDataValue

/-- The value `v` lies in the domain of the tag `t`: the variant matches the tag,
strings and UUIDs consist of bytes, a UUID has 16 of them, and an unsigned
integer fits its width. -/
def inDomain : DbDataType → DbDataValue → Bool
  | .AsciiType, .string s => isBytes s
  | .LexicalUUIDType, .uuid u => decide (u.length = 16) && isBytes u
  | .TimeUUIDType, .uuid u => decide (u.length = 16) && isBytes u
  | .Unsigned8Type, .uint8 n => decide (n < 2 ^ 8)
  | .Unsigned16Type, .uint16 n => decide (n < 2 ^ 16)
  | .Unsigned32Type, .uint32 n => decide (n < 2 ^ 32)
  | .Unsigned64Type, .uint64 n => decide (n < 2 ^ 64)
  | _, _ => false

/-- Positionwise `inDomain` for a value vector of the same length as the type vector. -/
def inDomainVec : DbDataTypeVec → DbDataValueVec → Bool
  | [], [] => true
  | t :: ts, v :: vs => inDomain t v && inDomainVec ts vs
  | _, _ => false

/-! ## Non-composite encoders and decoders -/

/-- Function `Db_encode_string_non_composite`: the string itself; a value of another
variant raises `bad_get`, which is logged, and the empty string is returned. -/
def Db_encode_string_non_composite : DbDataValue → Bytes
  | .string s => s
  | _ => []

/-- Function `Db_decode_string_non_composite`: the input itself. -/
def Db_decode_string_non_composite (input : Bytes) : Option DbDataValue :=
  some (.string input)

/-- Function `Db_encode_UUID_non_composite`: the 16 bytes of the UUID. On `bad_get` the source
encodes the uninitialised local `u`; those 16 indeterminate bytes are fixed to zero here. -/
def Db_encode_UUID_non_composite : DbDataValue → Bytes
  | .uuid u => u
  | _ => List.replicate 16 0

/-- Function `Db_decode_UUID_non_composite`: `memcpy` of 16 bytes from `input.c_str()`. -/
def Db_decode_UUID_non_composite (input : Bytes) : Option DbDataValue :=
  (readBytes (c_str input) 0 16).map DbDataValue.uuid

/-- The loop `while (temp1) { temp1 >>= 8; size++; }`. -/
def size_loop (temp1 size : Nat) : Nat :=
  if temp1 = 0 then size else size_loop (temp1 >>> 8) (size + 1)
termination_by temp1
decreasing_by
  simp only [Nat.shiftRight_eq_div_pow]
  exact Nat.div_lt_self (Nat.pos_of_ne_zero ‹_›) (by norm_num)

/-- The common body of `Db_encode_Unsigned{8,16,32,64}_non_composite` for a `temp` of
`w` bits: `size` starts at 1, counts the non-zero bytes above the lowest one, is
increased by one more, and `temp` is written into `size` bytes. -/
def encode_Unsigned_non_composite (w temp : Nat) : Bytes :=
  let temp1 := (temp >>> 8) % 2 ^ w
  let size := size_loop temp1 1 + 1
  put_value size temp

/-- Function `Db_encode_Unsigned8_non_composite`; on `bad_get` the initial `0xff` is encoded. -/
def Db_encode_Unsigned8_non_composite : DbDataValue → Bytes
  | .uint8 n => encode_Unsigned_non_composite 8 (n % 2 ^ 8)
  | _ => encode_Unsigned_non_composite 8 0xff

/-- Function `Db_encode_Unsigned16_non_composite`; on `bad_get` the initial `0xffff` is encoded. -/
def Db_encode_Unsigned16_non_composite : DbDataValue → Bytes
  | .uint16 n => encode_Unsigned_non_composite 16 (n % 2 ^ 16)
  | _ => encode_Unsigned_non_composite 16 0xffff

/-- Function `Db_encode_Unsigned32_non_composite`; on `bad_get` the initial `0xffffffff` is encoded. -/
def Db_encode_Unsigned32_non_composite : DbDataValue → Bytes
  | .uint32 n => encode_Unsigned_non_composite 32 (n % 2 ^ 32)
  | _ => encode_Unsigned_non_composite 32 0xffffffff

/-- Function `Db_encode_Unsigned64_non_composite`; on `bad_get` the initial all-ones value is encoded. -/
def Db_encode_Unsigned64_non_composite : DbDataValue → Bytes
  | .uint64 n => encode_Unsigned_non_composite 64 (n % 2 ^ 64)
  | _ => encode_Unsigned_non_composite 64 0xffffffffffffffff

/-- Function `Db_decode_Unsigned8_non_composite`: all bytes of the input read big-endian, cast to `uint8_t`. -/
def Db_decode_Unsigned8_non_composite (input : Bytes) : Option DbDataValue :=
  some (.uint8 (get_value input % 2 ^ 8))

/-- Function `Db_decode_Unsigned16_non_composite`: all bytes of the input read big-endian, cast to `uint16_t`. -/
def Db_decode_Unsigned16_non_composite (input : Bytes) : Option DbDataValue :=
  some (.uint16 (get_value input % 2 ^ 16))

/-- Function `Db_decode_Unsigned32_non_composite`: all bytes of the input read big-endian, cast to `uint32_t`. -/
def Db_decode_Unsigned32_non_composite (input : Bytes) : Option DbDataValue :=
  some (.uint32 (get_value input % 2 ^ 32))

/-- Function `Db_decode_Unsigned64_non_composite`: all bytes of the input read big-endian. -/
def Db_decode_Unsigned64_non_composite (input : Bytes) : Option DbDataValue :=
  some (.uint64 (get_value input))

/-! ## Composite encoders and decoders -/

/-- Function `Db_encode_string_composite`: the size of the string written by `put_value` into
two bytes, the bytes of the string, and the end-of-component byte. On `bad_get` the
string is empty. (The `malloc` failure branch is not modelled.) -/
def Db_encode_string_composite (value : DbDataValue) : Bytes :=
  let input : Bytes := match value with
    | .string s => s
    | _ => []
  let input_size := input.length
  put_value 2 input_size ++ input ++ [0]

/-- Function `Db_decode_string_composite`: reads the 2-byte length `len`, then `len` bytes, and
skips the end-of-component byte. Returns the value and `used`. -/
def Db_decode_string_composite (input : Bytes) : Option (DbDataValue × Nat) :=
  (readBytes input 0 2).bind fun hdr =>
    let len := get_value hdr % 2 ^ 16
    (readBytes input 2 len).map fun output => (DbDataValue.string output, 2 + len + 1)

/-- Function `Db_encode_UUID_composite`: the length `0x0010` in two bytes, the 16 bytes of the
UUID, and the end-of-component byte. On `bad_get` the source encodes the
uninitialised local `u`; those 16 indeterminate bytes are fixed to zero here. -/
def Db_encode_UUID_composite (value : DbDataValue) : Bytes :=
  let u_s : Bytes := match value with
    | .uuid u => u
    | _ => List.replicate 16 0
  put_value 2 0x0010 ++ u_s ++ [0]

/-- Function `Db_decode_UUID_composite`: reads the 2-byte length, asserts that it is `0x0010`,
copies 16 bytes and skips the end-of-component byte. Returns the value and `used`. -/
def Db_decode_UUID_composite (input : Bytes) : Option (DbDataValue × Nat) :=
  (readBytes input 0 2).bind fun hdr =>
    let len := get_value hdr % 2 ^ 16
    if len = 0x0010 then
      (readBytes input 2 0x0010).map fun u => (DbDataValue.uuid u, 2 + 0x0010 + 1)
    else none

/-- Function `Db_encode_Unsigned_int_composite`: `size` is the byte count of `input` plus the
"additional byte to take care of unsigned-ness"; the output is `size` in two bytes,
`input` in `size` bytes, and the end-of-component byte. -/
def Db_encode_Unsigned_int_composite (input : Nat) : Bytes :=
  let temp_input := (input >>> 8) % 2 ^ 64
  let size := size_loop temp_input 1 + 1
  put_value 2 size ++ put_value size input ++ [0]

/-- Function `Db_encode_Unsigned8_composite`; on `bad_get` the initial `0xff` is encoded. -/
def Db_encode_Unsigned8_composite : DbDataValue → Bytes
  | .uint8 n => Db_encode_Unsigned_int_composite (n % 2 ^ 8)
  | _ => Db_encode_Unsigned_int_composite 0xff

/-- Function `Db_encode_Unsigned16_composite`; on `bad_get` the initial `0xffff` is encoded. -/
def Db_encode_Unsigned16_composite : DbDataValue → Bytes
  | .uint16 n => Db_encode_Unsigned_int_composite (n % 2 ^ 16)
  | _ => Db_encode_Unsigned_int_composite 0xffff

/-- Function `Db_encode_Unsigned32_composite`; on `bad_get` the initial `0xffffffff` is encoded. -/
def Db_encode_Unsigned32_composite : DbDataValue → Bytes
  | .uint32 n => Db_encode_Unsigned_int_composite (n % 2 ^ 32)
  | _ => Db_encode_Unsigned_int_composite 0xffffffff

/-- Function `Db_encode_Unsigned64_composite`; on `bad_get` the initial all-ones value is encoded. -/
def Db_encode_Unsigned64_composite : DbDataValue → Bytes
  | .uint64 n => Db_encode_Unsigned_int_composite (n % 2 ^ 64)
  | _ => Db_encode_Unsigned_int_composite 0xffffffffffffffff

/-- The common body of `Db_decode_Unsigned{8,16,32,64}_composite` for an `output` of `w`
bits: reads the 2-byte length `len`, folds `output = (output << 8) | byte` over the
next `len` bytes, and skips the end-of-component byte. Returns `output` and `used`. -/
def decode_Unsigned_composite (w : Nat) (input : Bytes) : Option (Nat × Nat) :=
  (readBytes input 0 2).bind fun hdr =>
    let len := get_value hdr % 2 ^ 16
    (readBytes input 2 len).map fun bs =>
      (bs.foldl (fun output b => ((output <<< 8) ||| b) % 2 ^ w) 0, 2 + len + 1)

/-- Function `Db_decode_Unsigned8_composite`. -/
def Db_decode_Unsigned8_composite (input : Bytes) : Option (DbDataValue × Nat) :=
  (decode_Unsigned_composite 8 input).map fun r => (DbDataValue.uint8 r.1, r.2)

/-- Function `Db_decode_Unsigned16_composite`. -/
def Db_decode_Unsigned16_composite (input : Bytes) : Option (DbDataValue × Nat) :=
  (decode_Unsigned_composite 16 input).map fun r => (DbDataValue.uint16 r.1, r.2)

/-- Function `Db_decode_Unsigned32_composite`. -/
def Db_decode_Unsigned32_composite (input : Bytes) : Option (DbDataValue × Nat) :=
  (decode_Unsigned_composite 32 input).map fun r => (DbDataValue.uint32 r.1, r.2)

/-- Function `Db_decode_Unsigned64_composite`. -/
def Db_decode_Unsigned64_composite (input : Bytes) : Option (DbDataValue × Nat) :=
  (decode_Unsigned_composite 64 input).map fun r => (DbDataValue.uint64 r.1, r.2)

/-! ## The type codec registry -/

/-- Record `CdbIfTypeInfo`: the backend type name and the four codec functions of a tag. A
composite decoder receives the buffer from `data + used` on and returns the value
with `elem_use`. -/
structure CdbIfTypeInfo where
  cassandra_type_ : String
  encode_composite_fn_ : DbDataValue → Bytes
  decode_composite_fn_ : Bytes → Option (DbDataValue × Nat)
  encode_non_composite_fn_ : DbDataValue → Bytes
  decode_non_composite_fn_ : Bytes → Option DbDataValue

/-- Table `CdbIf::CdbIfTypeMap`; `none` is `CdbIfTypeMap.find(type) == CdbIfTypeMap.end()`. -/
def CdbIfTypeMap : DbDataType → Option CdbIfTypeInfo
  | .AsciiType => some ⟨"AsciiType",
      Db_encode_string_composite, Db_decode_string_composite,
      Db_encode_string_non_composite, Db_decode_string_non_composite⟩
  | .LexicalUUIDType => some ⟨"LexicalUUIDType",
      Db_encode_UUID_composite, Db_decode_UUID_composite,
      Db_encode_UUID_non_composite, Db_decode_UUID_non_composite⟩
  | .TimeUUIDType => some ⟨"TimeUUIDType",
      Db_encode_UUID_composite, Db_decode_UUID_composite,
      Db_encode_UUID_non_composite, Db_decode_UUID_non_composite⟩
  | .Unsigned8Type => some ⟨"IntegerType",
      Db_encode_Unsigned8_composite, Db_decode_Unsigned8_composite,
      Db_encode_Unsigned8_non_composite, Db_decode_Unsigned8_non_composite⟩
  | .Unsigned16Type => some ⟨"IntegerType",
      Db_encode_Unsigned16_composite, Db_decode_Unsigned16_composite,
      Db_encode_Unsigned16_non_composite, Db_decode_Unsigned16_non_composite⟩
  | .Unsigned32Type => some ⟨"IntegerType",
      Db_encode_Unsigned32_composite, Db_decode_Unsigned32_composite,
      Db_encode_Unsigned32_non_composite, Db_decode_Unsigned32_non_composite⟩
  | .Unsigned64Type => some ⟨"IntegerType",
      Db_encode_Unsigned64_composite, Db_decode_Unsigned64_composite,
      Db_encode_Unsigned64_non_composite, Db_decode_Unsigned64_non_composite⟩
  | .Unregistered _ => none

/-- The tag has an entry in `CdbIfTypeMap`. -/
def isRegistered (t : DbDataType) : Bool := (CdbIfTypeMap t).isSome

/-! ## Vector encoding and decoding -/

/-- Function `DbDataTypeVecToCompositeType`: the loop over the members after the first one,
appending `", "` and the member's backend name; an unregistered member returns false. -/
def composite_type_loop (res : String) : DbDataTypeVec → Bool × String
  | [] => (true, res ++ ")")
  | t :: ts =>
    match CdbIfTypeMap t with
    | none => (false, res ++ ", ")
    | some jt => composite_type_loop (res ++ ", " ++ jt.cassandra_type_) ts

/-- Function `DbDataTypeVecToCompositeType(res, db_type)`. -/
def DbDataTypeVecToCompositeType (res : String) (db_type : DbDataTypeVec) : Bool × String :=
  match db_type with
  | [] => (false, res)
  | [t] =>
    match CdbIfTypeMap t with
    | none => (false, res)
    | some it => (true, it.cassandra_type_)
  | t :: t2 :: ts =>
    match CdbIfTypeMap t with
    | none => (false, "CompositeType(")
    | some jt => composite_type_loop ("CompositeType(" ++ jt.cassandra_type_) (t2 :: ts)

/-- Function `DbDataValueFromType(res, type, input)`. -/
def DbDataValueFromType (res : DbDataValue) (type : DbDataType) (input : Bytes) :
    Option (Bool × DbDataValue) :=
  match CdbIfTypeMap type with
  | none => some (false, res)
  | some it => (it.decode_non_composite_fn_ input).map fun r => (true, r)

/-- Function `DbDataValueToString(res, type, value)`: asserts that the tag is registered. -/
def DbDataValueToString (_res : Bytes) (type : DbDataType) (value : DbDataValue) :
    Option (Bool × Bytes) :=
  match CdbIfTypeMap type with
  | none => none
  | some it => some (true, it.encode_non_composite_fn_ value)

/-- Function `DbDataValueVecToString`, the composite branch: the loop over the matched
(type, value) pairs, each appending the composite encoding to `res`, and the check
after the loop that no value is left over once the types are exhausted. -/
def encode_composite_loop (res : Bytes) : DbDataTypeVec → DbDataValueVec → Bool × Bytes
  | [], [] => (true, res)
  | [], _ :: _ => (false, res)
  | _ :: _, [] => (true, res)
  | t :: ts, v :: vs =>
    match CdbIfTypeMap t with
    | none => (false, res)
    | some kt => encode_composite_loop (res ++ kt.encode_composite_fn_ v) ts vs

/-- Function `DbDataValueVecToString(res, typevec, input)`. -/
def DbDataValueVecToString (res : Bytes) (typevec : DbDataTypeVec) (input : DbDataValueVec) :
    Bool × Bytes :=
  match typevec with
  | [] => (false, res)
  | [t] =>
    match input with
    | [] => (true, res)
    | [v] =>
      match CdbIfTypeMap t with
      | none => (false, res)
      | some it => (true, it.encode_non_composite_fn_ v)
    | _ :: _ :: _ => (false, res)
  | t :: t2 :: ts => encode_composite_loop res (t :: t2 :: ts) input

/-- Function `DbDataValueVecFromString`, the composite branch: the loop over the types with
the cursor `used`. An unregistered type is logged and skipped; a registered type
requires `used < str_size`, otherwise false is returned. Returns the flag, the
values pushed onto `res`, and the final `used`. -/
def decode_composite_loop (input : Bytes) :
    DbDataTypeVec → Nat → DbDataValueVec → Option (Bool × DbDataValueVec × Nat)
  | [], used, res => some (true, res, used)
  | t :: ts, used, res =>
    match CdbIfTypeMap t with
    | none => decode_composite_loop input ts used res
    | some jt =>
      if used < input.length then
        match jt.decode_composite_fn_ ((c_str input).drop used) with
        | none => none
        | some (res1, elem_use) =>
          decode_composite_loop input ts (used + elem_use) (res ++ [res1])
      else some (false, res, used)

/-- Function `DbDataValueVecFromString(res, typevec, input)`. -/
def DbDataValueVecFromString (res : DbDataValueVec) (typevec : DbDataTypeVec) (input : Bytes) :
    Option (Bool × DbDataValueVec) :=
  match typevec with
  | [t] =>
    match DbDataValueFromType (.string []) t input with
    | none => none
    | some (false, _) => some (false, res)
    | some (true, res1) => some (true, res ++ [res1])
  | _ => (decode_composite_loop input typevec 0 res).map fun r => (r.1, r.2.1)

/-! ## The column-family registry and the key/column builders -/

/-- Modelled from the spec: `GenDb::NewCf::ColumnFamilyType` (declared in `gendb_if.h`). -/
inductive ColumnFamilyType where
  | COLUMN_FAMILY_INVALID
  | COLUMN_FAMILY_SQL
  | COLUMN_FAMILY_NOSQL
  deriving DecidableEq, Repr

/-- Modelled from the spec: `GenDb::NewCf` (declared in `gendb_if.h`), a column-family
definition; `cfcolumns_` is the map from the column names of a Flat family to their types. -/
structure NewCf where
  cfname_ : String
  cftype_ : ColumnFamilyType
  cfcolumns_ : List (Bytes × DbDataType)
  key_validation_class : DbDataTypeVec
  comparator_type : DbDataTypeVec
  default_validation_class : DbDataTypeVec
  deriving DecidableEq, Repr

/-- Modelled from the spec: the fields of the backend's `ColumnDef` that `CdbIf` sets. -/
structure ColumnDef where
  name : Bytes
  validation_class : String
  deriving DecidableEq, Repr

/-- Modelled from the spec: the fields of the backend's `CfDef` that `CdbIf` sets. -/
structure CfDef where
  keyspace : String
  name : String
  key_validation_class : String
  comparator_type : String
  default_validation_class : String
  column_metadata : List ColumnDef
  deriving DecidableEq, Repr

/-- Record `CdbIfCfInfo`: the backend's definition `cfdef_` and the locally declared
definition `cf_`, either of which may be absent. -/
structure CdbIfCfInfo where
  cfdef_ : Option CfDef
  cf_ : Option NewCf
  deriving DecidableEq, Repr

/-- Table `CdbIfCfList`: the registry, a map from column-family names to `CdbIfCfInfo`. -/
abbrev CdbIfCfListType := List (String × CdbIfCfInfo)

/-- Function `Db_GetColumnfamily(info, cfname)`: `none` is the return value false. -/
def Db_GetColumnfamily (CdbIfCfList : CdbIfCfListType) (cfname : String) : Option CdbIfCfInfo :=
  CdbIfCfList.lookup cfname

/-- The condition `!Db_GetColumnfamily(&info, cfname) || !(cf = info->cf_.get())` negated:
the locally declared definition of the family, when there is one. -/
def declared_cf (CdbIfCfList : CdbIfCfListType) (cfname : String) : Option NewCf :=
  (Db_GetColumnfamily CdbIfCfList cfname).bind fun info => info.cf_

/-- Function `DbDataValueToStringFromCf(res, cfname, col_name, value)`. -/
def DbDataValueToStringFromCf (CdbIfCfList : CdbIfCfListType) (res : Bytes) (cfname : String)
    (col_name : Bytes) (value : DbDataValue) : Option (Bool × Bytes) :=
  match declared_cf CdbIfCfList cfname with
  | none => some (false, res)
  | some cf =>
    match cf.cfcolumns_.lookup col_name with
    | none => some (false, res)
    | some type => DbDataValueToString res type value

/-- Function `ConstructDbDataValueKey(res, cfname, rowkey)`. -/
def ConstructDbDataValueKey (CdbIfCfList : CdbIfCfListType) (res : Bytes) (cfname : String)
    (rowkey : DbDataValueVec) : Bool × Bytes :=
  match declared_cf CdbIfCfList cfname with
  | none => (false, res)
  | some cf => DbDataValueVecToString res cf.key_validation_class rowkey

/-- Function `ConstructDbDataValueColumnName(res, cfname, name)`. -/
def ConstructDbDataValueColumnName (CdbIfCfList : CdbIfCfListType) (res : Bytes) (cfname : String)
    (name : DbDataValueVec) : Bool × Bytes :=
  match declared_cf CdbIfCfList cfname with
  | none => (false, res)
  | some cf => DbDataValueVecToString res cf.comparator_type name

/-- Function `ConstructDbDataValueColumnValue(res, cfname, value)`. -/
def ConstructDbDataValueColumnValue (CdbIfCfList : CdbIfCfListType) (res : Bytes) (cfname : String)
    (value : DbDataValueVec) : Bool × Bytes :=
  match declared_cf CdbIfCfList cfname with
  | none => (false, res)
  | some cf => DbDataValueVecToString res cf.default_validation_class value

/-! ## The interface object, the backend client and the observed events -/

/-- Modelled from the spec: `GenDb::NewCol` (declared in `gendb_if.h`), one column of a row
mutation. A column built from a string name and a scalar value is Flat
(`COLUMN_FAMILY_SQL`, one-element vectors); a column built from two value vectors is
Dynamic (`COLUMN_FAMILY_NOSQL`). -/
structure NewCol where
  cftype_ : ColumnFamilyType
  name : DbDataValueVec
  value : DbDataValueVec
  deriving DecidableEq, Repr

/-- Modelled from the spec: `GenDb::ColList` (declared in `gendb_if.h`), a row: the column
family name, the row key and the columns. -/
structure ColList where
  cfname_ : String
  rowkey_ : DbDataValueVec
  columns_ : List NewCol
  deriving DecidableEq, Repr

/-- Record `CdbIfColList`: the entry of the write queue; `new_cl` is an owning pointer
that may be null. -/
structure CdbIfColList where
  new_cl : Option ColList
  deriving DecidableEq, Repr

/-- Modelled from the spec: the backend's `Column` (name, value, timestamp, optional ttl). -/
structure Column where
  name : Bytes
  value : Bytes
  timestamp : Nat
  ttl : Option Nat
  deriving DecidableEq, Repr

/-- Modelled from the spec: the backend's `Mutation`; `CdbIf` only fills its
`column_or_supercolumn.column`. -/
abbrev Mutation := Column

/-- The argument of `batch_mutate`: row key, then column family, then mutation list. -/
abbrev MutationMap := List (Bytes × List (String × List Mutation))

/-- Modelled from the spec: the backend's `ConsistencyLevel`. -/
inductive ConsistencyLevel where
  | ONE
  | QUORUM
  | ALL
  deriving DecidableEq, Repr

/-- Modelled from the spec: the backend's `KeySlice`, a row key with its columns. -/
structure KeySlice where
  key : Bytes
  columns : List Column
  deriving DecidableEq, Repr

/-- The arguments of one `get_range_slices` call: the column parent, the slice range
(start, finish, count) and the key range (start key, end key, count). -/
structure RangeSlicesRequest where
  column_family : String
  start : Bytes
  finish : Bytes
  count : Nat
  start_key : Bytes
  end_key : Bytes
  key_count : Nat
  deriving DecidableEq, Repr

/-- The interactions of `CdbIf` with its collaborators that the properties below observe:
the two writing remote calls, the caller-supplied error handler, the invocation of
`MayBeStartRunner` on the write queue, and the runner handing a queue entry to the
callback `Db_AsyncAddColumn`. -/
inductive Event where
  | system_add_column_family (cf_def : CfDef)
  | batch_mutate (mutation_map : MutationMap) (consistency_level : ConsistencyLevel)
  | errhandler
  | MayBeStartRunner
  | callback (cl : CdbIfColList)
  deriving DecidableEq, Repr

/-- How a `system_add_column_family` call ends: normally or with one of the exceptions
that `NewDb_AddColumnfamily` catches. -/
inductive AddColumnFamilyOutcome where
  | ok
  | SchemaDisagreementException
  | InvalidRequestException
  | TApplicationException
  | TException
  deriving DecidableEq, Repr

/-- How a `batch_mutate` call ends: normally or with one of the exceptions that
`Db_AsyncAddColumn` catches. -/
inductive BatchMutateOutcome where
  | ok
  | InvalidRequestException
  | UnavailableException
  | TimedOutException
  | TTransportException
  | TException
  deriving DecidableEq, Repr

/-- How a `describe_keyspace` call ends: with the column-family definitions of the
keyspace, with `NotFoundException`, or with another exception. -/
inductive DescribeKeyspaceOutcome where
  | ok (cf_defs : List CfDef)
  | NotFoundException
  | exception
  deriving DecidableEq, Repr

/-- The backend behind `client_`: the answer to each remote call. The answer to a writing
call may depend on the events so far; `none` and false stand for an exception. -/
structure CassandraClient where
  system_add_column_family : List Event → CfDef → AddColumnFamilyOutcome
  batch_mutate : List Event → MutationMap → ConsistencyLevel → BatchMutateOutcome
  describe_keyspace : String → DescribeKeyspaceOutcome
  set_keyspace : String → Bool
  get_range_slices : RangeSlicesRequest → Option (List KeySlice)
  transport_open : Bool

/-- Modelled from the spec: `WorkQueue<CdbIfColList *>` of `base/queue_task.h`, a FIFO of
entries with a runner. The runner starts, when `MayBeStartRunner` is invoked, only if the
gate predicate bound at construction holds at that moment; once started it hands the
buffered entries to the callback in FIFO order. -/
structure WorkQueue where
  queue_ : List CdbIfColList
  running_ : Bool
  deriving DecidableEq, Repr

/-- The members of a `CdbIf` object that the modelled functions read or write, and the
events observed so far. `cdbq_` is an owning pointer that is null until `Db_Init`. -/
structure CdbIfState where
  CdbIfCfList : CdbIfCfListType
  tablespace_ : String
  db_init_done_ : Bool
  cdbq_ : Option WorkQueue
  enable_stats_ : Bool
  cassandra_ttl_ : Nat
  events : List Event
  deriving DecidableEq, Repr

/-- Constructor `CdbIf::CdbIf`: `db_init_done_` is false, the registry is empty and no
queue exists. -/
def construct (enable_stats : Bool) (ttl : Nat) : CdbIfState :=
  { CdbIfCfList := [], tablespace_ := "", db_init_done_ := false, cdbq_ := none,
    enable_stats_ := enable_stats, cassandra_ttl_ := ttl, events := [] }

/-! ## The column-family schema registry -/

/-- Function `Db_FindColumnfamily(cfname)`: the name has an entry with a locally declared
definition. Returns the flag and the object state. -/
def Db_FindColumnfamily (s : CdbIfState) (cfname : String) : Bool × CdbIfState :=
  match s.CdbIfCfList.lookup cfname with
  | some it => if it.cf_.isSome then (true, s) else (false, s)
  | none => (false, s)

/-- Function `Db_Columnfamily_present(cfname)`: the name has an entry. Returns the flag and
the object state. -/
def Db_Columnfamily_present (s : CdbIfState) (cfname : String) : Bool × CdbIfState :=
  match s.CdbIfCfList.lookup cfname with
  | some _ => (true, s)
  | none => (false, s)

/-- The call `CdbIfCfList.insert(name, info)` of the pointer map: the entry is added unless
the name already has one. -/
def ptr_map_insert (CdbIfCfList : CdbIfCfListType) (name : String) (info : CdbIfCfInfo) :
    CdbIfCfListType :=
  match CdbIfCfList.lookup name with
  | some _ => CdbIfCfList
  | none => CdbIfCfList ++ [(name, info)]

/-- The statement `cfinfo->cf_.reset(new GenDb::NewCf(cf))` on the entry that
`Db_GetColumnfamily` found for `cfname`. -/
def reset_cf : CdbIfCfListType → String → NewCf → CdbIfCfListType
  | [], _, _ => []
  | (name, info) :: rest, cfname, cf =>
    if cfname == name then (name, { info with cf_ := some cf }) :: rest
    else (name, info) :: reset_cf rest cfname cf

/-- Function `NewDb_AddColumnfamily`, the loop over `cf.cfcolumns_` that builds the column
metadata; `none` is the `return false` on an unregistered column type. -/
def column_metadata_loop : List (Bytes × DbDataType) → List ColumnDef → Option (List ColumnDef)
  | [], col_vec => some col_vec
  | (name, type) :: rest, col_vec =>
    match CdbIfTypeMap type with
    | none => none
    | some jt => column_metadata_loop rest (col_vec ++ [⟨name, jt.cassandra_type_⟩])

/-- Function `NewDb_AddColumnfamily`, the part common to both kinds of family once `cf_def`
is built: an existing entry gets the definition attached; otherwise the remote
`system_add_column_family` call is issued and, when it succeeds, a new entry is inserted. -/
def add_or_attach (client : CassandraClient) (s : CdbIfState) (cf : NewCf) (cf_def : CfDef) :
    Bool × CdbIfState :=
  match Db_GetColumnfamily s.CdbIfCfList cf.cfname_ with
  | some _ => (true, { s with CdbIfCfList := reset_cf s.CdbIfCfList cf.cfname_ cf })
  | none =>
    let s1 := { s with events := s.events ++ [Event.system_add_column_family cf_def] }
    match client.system_add_column_family s.events cf_def with
    | .ok =>
      let l := ptr_map_insert s1.CdbIfCfList cf.cfname_ ⟨some cf_def, some cf⟩
      (true, { s1 with CdbIfCfList := l })
    | _ => (false, s1)

/-- Function `NewDb_AddColumnfamily(cf)`. The fields of `cf_def` that the function does not
set are left empty. -/
def NewDb_AddColumnfamily (client : CassandraClient) (s : CdbIfState) (cf : NewCf) :
    Bool × CdbIfState :=
  match Db_FindColumnfamily s cf.cfname_ with
  | (true, s) => (true, s)
  | (false, s) =>
    match cf.cftype_ with
    | .COLUMN_FAMILY_SQL =>
      match DbDataTypeVecToCompositeType "" cf.key_validation_class with
      | (false, _) => (false, s)
      | (true, key_valid_class) =>
        match column_metadata_loop cf.cfcolumns_ [] with
        | none => (false, s)
        | some col_vec =>
          add_or_attach client s cf
            { keyspace := s.tablespace_, name := cf.cfname_,
              key_validation_class := key_valid_class, comparator_type := "",
              default_validation_class := "", column_metadata := col_vec }
    | .COLUMN_FAMILY_NOSQL =>
      match DbDataTypeVecToCompositeType "" cf.key_validation_class with
      | (false, _) => (false, s)
      | (true, key_valid_class) =>
        match DbDataTypeVecToCompositeType "" cf.comparator_type with
        | (false, _) => (false, s)
        | (true, comparator_type) =>
          match DbDataTypeVecToCompositeType "" cf.default_validation_class with
          | (false, _) => (false, s)
          | (true, default_validation_class) =>
            add_or_attach client s cf
              { keyspace := s.tablespace_, name := cf.cfname_,
                key_validation_class := key_valid_class, comparator_type := comparator_type,
                default_validation_class := default_validation_class, column_metadata := [] }
    | .COLUMN_FAMILY_INVALID => (false, s)

/-- Function `Db_FindTablespace(tablespace)`: true when `describe_keyspace` succeeds. -/
def Db_FindTablespace (client : CassandraClient) (tablespace : String) : Bool :=
  match client.describe_keyspace tablespace with
  | .ok _ => true
  | _ => false

/-- Function `Db_SetTablespace(tablespace)`: selects the keyspace and inserts an entry
without a locally declared definition for each column family the backend describes. -/
def Db_SetTablespace (client : CassandraClient) (s : CdbIfState) (tablespace : String) :
    Bool × CdbIfState :=
  if Db_FindTablespace client tablespace then
    if client.set_keyspace tablespace then
      let s1 := { s with tablespace_ := tablespace }
      match client.describe_keyspace tablespace with
      | .ok cf_defs =>
        let l := cf_defs.foldl
          (fun l cfdef => ptr_map_insert l cfdef.name ⟨some cfdef, none⟩) s1.CdbIfCfList
        (true, { s1 with CdbIfCfList := l })
      | _ => (false, s1)
    else (false, s)
  else (false, s)

/-! ## The asynchronous write queue -/

/-- Function `Db_IsInitDone()`. Returns the flag and the object state. -/
def Db_IsInitDone (s : CdbIfState) : Bool × CdbIfState := (s.db_init_done_, s)

/-- Modelled from the spec: `WorkQueue::MayBeStartRunner()` of `base/queue_task.h`. The
runner starts only if the gate predicate holds at the moment of the invocation; `gate` is
the value of the predicate at that moment. -/
def WorkQueue.MayBeStartRunner (q : WorkQueue) (gate : Bool) : WorkQueue :=
  if gate then { q with running_ := true } else q

/-- Modelled from the spec: `WorkQueue::Enqueue(entry)` of `base/queue_task.h`: the entry is
appended to the FIFO and the queue tries to start its runner. -/
def WorkQueue.Enqueue (q : WorkQueue) (entry : CdbIfColList) (gate : Bool) : WorkQueue :=
  WorkQueue.MayBeStartRunner { q with queue_ := q.queue_ ++ [entry] } gate

/-- Function `Db_SetInitDone(init_done)`. The gate predicate of the queue is `Db_IsInitDone`,
evaluated on the object as it is when `cdbq_->MayBeStartRunner()` is invoked, which is
before `db_init_done_` is assigned. The result is `none` when the null `cdbq_` is
dereferenced. -/
def Db_SetInitDone (s : CdbIfState) (init_done : Bool) : Option CdbIfState :=
  if s.db_init_done_ != init_done then
    if init_done then
      match s.cdbq_ with
      | none => none
      | some q =>
        let gate := (Db_IsInitDone s).1
        let s1 := { s with cdbq_ := some (q.MayBeStartRunner gate),
                           events := s.events ++ [Event.MayBeStartRunner] }
        some { s1 with db_init_done_ := init_done }
    else some { s with db_init_done_ := init_done }
  else some s

/-- Function `Db_Init(task_id, task_instance)`: creates the queue unless one exists, then
opens the transport; the return value is false when opening throws. (The periodic stats
timer is not modelled.) -/
def Db_Init (client : CassandraClient) (s : CdbIfState) : Bool × CdbIfState :=
  let s1 := match s.cdbq_ with
    | none => { s with cdbq_ := some { queue_ := [], running_ := false } }
    | some _ => s
  (client.transport_open, s1)

/-- Function `Db_Uninit(shutdown)`: closes the transport and, on shutdown, shuts the queue
down and releases it. The result is `none` when the null `cdbq_` is dereferenced. (The
periodic stats timer is not modelled.) -/
def Db_Uninit (s : CdbIfState) (shutdown : Bool) : Option CdbIfState :=
  if shutdown then
    match s.cdbq_ with
    | none => none
    | some _ => some { s with cdbq_ := none }
  else some s

/-- Function `NewDb_AddColumn(cl)`: false when no queue exists, otherwise the entry is
enqueued. -/
def NewDb_AddColumn (s : CdbIfState) (cl : Option ColList) : Bool × CdbIfState :=
  match s.cdbq_ with
  | none => (false, s)
  | some q => (true, { s with cdbq_ := some (q.Enqueue ⟨cl⟩ (Db_IsInitDone s).1) })

/-- How the loop over the columns of `Db_AsyncAddColumn` ends: it runs to its end, a
`CDBIF_CONDCHECK_LOG_RETF` returns false, or the assertion of `DbDataValueToString`
aborts. -/
inductive LoopExit (α : Type) where
  | done (a : α)
  | retf
  | abort
  deriving Repr

/-- Function `Db_AsyncAddColumn`, the loop over `new_colp->columns_` with the running
`cftype` and the mutations built so far. The return values of the three builders are not
looked at; each starts from an empty output string. -/
def mutation_loop (CdbIfCfList : CdbIfCfListType) (cfname : String) (ts : Nat)
    (cassandra_ttl : Nat) :
    List NewCol → ColumnFamilyType → List Mutation → LoopExit (List Mutation)
  | [], _, mutations => .done mutations
  | it :: rest, cftype, mutations =>
    let ttl := if cassandra_ttl = 0 then none else some cassandra_ttl
    match it.cftype_ with
    | .COLUMN_FAMILY_SQL =>
      match it.name, it.value with
      | [n], [v] =>
        if cftype = .COLUMN_FAMILY_NOSQL then .retf
        else
          let col_name : Bytes := match n with
            | .string x => x
            | _ => []
          match DbDataValueToStringFromCf CdbIfCfList [] cfname col_name v with
          | none => .abort
          | some (_, col_value) =>
            mutation_loop CdbIfCfList cfname ts cassandra_ttl rest .COLUMN_FAMILY_SQL
              (mutations ++ [⟨col_name, col_value, ts, ttl⟩])
      | _, _ => .retf
    | .COLUMN_FAMILY_NOSQL =>
      if cftype = .COLUMN_FAMILY_SQL then .retf
      else
        let col_name := (ConstructDbDataValueColumnName CdbIfCfList [] cfname it.name).2
        let col_value := (ConstructDbDataValueColumnValue CdbIfCfList [] cfname it.value).2
        mutation_loop CdbIfCfList cfname ts cassandra_ttl rest .COLUMN_FAMILY_NOSQL
          (mutations ++ [⟨col_name, col_value, ts, ttl⟩])
    | .COLUMN_FAMILY_INVALID => .retf

/-- Function `Db_AsyncAddColumn(cl)`, the callback of the write queue; `ts` is the reading of
`UTCTimestampUsec()`. The first component is the return value, `none` when the assertion
of `DbDataValueToString` aborts; the second is the object state reached. -/
def Db_AsyncAddColumn (client : CassandraClient) (s : CdbIfState) (ts : Nat)
    (cl : CdbIfColList) : Option Bool × CdbIfState :=
  match cl.new_cl with
  | none => (some true, s)
  | some new_colp =>
    match mutation_loop s.CdbIfCfList new_colp.cfname_ ts s.cassandra_ttl_ new_colp.columns_
        .COLUMN_FAMILY_INVALID [] with
    | .abort => (none, s)
    | .retf => (some false, s)
    | .done mutations =>
      let cf_map := [(new_colp.cfname_, mutations)]
      let key_value :=
        (ConstructDbDataValueKey s.CdbIfCfList [] new_colp.cfname_ new_colp.rowkey_).2
      let mutation_map : MutationMap := [(key_value, cf_map)]
      let s1 := { s with events := s.events ++ [Event.batch_mutate mutation_map .ONE] }
      match client.batch_mutate s.events mutation_map .ONE with
      | .TTransportException => (some false, { s1 with events := s1.events ++ [Event.errhandler] })
      | _ => (some true, s1)

/-- Modelled from the spec: the runner of the work queue, once started: it dequeues the
buffered entries in FIFO order and hands each to the callback `Db_AsyncAddColumn`, whatever
the callback returns. `clock` gives the timestamp read by each callback. The flag is false
when a callback aborts. -/
def runner_loop (client : CassandraClient) (clock : List Event → Nat) :
    List CdbIfColList → CdbIfState → Bool × CdbIfState
  | [], s => (true, s)
  | entry :: rest, s =>
    let s1 := { s with cdbq_ := s.cdbq_.map (fun q => { q with queue_ := rest }),
                       events := s.events ++ [Event.callback entry] }
    match Db_AsyncAddColumn client s1 (clock s1.events) entry with
    | (none, s2) => (false, s2)
    | (some _, s2) => runner_loop client clock rest s2

/-- Modelled from the spec: one execution of the runner task of the work queue: nothing
happens unless the runner has been started; a started runner drains the queue and stops. -/
def run_queue (client : CassandraClient) (clock : List Event → Nat) (s : CdbIfState) :
    Bool × CdbIfState :=
  match s.cdbq_ with
  | none => (true, s)
  | some q =>
    if q.running_ then
      let r := runner_loop client clock q.queue_ s
      (r.1, { r.2 with cdbq_ := r.2.cdbq_.map (fun q => { q with running_ := false }) })
    else (true, s)

/-! ## Reads: decoding of columns and the range-slice pagination -/

/-- Function `DbDataValueFromString(res, cfname, col_name, input)`. -/
def DbDataValueFromString (CdbIfCfList : CdbIfCfListType) (res : DbDataValue) (cfname : String)
    (col_name : Bytes) (input : Bytes) : Option (Bool × DbDataValue) :=
  match declared_cf CdbIfCfList cfname with
  | none => some (false, res)
  | some cf =>
    match cf.cfcolumns_.lookup col_name with
    | none => some (false, res)
    | some type =>
      match CdbIfTypeMap type with
      | none => some (false, res)
      | some jt => (jt.decode_non_composite_fn_ input).map fun r => (true, r)

/-- Function `ColListFromColumnOrSuper`, the loop of the Flat branch: a column whose value
does not decode is logged and skipped. -/
def sql_columns_loop (CdbIfCfList : CdbIfCfListType) (cfname : String) :
    List Column → List NewCol → Option (List NewCol)
  | [], columns => some columns
  | citer :: rest, columns =>
    match DbDataValueFromString CdbIfCfList (.string []) cfname citer.name citer.value with
    | none => none
    | some (false, _) => sql_columns_loop CdbIfCfList cfname rest columns
    | some (true, res) =>
      sql_columns_loop CdbIfCfList cfname rest
        (columns ++ [⟨.COLUMN_FAMILY_SQL, [.string citer.name], [res]⟩])

/-- Function `ColListFromColumnOrSuper`, the loop of the Dynamic branch: a column whose name
or value does not decode is logged and skipped. -/
def nosql_columns_loop (cf : NewCf) : List Column → List NewCol → Option (List NewCol)
  | [], columns => some columns
  | citer :: rest, columns =>
    match DbDataValueVecFromString [] cf.comparator_type citer.name with
    | none => none
    | some (false, _) => nosql_columns_loop cf rest columns
    | some (true, name) =>
      match DbDataValueVecFromString [] cf.default_validation_class citer.value with
      | none => none
      | some (false, _) => nosql_columns_loop cf rest columns
      | some (true, value) =>
        nosql_columns_loop cf rest (columns ++ [⟨.COLUMN_FAMILY_NOSQL, name, value⟩])

/-- Function `ColListFromColumnOrSuper(ret, result, cfname)`; `none` when a decoder reads
beyond its input. -/
def ColListFromColumnOrSuper (CdbIfCfList : CdbIfCfListType) (ret : ColList)
    (result : List Column) (cfname : String) : Option (Bool × ColList) :=
  match declared_cf CdbIfCfList cfname with
  | none => some (false, ret)
  | some cf =>
    match cf.cftype_ with
    | .COLUMN_FAMILY_SQL =>
      (sql_columns_loop CdbIfCfList cfname result ret.columns_).map fun columns =>
        (true, { ret with columns_ := columns })
    | .COLUMN_FAMILY_NOSQL =>
      (nosql_columns_loop cf result ret.columns_).map fun columns =>
        (true, { ret with columns_ := columns })
    | .COLUMN_FAMILY_INVALID => some (true, ret)

/-- Modelled from the spec: `GenDb::ColumnNameRange` (declared in `gendb_if.h`): the start
bound, the finish bound (each empty for unbounded) and the requested page size. -/
structure ColumnNameRange where
  start_ : DbDataValueVec
  finish_ : DbDataValueVec
  count : Nat
  deriving DecidableEq, Repr

/-- Function `Db_GetRangeSlices_Internal(col_list, cfname, crange, rowkey)`: one page request,
pinned to the one row key. -/
def Db_GetRangeSlices_Internal (client : CassandraClient) (s : CdbIfState) (col_list : ColList)
    (cfname : String) (crange : ColumnNameRange) (rowkey : DbDataValueVec) :
    Option (Bool × ColList) :=
  match ConstructDbDataValueKey s.CdbIfCfList [] cfname rowkey with
  | (false, _) => some (false, col_list)
  | (true, key_string) =>
    match ConstructDbDataValueColumnName s.CdbIfCfList [] cfname crange.start_ with
    | (false, _) => some (false, col_list)
    | (true, start_string) =>
      match ConstructDbDataValueColumnName s.CdbIfCfList [] cfname crange.finish_ with
      | (false, _) => some (false, col_list)
      | (true, finish_string) =>
        match client.get_range_slices
            { column_family := cfname, start := start_string, finish := finish_string,
              count := crange.count, start_key := key_string, end_key := key_string,
              key_count := 1 } with
        | none => some (false, col_list)
        | some [] => some (true, col_list)
        | some [ks] =>
          (ColListFromColumnOrSuper s.CdbIfCfList col_list ks.columns cfname).map fun r =>
            (true, r.2)
        | some (_ :: _ :: _) => some (false, col_list)

/-- How a run of the pagination loop ends under a bound on the number of iterations: the
bound is exhausted, a decoder reads beyond its input, or the function returns. -/
inductive Run (α : Type) where
  | out_of_fuel
  | undefined
  | returned (a : α)
  deriving Repr, DecidableEq

/-- Function `Db_GetRangeSlices`, the loop `while (col_limit_reached && result)`, run for at
most `fuel` iterations. -/
def range_slices_loop (client : CassandraClient) (s : CdbIfState) (cfname : String)
    (crange : ColumnNameRange) (rowkey : DbDataValueVec) :
    Nat → ColList → ColumnNameRange → Bool → Bool → Run (Bool × ColList)
  | 0, col_list, _, col_limit_reached, result =>
    if col_limit_reached && result then .out_of_fuel else .returned (result, col_list)
  | fuel + 1, col_list, crange_new, col_limit_reached, result =>
    if col_limit_reached && result then
      match Db_GetRangeSlices_Internal client s ⟨"", [], []⟩ cfname crange_new rowkey with
      | none => .undefined
      | some (result, next_col_list) =>
        let col_limit_reached := decide (next_col_list.columns_.length = crange.count)
        let crange_new := match col_limit_reached, next_col_list.columns_.getLast? with
          | true, some back => { crange_new with start_ := back.name }
          | _, _ => crange_new
        let col_list :=
          { col_list with columns_ := col_list.columns_ ++ next_col_list.columns_.tail }
        range_slices_loop client s cfname crange rowkey fuel col_list crange_new
          col_limit_reached result
    else .returned (result, col_list)

/-- Function `Db_GetRangeSlices(col_list, cfname, crange, rowkey)`, its loop run for at most
`fuel` iterations. -/
def Db_GetRangeSlices (client : CassandraClient) (s : CdbIfState) (fuel : Nat)
    (col_list : ColList) (cfname : String) (crange : ColumnNameRange)
    (rowkey : DbDataValueVec) : Run (Bool × ColList) :=
  match Db_GetRangeSlices_Internal client s col_list cfname crange rowkey with
  | none => .undefined
  | some (result, col_list) =>
    let col_limit_reached := decide (col_list.columns_.length = crange.count)
    let crange_new := match col_limit_reached, col_list.columns_.getLast? with
      | true, some back => { crange with start_ := back.name }
      | _, _ => crange
    range_slices_loop client s cfname crange rowkey fuel col_list crange_new
      col_limit_reached result

/-! ## Re-declaration and the multi-row read -/

/-- Function `Db_UseColumnfamily(cf)`: true at once when the family is already usable;
otherwise the definition is attached to the entry of the name, if there is one. -/
def Db_UseColumnfamily (s : CdbIfState) (cf : NewCf) : Bool × CdbIfState :=
  match Db_FindColumnfamily s cf.cfname_ with
  | (true, s) => (true, s)
  | (false, s) =>
    match Db_GetColumnfamily s.CdbIfCfList cf.cfname_ with
    | none => (false, s)
    | some _ => (true, { s with CdbIfCfList := reset_cf s.CdbIfCfList cf.cfname_ cf })

/-- Function `Db_GetMultiRow`, the inner loop
`for (int i = 0; (it != rowkeys.end()) && (i <= max_query_rows); it++, i++)` that encodes
the keys of one sub-batch. Returns the keys and the row keys not yet visited; `none` is the
`return false` on a key that does not encode. `max_query_rows` is a constant of `cdb_if.h`,
taken as a parameter. -/
def multi_row_keys (CdbIfCfList : CdbIfCfListType) (cfname : String) (max_query_rows : Nat) :
    List DbDataValueVec → Nat → List Bytes → Option (List Bytes × List DbDataValueVec)
  | [], _, keys => some (keys, [])
  | it :: rest, i, keys =>
    if i ≤ max_query_rows then
      match ConstructDbDataValueKey CdbIfCfList [] cfname it with
      | (false, _) => none
      | (true, key) =>
        multi_row_keys CdbIfCfList cfname max_query_rows rest (i + 1) (keys ++ [key])
    else some (keys, it :: rest)

/-- Function `Db_GetMultiRow`, the loop over the rows that `multiget_slice` returned, in the
order of the returned map: a row whose key does not decode is logged and skipped. `none`
when a decoder reads beyond its input. -/
def multi_row_results (CdbIfCfList : CdbIfCfListType) (cf : NewCf) (cfname : String) :
    List (Bytes × List Column) → List ColList → Option (List ColList)
  | [], ret => some ret
  | (key, columns) :: rest, ret =>
    match DbDataValueVecFromString [] cf.key_validation_class key with
    | none => none
    | some (false, _) => multi_row_results CdbIfCfList cf cfname rest ret
    | some (true, rowkey) =>
      match ColListFromColumnOrSuper CdbIfCfList ⟨"", rowkey, []⟩ columns cfname with
      | none => none
      | some (_, col_list) => multi_row_results CdbIfCfList cf cfname rest (ret ++ [col_list])

/-- Function `Db_GetMultiRow`, the loop `while (it != rowkeys.end())`, run for at most `fuel`
iterations. `multiget_slice` is the backend's answer to a call with the given keys, `none`
for an exception. The second component lists the key vectors of the `multiget_slice` calls
issued, in order. -/
def multi_row_loop (multiget_slice : List Bytes → Option (List (Bytes × List Column)))
    (s : CdbIfState) (cfname : String) (max_query_rows : Nat) :
    Nat → List DbDataValueVec → List ColList → List (List Bytes) →
      Run (Bool × List ColList) × List (List Bytes)
  | _, [], ret, calls => (.returned (true, ret), calls)
  | 0, _ :: _, _, calls => (.out_of_fuel, calls)
  | fuel + 1, it :: rest, ret, calls =>
    match multi_row_keys s.CdbIfCfList cfname max_query_rows (it :: rest) 0 [] with
    | none => (.returned (false, ret), calls)
    | some (keys, remaining) =>
      match multiget_slice keys with
      | none => (.returned (false, ret), calls ++ [keys])
      | some ret_c =>
        match declared_cf s.CdbIfCfList cfname with
        | none => (.returned (false, ret), calls ++ [keys])
        | some cf =>
          match multi_row_results s.CdbIfCfList cf cfname ret_c ret with
          | none => (.undefined, calls ++ [keys])
          | some ret =>
            multi_row_loop multiget_slice s cfname max_query_rows fuel remaining ret
              (calls ++ [keys])

/-- Function `Db_GetMultiRow(ret, cfname, rowkeys)`. Every iteration of its loop visits at
least one row key, so the loop is run for as many iterations as there are row keys. -/
def Db_GetMultiRow (multiget_slice : List Bytes → Option (List (Bytes × List Column)))
    (s : CdbIfState) (max_query_rows : Nat) (ret : List ColList) (cfname : String)
    (rowkeys : List DbDataValueVec) : Run (Bool × List ColList) × List (List Bytes) :=
  multi_row_loop multiget_slice s cfname max_query_rows rowkeys.length rowkeys ret []

/-! ## Specification-side notions -/

/-- The value of a byte sequence read as an unsigned big-endian integer. -/
def be_value (bs : Bytes) : Nat := bs.foldl (fun a b => a * 256 + b) 0

/-- The number `n ≥ 1` is the least number of bytes that holds `v`. -/
def is_minimal_width (v n : Nat) : Prop :=
  1 ≤ n ∧ v < 256 ^ n ∧ ∀ m, 1 ≤ m → v < 256 ^ m → n ≤ m

/-- The format of a non-composite unsigned integer as the specification words it: `enc` is
a first byte `0x00` followed by the `n` bytes of `v` in big-endian order, `n ≥ 1` least
with `v < 256 ^ n`, hence `n + 1` bytes long. -/
def guarded_minimal_big_endian (v : Nat) (enc : Bytes) : Prop :=
  ∃ n bs, is_minimal_width v n ∧ enc = 0 :: bs ∧ bs.length = n ∧ (∀ b ∈ bs, b < 256) ∧
    be_value bs = v ∧ enc.length = n + 1

/-- An Ascii value whose length fits the 2-byte length field of a composite component;
values of the other variants always fit. -/
def ascii_fits : DbDataValue → Bool
  | .string s => decide (s.length < 65536)
  | _ => true

/-- The composite encoding of `v` under the tag `t`, empty for an unregistered tag. -/
def composite_encoding (t : DbDataType) (v : DbDataValue) : Bytes :=
  match CdbIfTypeMap t with
  | some kt => kt.encode_composite_fn_ v
  | none => []

/-- The concatenation of the composite encodings of the values `V[i]` under the tags
`T[i]`, over the positions that both vectors have. -/
def concat_composite : DbDataTypeVec → DbDataValueVec → Bytes
  | t :: ts, v :: vs => composite_encoding t v ++ concat_composite ts vs
  | _, _ => []

/-- One block of the composite wire format as the specification words it: `blk` is the
2-byte big-endian length of the component bytes `c`, then `c`, then one terminator
byte `0x00`. -/
def is_composite_block (c blk : Bytes) : Prop :=
  ∃ hi lo, hi < 256 ∧ lo < 256 ∧ hi * 256 + lo = c.length ∧ blk = hi :: lo :: (c ++ [0])

/-- The component bytes the specification fixes: the raw bytes of an Ascii string and the
16 raw bytes of a UUID. -/
def is_raw_component (t : DbDataType) (v : DbDataValue) (c : Bytes) : Prop :=
  match t, v with
  | .AsciiType, .string s => c = s
  | .LexicalUUIDType, .uuid u => c = u
  | .TimeUUIDType, .uuid u => c = u
  | _, _ => True

/-- The composite wire format as the specification words it: `out` is the concatenation,
in type-vector order, of one block per component. -/
def composite_wire_format : DbDataTypeVec → DbDataValueVec → Bytes → Prop
  | [], [], out => out = []
  | t :: ts, v :: vs, out =>
    ∃ c blk rest, is_raw_component t v c ∧ is_composite_block c blk ∧ out = blk ++ rest ∧
      composite_wire_format ts vs rest
  | _, _, _ => False

/-- The composite unsigned-integer component as the specification words it: the 2-byte
big-endian length `n`, exactly the `n` minimal big-endian magnitude bytes of `v` with
no guard byte, and the terminator, `n + 3` bytes in total. -/
def unguarded_composite_unsigned (v : Nat) (enc : Bytes) : Prop :=
  ∃ n bs, is_minimal_width v n ∧ bs.length = n ∧ (∀ b ∈ bs, b < 256) ∧ be_value bs = v ∧
    is_composite_block bs enc ∧ enc.length = n + 3

/-- The composite unsigned-integer component with the guard byte: the 2-byte big-endian
length `n + 1`, the byte `0x00`, the `n` minimal big-endian magnitude bytes of `v`, and
the terminator, `n + 4` bytes in total. -/
def guarded_composite_unsigned (v : Nat) (enc : Bytes) : Prop :=
  ∃ n bs, is_minimal_width v n ∧ bs.length = n ∧ (∀ b ∈ bs, b < 256) ∧ be_value bs = v ∧
    is_composite_block (0 :: bs) enc ∧ enc.length = n + 4

/-- The backend type names as the specification lists them. -/
def backend_name : DbDataType → String
  | .AsciiType => "AsciiType"
  | .LexicalUUIDType => "LexicalUUIDType"
  | .TimeUUIDType => "TimeUUIDType"
  | .Unsigned8Type => "IntegerType"
  | .Unsigned16Type => "IntegerType"
  | .Unsigned32Type => "IntegerType"
  | .Unsigned64Type => "IntegerType"
  | .Unregistered _ => ""

/-- The names in order, separated by `", "`. -/
def join_names : List String → String
  | [] => ""
  | [a] => a
  | a :: b :: rest => a ++ ", " ++ join_names (b :: rest)

/-- The backend type descriptor as the specification words it: the tag's backend name for a
single tag, and otherwise `CompositeType(` followed by the members' backend names in order,
separated by `", "`, and closed by `)`. -/
def composite_descriptor (T : DbDataTypeVec) : String :=
  match T with
  | [t] => backend_name t
  | _ => "CompositeType(" ++ join_names (T.map backend_name) ++ ")"

/-- A type vector as a valid definition needs it: non-empty and over registered tags. -/
def valid_types (T : DbDataTypeVec) : Bool :=
  !T.isEmpty && T.all isRegistered

/-- A valid Flat or Dynamic definition: a Flat one has a valid key type vector and
registered column types; a Dynamic one has valid key, comparator and default-value type
vectors. -/
def valid_definition (cf : NewCf) : Bool :=
  match cf.cftype_ with
  | .COLUMN_FAMILY_SQL =>
    valid_types cf.key_validation_class && cf.cfcolumns_.all (fun p => isRegistered p.2)
  | .COLUMN_FAMILY_NOSQL =>
    valid_types cf.key_validation_class && valid_types cf.comparator_type &&
      valid_types cf.default_validation_class
  | .COLUMN_FAMILY_INVALID => false

/-- The number of `system_add_column_family` calls among the events. -/
def create_calls (events : List Event) : Nat :=
  (events.filter fun e => match e with
    | .system_add_column_family _ => true
    | _ => false).length

/-- The Flat family `events` with the columns `id : Ascii` and `ts : U64` of the bootstrap
scenario, over a key type vector `key`; the column names are the bytes of `id` and `ts`. -/
def events_family (key : DbDataTypeVec) : NewCf :=
  { cfname_ := "events", cftype_ := .COLUMN_FAMILY_SQL,
    cfcolumns_ := [([105, 100], .AsciiType), ([116, 115], .Unsigned64Type)],
    key_validation_class := key, comparator_type := [], default_validation_class := [] }

/-- A backend on which every call succeeds: the keyspace exists and has the column families
`cf_defs`, and a range read returns no row. -/
def accepting_client (cf_defs : List CfDef) : CassandraClient :=
  { system_add_column_family := fun _ _ => .ok,
    batch_mutate := fun _ _ _ => .ok,
    describe_keyspace := fun _ => .ok cf_defs,
    set_keyspace := fun _ => true,
    get_range_slices := fun _ => some [],
    transport_open := true }

/-- The object after `NewDb_AddColumn` has been called on each of the items in turn. -/
def enqueue_all (s : CdbIfState) (items : List (Option ColList)) : CdbIfState :=
  items.foldl (fun s cl => (NewDb_AddColumn s cl).2) s

/-- The number of invocations of `cdbq_->MayBeStartRunner()` among the events. -/
def runner_triggers (events : List Event) : Nat :=
  (events.filter fun e => match e with
    | .MayBeStartRunner => true
    | _ => false).length

/-- The number of `batch_mutate` calls among the events. -/
def batch_mutate_calls (events : List Event) : Nat :=
  (events.filter fun e => match e with
    | .batch_mutate _ _ => true
    | _ => false).length

/-- The mutation that the drain builds for one column of an item of a family declared as
`cf`. A Dynamic column carries the outputs of the encoder for its name under the comparator
types and for its value under the default-value types. A Flat column carries the bytes of
its string name and the non-composite encoding of its value under the type the column map
gives the name, the value being empty when the map does not have the name. -/
def expected_mutation (cf : NewCf) (ts : Nat) (cassandra_ttl : Nat) (c : NewCol) : Mutation :=
  let ttl := if cassandra_ttl = 0 then none else some cassandra_ttl
  match c.cftype_, c.name, c.value with
  | .COLUMN_FAMILY_SQL, [.string n], [v] =>
    let col_value : Bytes := match cf.cfcolumns_.lookup n with
      | some type =>
        match CdbIfTypeMap type with
        | some it => it.encode_non_composite_fn_ v
        | none => []
      | none => []
    ⟨n, col_value, ts, ttl⟩
  | _, name, value =>
    ⟨(DbDataValueVecToString [] cf.comparator_type name).2,
     (DbDataValueVecToString [] cf.default_validation_class value).2, ts, ttl⟩

/-- The columns of an item are all Dynamic. -/
def all_dynamic (columns : List NewCol) : Prop :=
  ∀ c ∈ columns, c.cftype_ = .COLUMN_FAMILY_NOSQL

/-- The columns of an item are all Flat with a single-element string name and a
single-element value, and the type that the column map of `cf` gives the name, if any, is
registered. -/
def all_flat (cf : NewCf) (columns : List NewCol) : Prop :=
  ∀ c ∈ columns, c.cftype_ = .COLUMN_FAMILY_SQL ∧
    ∃ n v, c.name = [.string n] ∧ c.value = [v] ∧
      ∀ type, cf.cfcolumns_.lookup n = some type → isRegistered type = true

/-- The column that the backend stores for a column of a Dynamic family declared as `cf`:
the name encoded under the comparator types and the value encoded under the default-value
types. -/
def encode_column (cf : NewCf) (c : NewCol) : Column :=
  ⟨(DbDataValueVecToString [] cf.comparator_type c.name).2,
   (DbDataValueVecToString [] cf.default_validation_class c.value).2, 0, none⟩

/-- The backend of the pagination claims, with inclusive start: a page request (start,
finish, count) is answered with the first `count` columns of the row, in the row's sorted
order, whose names are not below `start` and not above `finish` in the name order `lt`; an
empty bound is no bound. -/
def inclusive_backend (lt : Bytes → Bytes → Bool) (row : List Column)
    (req : RangeSlicesRequest) : Option (List KeySlice) :=
  some [⟨req.start_key,
    (row.filter fun c =>
      (req.start.isEmpty || !lt c.name req.start) &&
      (req.finish.isEmpty || !lt req.finish c.name)).take req.count⟩]

/-- A column of a Dynamic family declared as `cf` that the codec handles: it is Dynamic, its
name and value lie in the domains of the comparator and default-value types, every Ascii
component fits the 16-bit length field, and its encoded name is not empty. -/
def well_formed_column (cf : NewCf) (c : NewCol) : Prop :=
  c.cftype_ = .COLUMN_FAMILY_NOSQL ∧
  inDomainVec cf.comparator_type c.name = true ∧ c.name.all ascii_fits = true ∧
  inDomainVec cf.default_validation_class c.value = true ∧ c.value.all ascii_fits = true ∧
  (encode_column cf c).name ≠ []

/-- A row of a Dynamic family declared as `cf`: well-formed columns in strictly increasing
order of their encoded names, so that the names are pairwise distinct. -/
def sorted_row (lt : Bytes → Bytes → Bool) (cf : NewCf) (cols : List NewCol) : Prop :=
  (∀ c ∈ cols, well_formed_column cf c) ∧
  cols.Pairwise (fun a b => lt (encode_column cf a).name (encode_column cf b).name = true)

/-- The relation `lt` is a strict order on names. -/
def strict_order (lt : Bytes → Bytes → Bool) : Prop :=
  (∀ a, lt a a = false) ∧ (∀ a b c, lt a b = true → lt b c = true → lt a c = true)

/-- A name order for examples: names compared by their value as big-endian numbers. -/
def value_lt (a b : Bytes) : Bool := decide (be_value a < be_value b)

/-- A Dynamic family for examples: key, column names and column values are single Ascii
strings. -/
def ascii_family : NewCf :=
  { cfname_ := "t", cftype_ := .COLUMN_FAMILY_NOSQL, cfcolumns_ := [],
    key_validation_class := [.AsciiType], comparator_type := [.AsciiType],
    default_validation_class := [.AsciiType] }

/-- A row of `ascii_family` for examples: three columns named `a`, `b`, `c`. -/
def abc_row : List NewCol :=
  [⟨.COLUMN_FAMILY_NOSQL, [.string [97]], [.string [120]]⟩,
   ⟨.COLUMN_FAMILY_NOSQL, [.string [98]], [.string [121]]⟩,
   ⟨.COLUMN_FAMILY_NOSQL, [.string [99]], [.string [122]]⟩]

/-- The queue entries handed to the callback `Db_AsyncAddColumn`, in the order of the
events. -/
def callbacks (events : List Event) : List CdbIfColList :=
  events.filterMap fun e => match e with
    | .callback cl => some cl
    | _ => none

/-- The value of a byte sequence read as a big-endian two's-complement signed integer. -/
def signed_be_value (bs : Bytes) : Int :=
  match bs with
  | [] => 0
  | b :: _ => if 128 ≤ b then (be_value bs : Int) - 256 ^ bs.length else (be_value bs : Int)

/-- A backend with exclusive start: a page request (start, finish, count) is answered with
the first `count` columns of the row whose names are above `start` and not above `finish`
in the name order `lt`; an empty bound is no bound. A continuation page does not echo the
boundary column. -/
def exclusive_backend (lt : Bytes → Bytes → Bool) (row : List Column)
    (req : RangeSlicesRequest) : Option (List KeySlice) :=
  some [⟨req.start_key,
    (row.filter fun c =>
      (req.start.isEmpty || lt req.start c.name) &&
      (req.finish.isEmpty || !lt req.finish c.name)).take req.count⟩]

/-- The columns of an item are all Dynamic, and the encoder accepts each name under the
comparator types of `cf` and each value under its default-value types. -/
def encodable_dynamic (cf : NewCf) (columns : List NewCol) : Prop :=
  ∀ c ∈ columns, c.cftype_ = .COLUMN_FAMILY_NOSQL ∧
    (DbDataValueVecToString [] cf.comparator_type c.name).1 = true ∧
    (DbDataValueVecToString [] cf.default_validation_class c.value).1 = true

/-- The columns of an item are all Flat with a single-element string name and a
single-element value, and the column map of `cf` gives each name a registered type. -/
def encodable_flat (cf : NewCf) (columns : List NewCol) : Prop :=
  ∀ c ∈ columns, c.cftype_ = .COLUMN_FAMILY_SQL ∧
    ∃ n v type, c.name = [.string n] ∧ c.value = [v] ∧
      cf.cfcolumns_.lookup n = some type ∧ isRegistered type = true

/-- The mutation `m` carries the encoded name and the encoded value of the column `c` of a
family declared as `cf`, with the timestamp `ts` and the ttl of the object. For a Dynamic
column the encoder returns true with the name of `m` on the column's name under the
comparator types, and with the value of `m` on the column's value under the default-value
types. For a Flat column the name of `m` is the column's string name, and the value of `m`
is the non-composite encoding of the column's value under the registered type that the
column map gives the name. -/
def carries_encoding (cf : NewCf) (ts cassandra_ttl : Nat) (c : NewCol) (m : Mutation) : Prop :=
  m.timestamp = ts ∧ m.ttl = (if cassandra_ttl = 0 then none else some cassandra_ttl) ∧
  ((c.cftype_ = .COLUMN_FAMILY_NOSQL ∧
      DbDataValueVecToString [] cf.comparator_type c.name = (true, m.name) ∧
      DbDataValueVecToString [] cf.default_validation_class c.value = (true, m.value)) ∨
   (c.cftype_ = .COLUMN_FAMILY_SQL ∧
      ∃ v type it, c.name = [.string m.name] ∧ c.value = [v] ∧
        cf.cfcolumns_.lookup m.name = some type ∧ CdbIfTypeMap type = some it ∧
        m.value = it.encode_non_composite_fn_ v))

/-! ## Auxiliary facts about the helpers -/

theorem size_loop_eq (temp1 size : Nat) :
    size_loop temp1 size = if temp1 = 0 then size else size_loop (temp1 / 256) (size + 1) := by
  rw [size_loop]
  simp [Nat.shiftRight_eq_div_pow]

/-- The loop adds to `size` the number `k` of base-256 digits of `temp1`. -/
theorem size_loop_spec (temp1 : Nat) : ∀ size : Nat,
    ∃ k, size_loop temp1 size = size + k ∧ temp1 < 256 ^ k ∧ (k = 0 ∨ 256 ^ (k - 1) ≤ temp1) := by
  induction temp1 using Nat.strong_induction_on with
  | _ t ih =>
    intro size
    rw [size_loop_eq]
    by_cases h0 : t = 0
    · exact ⟨0, by simp [h0], by simp [h0], Or.inl rfl⟩
    · have hlt : t / 256 < t := Nat.div_lt_self (Nat.pos_of_ne_zero h0) (by norm_num)
      obtain ⟨k, hk, hub, hlb⟩ := ih (t / 256) hlt (size + 1)
      refine ⟨k + 1, by simp [h0, hk]; omega, ?_, Or.inr ?_⟩
      · rw [pow_succ]
        have := Nat.div_add_mod t 256
        have := Nat.mod_lt t (show 256 > 0 by norm_num)
        nlinarith
      · simp only [Nat.add_sub_cancel]
        rcases hlb with hk0 | hlb
        · subst hk0
          simp
          omega
        · obtain ⟨j, rfl⟩ : ∃ j, k = j + 1 := ⟨k - 1, by
            rcases Nat.eq_zero_or_pos k with h | h
            · subst h; simp at hub; omega
            · omega⟩
          simp only [Nat.add_sub_cancel] at hlb
          rw [pow_succ]
          have := Nat.div_mul_le_self t 256
          nlinarith

theorem fold_put_value (M : Nat) (v : Nat) (hv : v < 2 ^ 64) : ∀ (n acc : Nat),
    acc * 256 ^ n + v % 256 ^ n < M →
    (put_value n v).foldl (fun a b => (a * 256 + b) % M) acc = acc * 256 ^ n + v % 256 ^ n := by
  intro n
  induction n with
  | zero => intro acc _; simp [put_value, Nat.mod_one]
  | succ n ih =>
    intro acc h
    have hsplit : v % 256 ^ (n + 1) = v % 256 ^ n + 256 ^ n * (v / 256 ^ n % 256) :=
      Nat.mod_pow_succ
    have hpos : 0 < 256 ^ n := by positivity
    simp only [put_value, List.foldl_cons, Nat.mod_eq_of_lt hv]
    have e : (acc * 256 + v / 256 ^ n % 256) * 256 ^ n + v % 256 ^ n =
        acc * 256 ^ (n + 1) + v % 256 ^ (n + 1) := by
      rw [hsplit, pow_succ]; ring
    have hle : acc * 256 + v / 256 ^ n % 256 ≤ (acc * 256 + v / 256 ^ n % 256) * 256 ^ n :=
      Nat.le_mul_of_pos_right _ hpos
    have hstep : acc * 256 + v / 256 ^ n % 256 < M := by omega
    rw [Nat.mod_eq_of_lt hstep, ih _ (by omega), e]

theorem put_value_length (n v : Nat) : (put_value n v).length = n := by
  induction n with
  | zero => rfl
  | succ n ih => simp [put_value, ih]

theorem put_value_lt (n v : Nat) : ∀ b ∈ put_value n v, b < 256 := by
  induction n with
  | zero => simp [put_value]
  | succ n ih =>
    intro b hb
    simp only [put_value, List.mem_cons] at hb
    rcases hb with rfl | hb
    · exact Nat.mod_lt _ (by norm_num)
    · exact ih b hb

theorem get_value_put_value (n v : Nat) (hv : v < 2 ^ 64) (hn : v < 256 ^ n) :
    get_value (put_value n v) = v := by
  unfold get_value
  rw [fold_put_value (2 ^ 64) v hv n 0]
  · simp [Nat.mod_eq_of_lt hn]
  · simpa [Nat.mod_eq_of_lt hn] using hv

theorem size_loop_count (v : Nat) :
    ∃ n, size_loop (v / 256) 1 = n ∧ 1 ≤ n ∧ v < 256 ^ n ∧
      ∀ m, 1 ≤ m → v < 256 ^ m → n ≤ m := by
  obtain ⟨k, hk, hub, hlb⟩ := size_loop_spec (v / 256) 1
  refine ⟨1 + k, hk, by omega, ?_, ?_⟩
  · rw [pow_add, pow_one]
    have := Nat.div_add_mod v 256
    have := Nat.mod_lt v (show 256 > 0 by norm_num)
    nlinarith
  · intro m hm hvm
    rcases hlb with rfl | hlb
    · omega
    · by_contra hcon
      have hmk : m ≤ k := by omega
      have h1 : 256 ^ m ≤ 256 ^ k := Nat.pow_le_pow_right (by norm_num) hmk
      have hk1 : 1 ≤ k := by omega
      have h2 : 256 ^ k = 256 ^ (k - 1) * 256 := by
        rw [← pow_succ]; congr 1; omega
      have := Nat.div_mul_le_self v 256
      nlinarith

theorem put_value_guard (n v : Nat) (hv : v < 2 ^ 64) (hn : v < 256 ^ n) :
    put_value (n + 1) v = 0 :: put_value n v := by
  show (v % 2 ^ 64 / 256 ^ n % 256) :: put_value n v = 0 :: put_value n v
  rw [Nat.mod_eq_of_lt hv, Nat.div_eq_of_lt hn]

theorem shift_mod_eq (w v : Nat) (hv : v < 2 ^ w) : (v >>> 8) % 2 ^ w = v / 256 := by
  rw [Nat.shiftRight_eq_div_pow]
  exact Nat.mod_eq_of_lt (lt_of_le_of_lt (Nat.div_le_self _ _) hv)

/-- The non-composite encoding of a `w`-bit value is the guard byte followed by the
value written into its minimal number of bytes. -/
theorem encode_Unsigned_non_composite_eq (w v : Nat) (hw : w ≤ 64) (hv : v < 2 ^ w) :
    ∃ n, (1 ≤ n ∧ v < 256 ^ n ∧ ∀ m, 1 ≤ m → v < 256 ^ m → n ≤ m) ∧
      encode_Unsigned_non_composite w v = 0 :: put_value n v := by
  obtain ⟨n, hn, h1, h2, h3⟩ := size_loop_count v
  have hv64 : v < 2 ^ 64 := lt_of_lt_of_le hv (Nat.pow_le_pow_right (by norm_num) hw)
  refine ⟨n, ⟨h1, h2, h3⟩, ?_⟩
  simp only [encode_Unsigned_non_composite, shift_mod_eq w v hv, hn]
  exact put_value_guard n v hv64 h2

theorem get_value_encode_Unsigned_non_composite (w v : Nat) (hw : w ≤ 64) (hv : v < 2 ^ w) :
    get_value (encode_Unsigned_non_composite w v) = v := by
  obtain ⟨n, hn, h1, h2, _⟩ := size_loop_count v
  have hv64 : v < 2 ^ 64 := lt_of_lt_of_le hv (Nat.pow_le_pow_right (by norm_num) hw)
  simp only [encode_Unsigned_non_composite, shift_mod_eq w v hv, hn]
  exact get_value_put_value (n + 1) v hv64
    (lt_of_lt_of_le h2 (Nat.pow_le_pow_right (by norm_num) (by omega)))

theorem be_value_put_value (v : Nat) (hv : v < 2 ^ 64) : ∀ (n acc : Nat),
    (put_value n v).foldl (fun a b => a * 256 + b) acc = acc * 256 ^ n + v % 256 ^ n := by
  intro n
  induction n with
  | zero => intro acc; simp [put_value, Nat.mod_one]
  | succ n ih =>
    intro acc
    have hsplit : v % 256 ^ (n + 1) = v % 256 ^ n + 256 ^ n * (v / 256 ^ n % 256) :=
      Nat.mod_pow_succ
    show (put_value n v).foldl (fun a b => a * 256 + b) (acc * 256 + v % 2 ^ 64 / 256 ^ n % 256) = _
    rw [Nat.mod_eq_of_lt hv, ih, hsplit, pow_succ]; ring

/-- The encoding `enc` of `v` is a guard byte `0x00` followed by the `n` big-endian
bytes of `v`, where `n ≥ 1` is the least number of bytes with `v < 256 ^ n`. -/
theorem guarded_of_encode (w v : Nat) (hw : w ≤ 64) (hv : v < 2 ^ w) :
    guarded_minimal_big_endian v (encode_Unsigned_non_composite w v) := by
  obtain ⟨n, hmin, henc⟩ := encode_Unsigned_non_composite_eq w v hw hv
  have hv64 : v < 2 ^ 64 := lt_of_lt_of_le hv (Nat.pow_le_pow_right (by norm_num) hw)
  refine ⟨n, put_value n v, hmin, henc, put_value_length n v, put_value_lt n v, ?_, ?_⟩
  · unfold be_value
    rw [be_value_put_value v hv64 n 0, Nat.mod_eq_of_lt hmin.2.1]; simp
  · rw [henc]; simp [put_value_length]

theorem encode_Unsigned64_max :
    Db_encode_Unsigned64_non_composite (.uint64 (2 ^ 64 - 1)) =
      [0, 255, 255, 255, 255, 255, 255, 255, 255] := by
  obtain ⟨n, ⟨_, h2, h3⟩, henc⟩ :=
    encode_Unsigned_non_composite_eq 64 (2 ^ 64 - 1) le_rfl (by norm_num)
  have hle : n ≤ 8 := h3 8 (by norm_num) (by norm_num)
  have hge : ¬ n ≤ 7 := fun h =>
    absurd (lt_of_lt_of_le h2 (Nat.pow_le_pow_right (by norm_num) h)) (by norm_num)
  have hn : n = 8 := by omega
  subst hn
  show encode_Unsigned_non_composite 64 ((2 ^ 64 - 1) % 2 ^ 64) = _
  rw [Nat.mod_eq_of_lt (by norm_num), henc]
  decide

theorem shift_or_eq (o b : Nat) (hb : b < 256) : (o <<< 8) ||| b = o * 256 + b := by
  rw [Nat.shiftLeft_eq, show (2 : Nat) ^ 8 = 256 from rfl, Nat.mul_comm o 256]
  exact (Nat.mul_add_lt_is_or (i := 8) (by simpa using hb) o).symm

theorem fold_shift_or (M : Nat) : ∀ (bs : Bytes) (acc : Nat), (∀ b ∈ bs, b < 256) →
    bs.foldl (fun output b => ((output <<< 8) ||| b) % M) acc =
      bs.foldl (fun a b => (a * 256 + b) % M) acc := by
  intro bs
  induction bs with
  | nil => intro acc _; rfl
  | cons b bs ih =>
    intro acc h
    simp only [List.foldl_cons]
    rw [shift_or_eq acc b (h b (List.mem_cons_self _ _))]
    exact ih _ (fun x hx => h x (List.mem_cons_of_mem _ hx))

theorem readBytes_zero (a rest : Bytes) : readBytes (a ++ rest) 0 a.length = some a := by
  simp [readBytes]

theorem readBytes_append (h a rest : Bytes) :
    readBytes (h ++ (a ++ rest)) h.length a.length = some a := by
  simp [readBytes]

theorem get_value_put_value_two (n : Nat) (hn : n < 65536) :
    get_value (put_value 2 n) % 2 ^ 16 = n := by
  rw [get_value_put_value 2 n (by omega) (by norm_num; omega)]
  exact Nat.mod_eq_of_lt (by norm_num; omega)

/-- The header of a component: two bytes holding `n`. -/
theorem read_header (n : Nat) (rest : Bytes) :
    readBytes (put_value 2 n ++ rest) 0 2 = some (put_value 2 n) := by
  have := readBytes_zero (put_value 2 n) rest
  rwa [put_value_length] at this

/-- The payload `a` of a component, behind the two bytes of the header. -/
theorem read_payload (n m : Nat) (a rest : Bytes) (hm : a.length = m) :
    readBytes (put_value 2 n ++ (a ++ rest)) 2 m = some a := by
  have := readBytes_append (put_value 2 n) a rest
  rwa [put_value_length, hm] at this

theorem decode_string_composite_encode (s rest : Bytes) (hs : s.length < 65536) :
    Db_decode_string_composite (Db_encode_string_composite (.string s) ++ rest) =
      some (.string s, (Db_encode_string_composite (.string s)).length) := by
  simp only [Db_encode_string_composite, Db_decode_string_composite, List.append_assoc]
  rw [read_header]
  simp only [Option.some_bind]
  rw [get_value_put_value_two _ hs, read_payload _ _ s _ rfl]
  simp [put_value_length]; omega

theorem decode_UUID_composite_encode (u rest : Bytes) (hu : u.length = 16) :
    Db_decode_UUID_composite (Db_encode_UUID_composite (.uuid u) ++ rest) =
      some (.uuid u, (Db_encode_UUID_composite (.uuid u)).length) := by
  simp only [Db_encode_UUID_composite, Db_decode_UUID_composite, List.append_assoc]
  rw [read_header]
  simp only [Option.some_bind]
  rw [get_value_put_value_two _ (by norm_num), read_payload _ _ u _ hu]
  simp [put_value_length, hu]

/-- The composite encoding of an unsigned integer: the length `n + 1` in two bytes, the
guard byte, the `n` minimal big-endian bytes, and the end-of-component byte. -/
theorem encode_Unsigned_int_composite_eq (v : Nat) (hv : v < 2 ^ 64) :
    ∃ n, is_minimal_width v n ∧ n ≤ 8 ∧
      Db_encode_Unsigned_int_composite v =
        put_value 2 (n + 1) ++ (0 :: put_value n v) ++ [0] := by
  obtain ⟨n, hn, h1, h2, h3⟩ := size_loop_count v
  refine ⟨n, ⟨h1, h2, h3⟩, h3 8 (by norm_num) (by simpa using hv), ?_⟩
  simp only [Db_encode_Unsigned_int_composite, shift_mod_eq 64 v hv, hn]
  rw [put_value_guard n v hv h2]

theorem decode_Unsigned_composite_encode (w v : Nat) (rest : Bytes) (hw : w ≤ 64)
    (hv : v < 2 ^ w) :
    decode_Unsigned_composite w (Db_encode_Unsigned_int_composite v ++ rest) =
      some (v, (Db_encode_Unsigned_int_composite v).length) := by
  have hv64 : v < 2 ^ 64 := lt_of_lt_of_le hv (Nat.pow_le_pow_right (by norm_num) hw)
  obtain ⟨n, ⟨h1, h2, h3⟩, h8, henc⟩ := encode_Unsigned_int_composite_eq v hv64
  rw [henc, ← put_value_guard n v hv64 h2]
  simp only [decode_Unsigned_composite, List.append_assoc]
  rw [read_header]
  simp only [Option.some_bind]
  rw [get_value_put_value_two _ (by omega),
    read_payload _ _ (put_value (n + 1) v) _ (put_value_length _ _)]
  simp only [Option.map_some']
  rw [fold_shift_or _ _ _ (put_value_lt _ _), fold_put_value (2 ^ w) v hv64 (n + 1) 0]
  · have hlt : v < 256 ^ (n + 1) :=
      lt_of_lt_of_le h2 (Nat.pow_le_pow_right (by norm_num) (by omega))
    simp [Nat.mod_eq_of_lt hlt, put_value_length]; omega
  · have hlt : v < 256 ^ (n + 1) :=
      lt_of_lt_of_le h2 (Nat.pow_le_pow_right (by norm_num) (by omega))
    simpa [Nat.mod_eq_of_lt hlt] using hv

theorem inDomain_registered (t : DbDataType) (v : DbDataValue) (h : inDomain t v = true) :
    ∃ info, CdbIfTypeMap t = some info := by
  cases t <;> cases v <;> simp [inDomain] at h <;> exact ⟨_, rfl⟩

theorem encode_string_composite_pos (v : DbDataValue) :
    0 < (Db_encode_string_composite v).length := by
  simp [Db_encode_string_composite]

theorem encode_UUID_composite_pos (v : DbDataValue) :
    0 < (Db_encode_UUID_composite v).length := by
  simp [Db_encode_UUID_composite]

theorem encode_Unsigned_int_composite_pos (x : Nat) :
    0 < (Db_encode_Unsigned_int_composite x).length := by
  simp [Db_encode_Unsigned_int_composite]

theorem encode_Unsigned8_composite_pos (v : DbDataValue) :
    0 < (Db_encode_Unsigned8_composite v).length := by
  cases v <;> simp only [Db_encode_Unsigned8_composite] <;>
    exact encode_Unsigned_int_composite_pos _

theorem encode_Unsigned16_composite_pos (v : DbDataValue) :
    0 < (Db_encode_Unsigned16_composite v).length := by
  cases v <;> simp only [Db_encode_Unsigned16_composite] <;>
    exact encode_Unsigned_int_composite_pos _

theorem encode_Unsigned32_composite_pos (v : DbDataValue) :
    0 < (Db_encode_Unsigned32_composite v).length := by
  cases v <;> simp only [Db_encode_Unsigned32_composite] <;>
    exact encode_Unsigned_int_composite_pos _

theorem encode_Unsigned64_composite_pos (v : DbDataValue) :
    0 < (Db_encode_Unsigned64_composite v).length := by
  cases v <;> simp only [Db_encode_Unsigned64_composite] <;>
    exact encode_Unsigned_int_composite_pos _

/-- Every composite encoder ends its output with the end-of-component byte. -/
theorem encode_composite_pos (t : DbDataType) (v : DbDataValue) (info : CdbIfTypeInfo)
    (ht : CdbIfTypeMap t = some info) : 0 < (info.encode_composite_fn_ v).length := by
  cases t <;> simp only [CdbIfTypeMap, Option.some.injEq, reduceCtorEq] at ht <;> subst ht
  · exact encode_string_composite_pos v
  · exact encode_UUID_composite_pos v
  · exact encode_UUID_composite_pos v
  · exact encode_Unsigned8_composite_pos v
  · exact encode_Unsigned16_composite_pos v
  · exact encode_Unsigned32_composite_pos v
  · exact encode_Unsigned64_composite_pos v

/-- A registered composite decoder, applied to a buffer that starts with the composite
encoding of a value of its domain whose length fits the length field, returns the
value and consumes exactly the encoding. -/
theorem composite_decode_encode (t : DbDataType) (v : DbDataValue) (info : CdbIfTypeInfo)
    (rest : Bytes) (ht : CdbIfTypeMap t = some info) (hd : inDomain t v = true)
    (hf : ascii_fits v = true) :
    info.decode_composite_fn_ (info.encode_composite_fn_ v ++ rest) =
      some (v, (info.encode_composite_fn_ v).length) := by
  cases t <;> cases v <;> simp only [inDomain, Bool.false_eq_true, Bool.and_eq_true,
    decide_eq_true_eq] at hd <;>
    simp only [CdbIfTypeMap, Option.some.injEq, reduceCtorEq] at ht <;> subst ht
  · exact decode_string_composite_encode _ rest (by simpa [ascii_fits] using hf)
  · exact decode_UUID_composite_encode _ rest hd.1
  · exact decode_UUID_composite_encode _ rest hd.1
  · show (decode_Unsigned_composite 8 (Db_encode_Unsigned_int_composite (_ % 2 ^ 8) ++ rest)).map _ = _
    rw [Nat.mod_eq_of_lt hd, decode_Unsigned_composite_encode 8 _ rest (by norm_num) hd]
    show some _ = some (_, (Db_encode_Unsigned_int_composite (_ % 2 ^ 8)).length)
    rw [Nat.mod_eq_of_lt hd]
  · show (decode_Unsigned_composite 16 (Db_encode_Unsigned_int_composite (_ % 2 ^ 16) ++ rest)).map _ = _
    rw [Nat.mod_eq_of_lt hd, decode_Unsigned_composite_encode 16 _ rest (by norm_num) hd]
    show some _ = some (_, (Db_encode_Unsigned_int_composite (_ % 2 ^ 16)).length)
    rw [Nat.mod_eq_of_lt hd]
  · show (decode_Unsigned_composite 32 (Db_encode_Unsigned_int_composite (_ % 2 ^ 32) ++ rest)).map _ = _
    rw [Nat.mod_eq_of_lt hd, decode_Unsigned_composite_encode 32 _ rest (by norm_num) hd]
    show some _ = some (_, (Db_encode_Unsigned_int_composite (_ % 2 ^ 32)).length)
    rw [Nat.mod_eq_of_lt hd]
  · show (decode_Unsigned_composite 64 (Db_encode_Unsigned_int_composite (_ % 2 ^ 64) ++ rest)).map _ = _
    rw [Nat.mod_eq_of_lt hd, decode_Unsigned_composite_encode 64 _ rest (by norm_num) hd]
    show some _ = some (_, (Db_encode_Unsigned_int_composite (_ % 2 ^ 64)).length)
    rw [Nat.mod_eq_of_lt hd]

/-- The encode loop over registered tags with no more values than tags succeeds and
appends the concatenated composite encodings. -/
theorem encode_composite_loop_eq : ∀ (T : DbDataTypeVec) (V : DbDataValueVec) (res : Bytes),
    V.length ≤ T.length → (∀ t ∈ T, isRegistered t = true) →
    encode_composite_loop res T V = (true, res ++ concat_composite T V) := by
  intro T
  induction T with
  | nil =>
    intro V res hlen _
    cases V with
    | nil => simp [encode_composite_loop, concat_composite]
    | cons v vs => simp at hlen
  | cons t ts ih =>
    intro V res hlen hreg
    cases V with
    | nil => simp [encode_composite_loop, concat_composite]
    | cons v vs =>
      have ht := hreg t (List.mem_cons_self _ _)
      obtain ⟨info, hinfo⟩ := Option.isSome_iff_exists.mp ht
      simp only [encode_composite_loop, hinfo, concat_composite, composite_encoding]
      rw [ih vs _ (by simpa using hlen) (fun x hx => hreg x (List.mem_cons_of_mem _ hx))]
      simp

theorem inDomainVec_registered : ∀ (T : DbDataTypeVec) (V : DbDataValueVec),
    inDomainVec T V = true → (∀ t ∈ T, isRegistered t = true) ∧ V.length = T.length := by
  intro T
  induction T with
  | nil => intro V h; cases V <;> simp [inDomainVec] at h ⊢
  | cons t ts ih =>
    intro V h
    cases V with
    | nil => simp [inDomainVec] at h
    | cons v vs =>
      simp only [inDomainVec, Bool.and_eq_true] at h
      obtain ⟨info, hinfo⟩ := inDomain_registered t v h.1
      obtain ⟨h1, h2⟩ := ih vs h.2
      refine ⟨?_, by simp [h2]⟩
      intro x hx
      rcases List.mem_cons.mp hx with rfl | hx
      · simp [isRegistered, hinfo]
      · exact h1 x hx

/-- The decode loop, started behind a prefix `pre` of the input on the concatenated
composite encodings of `V`, returns true, pushes exactly `V`, and ends with the cursor
at the end of the input. -/
theorem decode_composite_loop_eq : ∀ (T : DbDataTypeVec) (V : DbDataValueVec)
    (pre : Bytes) (res : DbDataValueVec),
    inDomainVec T V = true → V.all ascii_fits = true →
    decode_composite_loop (pre ++ concat_composite T V) T pre.length res =
      some (true, res ++ V, (pre ++ concat_composite T V).length) := by
  intro T
  induction T with
  | nil =>
    intro V pre res hd _
    cases V with
    | nil => simp [decode_composite_loop, concat_composite]
    | cons v vs => simp [inDomainVec] at hd
  | cons t ts ih =>
    intro V pre res hd hf
    cases V with
    | nil => simp [inDomainVec] at hd
    | cons v vs =>
      simp only [inDomainVec, Bool.and_eq_true] at hd
      simp only [List.all_cons, Bool.and_eq_true] at hf
      obtain ⟨info, hinfo⟩ := inDomain_registered t v hd.1
      have hpos := encode_composite_pos t v info hinfo
      have hdec := composite_decode_encode t v info (concat_composite ts vs ++ [0]) hinfo hd.1 hf.1
      have hbuf : List.drop pre.length (c_str (pre ++ concat_composite (t :: ts) (v :: vs))) =
          info.encode_composite_fn_ v ++ (concat_composite ts vs ++ [0]) := by
        simp [c_str, concat_composite, composite_encoding, hinfo]
      have hlt : pre.length < (pre ++ concat_composite (t :: ts) (v :: vs)).length := by
        simp [concat_composite, composite_encoding, hinfo]; omega
      rw [decode_composite_loop]
      simp only [hinfo, hlt, if_true, hbuf, hdec]
      have hin : pre ++ concat_composite (t :: ts) (v :: vs) =
          (pre ++ info.encode_composite_fn_ v) ++ concat_composite ts vs := by
        simp [concat_composite, composite_encoding, hinfo]
      have hl : pre.length + (info.encode_composite_fn_ v).length =
          (pre ++ info.encode_composite_fn_ v).length := by simp
      rw [hin, hl, ih vs _ _ hd.2 hf.2]
      simp

/-- A string of exactly 65536 bytes: the length field wraps to zero, so the decoder
returns the empty string and consumes three bytes. -/
theorem decode_string_composite_wrap (s rest : Bytes) (hs : s.length = 65536) :
    Db_decode_string_composite (Db_encode_string_composite (.string s) ++ rest) =
      some (.string [], 3) := by
  simp only [Db_encode_string_composite, Db_decode_string_composite, List.append_assoc]
  rw [read_header]
  simp only [Option.some_bind]
  rw [hs, show get_value (put_value 2 65536) % 2 ^ 16 = 0 by decide]
  simp [readBytes, put_value_length]

/-- The decode loop only ever pushes onto `res`. -/
theorem decode_composite_loop_extends (input : Bytes) : ∀ (T : DbDataTypeVec) (used : Nat)
    (res : DbDataValueVec) (r : Bool × DbDataValueVec × Nat),
    decode_composite_loop input T used res = some r → ∃ tail, r.2.1 = res ++ tail := by
  intro T
  induction T with
  | nil =>
    intro used res r h
    simp only [decode_composite_loop, Option.some.injEq] at h
    exact ⟨[], by simp [← h]⟩
  | cons t ts ih =>
    intro used res r h
    rw [decode_composite_loop] at h
    cases hinfo : CdbIfTypeMap t with
    | none =>
      simp only [hinfo] at h
      exact ih used res r h
    | some info =>
      simp only [hinfo] at h
      by_cases hlt : used < input.length
      · simp only [hlt, if_true] at h
        cases hdec : info.decode_composite_fn_ (List.drop used (c_str input)) with
        | none => simp [hdec] at h
        | some p =>
          obtain ⟨res1, elem_use⟩ := p
          simp only [hdec] at h
          obtain ⟨tail, htail⟩ := ih _ _ r h
          exact ⟨res1 :: tail, by simp [htail]⟩
      · simp only [hlt, if_false, Option.some.injEq] at h
        exact ⟨[], by simp [← h]⟩

theorem isBytes_replicate (n b : Nat) (hb : b < 256) : isBytes (List.replicate n b) = true := by
  unfold isBytes
  rw [List.all_eq_true]
  intro x hx
  rw [List.eq_of_mem_replicate hx]
  simpa using hb

/-- Encoding and decoding `[s, ""]` under `[AsciiType, AsciiType]` for a string `s` of
exactly 65536 bytes: the vector is in the domain, the encoder returns true, and the
decoder does not return the vector. -/
theorem round_trip_wrap (s : Bytes) (hs : s.length = 65536) (hb : isBytes s = true) :
    inDomainVec [.AsciiType, .AsciiType] [.string s, .string []] = true ∧
    (DbDataValueVecToString [] [.AsciiType, .AsciiType] [.string s, .string []]).1 = true ∧
    DbDataValueVecFromString [] [.AsciiType, .AsciiType]
      (DbDataValueVecToString [] [.AsciiType, .AsciiType] [.string s, .string []]).2 ≠
      some (true, [.string s, .string []]) := by
  have henc : DbDataValueVecToString [] [.AsciiType, .AsciiType] [.string s, .string []] =
      (true, Db_encode_string_composite (.string s) ++
        (Db_encode_string_composite (.string []) ++ [])) := by
    show encode_composite_loop [] [.AsciiType, .AsciiType] _ = _
    rw [encode_composite_loop_eq _ _ [] (by simp) (by decide)]
    rfl
  refine ⟨?_, by rw [henc], ?_⟩
  · simp only [inDomainVec, inDomain, hb]
    decide
  · rw [henc]
    intro h
    have hstep : DbDataValueVecFromString [] [.AsciiType, .AsciiType]
        (Db_encode_string_composite (.string s) ++
          (Db_encode_string_composite (.string []) ++ [])) =
        (decode_composite_loop
          (Db_encode_string_composite (.string s) ++
            (Db_encode_string_composite (.string []) ++ []))
          [.AsciiType] (0 + 3) ([] ++ [.string []])).map fun r => (r.1, r.2.1) := by
      show (decode_composite_loop _ [.AsciiType, .AsciiType] 0 []).map _ = _
      rw [decode_composite_loop]
      have hpos := encode_string_composite_pos (.string s)
      have hlt : 0 < (Db_encode_string_composite (.string s) ++
          (Db_encode_string_composite (.string []) ++ [])).length := by
        rw [List.length_append]; omega
      have hdec := decode_string_composite_wrap s
        ((Db_encode_string_composite (.string []) ++ []) ++ [0]) hs
      simp only [CdbIfTypeMap, hlt, if_true, List.drop_zero, c_str, List.append_assoc] at hdec ⊢
      rw [hdec]
    rw [hstep] at h
    cases hr : decode_composite_loop
        (Db_encode_string_composite (.string s) ++
          (Db_encode_string_composite (.string []) ++ []))
        [.AsciiType] (0 + 3) ([] ++ [.string []]) with
    | none => rw [hr] at h; simp at h
    | some r =>
      rw [hr] at h
      obtain ⟨tail, htail⟩ := decode_composite_loop_extends _ _ _ _ r hr
      simp only [Option.map_some', Option.some.injEq, Prod.mk.injEq] at h
      rw [htail] at h
      have hhead := h.2
      simp only [List.nil_append, List.singleton_append, List.cons.injEq,
        DbDataValue.string.injEq] at hhead
      have := congrArg List.length hhead.1
      simp [hs] at this

theorem put_value_two (n : Nat) (hn : n < 65536) : put_value 2 n = [n / 256, n % 256] := by
  have h64 : n % 2 ^ 64 = n := Nat.mod_eq_of_lt (by omega)
  have h1 : n / 256 % 256 = n / 256 := Nat.mod_eq_of_lt (by omega)
  show [n % 2 ^ 64 / 256 ^ 1 % 256, n % 2 ^ 64 / 256 ^ 0 % 256] = _
  rw [h64, pow_one, pow_zero, Nat.div_one, h1]

/-- A 2-byte header holding the length of `c`, then `c`, then the terminator, is a block. -/
theorem is_composite_block_intro (c : Bytes) (hc : c.length < 65536) :
    is_composite_block c (put_value 2 c.length ++ c ++ [0]) := by
  refine ⟨c.length / 256, c.length % 256, by omega, by omega, by omega, ?_⟩
  rw [put_value_two _ hc]; simp

/-- The composite encoding of a value of the domain of a registered tag, of a length that
fits the length field, is one block; its component bytes are the raw bytes for an Ascii
string and a UUID. -/
theorem composite_encoding_block (t : DbDataType) (v : DbDataValue) (info : CdbIfTypeInfo)
    (ht : CdbIfTypeMap t = some info) (hd : inDomain t v = true) (hf : ascii_fits v = true) :
    ∃ c, is_raw_component t v c ∧ is_composite_block c (info.encode_composite_fn_ v) := by
  have hint : ∀ x, x < 2 ^ 64 →
      ∃ c, is_composite_block c (Db_encode_Unsigned_int_composite x) := by
    intro x hx
    obtain ⟨n, _, h8, henc⟩ := encode_Unsigned_int_composite_eq x hx
    refine ⟨0 :: put_value n x, ?_⟩
    have := is_composite_block_intro (0 :: put_value n x)
      (by simp [put_value_length]; omega)
    simpa [henc, put_value_length] using this
  cases t <;> cases v <;> simp only [inDomain, Bool.false_eq_true, Bool.and_eq_true,
    decide_eq_true_eq] at hd <;>
    simp only [CdbIfTypeMap, Option.some.injEq, reduceCtorEq] at ht <;> subst ht
  · exact ⟨_, rfl, is_composite_block_intro _ (by simpa [ascii_fits] using hf)⟩
  · refine ⟨_, rfl, ?_⟩
    have := is_composite_block_intro _ (show List.length ‹Bytes› < 65536 by omega)
    rwa [hd.1] at this
  · refine ⟨_, rfl, ?_⟩
    have := is_composite_block_intro _ (show List.length ‹Bytes› < 65536 by omega)
    rwa [hd.1] at this
  · obtain ⟨c, hc⟩ := hint _ (show _ % 2 ^ 8 < 2 ^ 64 from
      lt_of_lt_of_le (Nat.mod_lt _ (by norm_num)) (by norm_num))
    exact ⟨c, trivial, hc⟩
  · obtain ⟨c, hc⟩ := hint _ (show _ % 2 ^ 16 < 2 ^ 64 from
      lt_of_lt_of_le (Nat.mod_lt _ (by norm_num)) (by norm_num))
    exact ⟨c, trivial, hc⟩
  · obtain ⟨c, hc⟩ := hint _ (show _ % 2 ^ 32 < 2 ^ 64 from
      lt_of_lt_of_le (Nat.mod_lt _ (by norm_num)) (by norm_num))
    exact ⟨c, trivial, hc⟩
  · obtain ⟨c, hc⟩ := hint _ (show _ % 2 ^ 64 < 2 ^ 64 from Nat.mod_lt _ (by norm_num))
    exact ⟨c, trivial, hc⟩

theorem concat_composite_wire_format : ∀ (T : DbDataTypeVec) (V : DbDataValueVec),
    inDomainVec T V = true → V.all ascii_fits = true →
    composite_wire_format T V (concat_composite T V) := by
  intro T
  induction T with
  | nil =>
    intro V hd _
    cases V with
    | nil => simp [composite_wire_format, concat_composite]
    | cons v vs => simp [inDomainVec] at hd
  | cons t ts ih =>
    intro V hd hf
    cases V with
    | nil => simp [inDomainVec] at hd
    | cons v vs =>
      simp only [inDomainVec, Bool.and_eq_true] at hd
      simp only [List.all_cons, Bool.and_eq_true] at hf
      obtain ⟨info, hinfo⟩ := inDomain_registered t v hd.1
      obtain ⟨c, hraw, hblk⟩ := composite_encoding_block t v info hinfo hd.1 hf.1
      exact ⟨c, info.encode_composite_fn_ v, concat_composite ts vs, hraw, hblk,
        by simp [concat_composite, composite_encoding, hinfo], ih vs hd.2 hf.2⟩

/-- No block has component bytes of length 65536. -/
theorem wire_format_wrap (s : Bytes) (hs : s.length = 65536) (vs : DbDataValueVec)
    (ts : DbDataTypeVec) (out : Bytes) :
    ¬ composite_wire_format (.AsciiType :: ts) (.string s :: vs) out := by
  rintro ⟨c, blk, rest, hraw, ⟨hi, lo, hhi, hlo, hlen, _⟩, _, _⟩
  have hc : c = s := hraw
  rw [hc, hs] at hlen
  omega

/-- For a string of exactly 65536 bytes the registered composite encoder of `AsciiType`
produces 65539 bytes and the registered composite decoder consumes 3 of them. -/
theorem consumption_wrap (s : Bytes) (hs : s.length = 65536) :
    (CdbIfTypeMap .AsciiType).map (fun info =>
      ((info.decode_composite_fn_ (c_str (info.encode_composite_fn_ (.string s)))).map Prod.snd,
        (info.encode_composite_fn_ (.string s)).length)) = some (some 3, 65539) := by
  simp only [CdbIfTypeMap, Option.map_some', c_str]
  rw [decode_string_composite_wrap _ [0] hs]
  simp only [Db_encode_string_composite, List.length_append, put_value_length, hs,
    List.length_singleton, Option.map_some']

theorem registered_name (t : DbDataType) (h : isRegistered t = true) :
    ∃ info, CdbIfTypeMap t = some info ∧ info.cassandra_type_ = backend_name t := by
  cases t <;> first | exact ⟨_, rfl, rfl⟩ | simp [isRegistered, CdbIfTypeMap] at h

/-- The loop of `DbDataTypeVecToCompositeType` returns true exactly when every remaining
member is registered. -/
theorem composite_type_loop_true : ∀ (ts : DbDataTypeVec) (res : String),
    (composite_type_loop res ts).1 = true ↔ ∀ t ∈ ts, isRegistered t = true := by
  intro ts
  induction ts with
  | nil => intro res; simp [composite_type_loop]
  | cons t ts ih =>
    intro res
    cases hinfo : CdbIfTypeMap t with
    | none => simp [composite_type_loop, hinfo, isRegistered]
    | some info => simp [composite_type_loop, hinfo, isRegistered, ih]

/-- The loop of `DbDataTypeVecToCompositeType` over registered members appends their names,
each preceded by `", "`, and the closing parenthesis. -/
theorem composite_type_loop_eq : ∀ (ts : DbDataTypeVec) (p a : String),
    (∀ t ∈ ts, isRegistered t = true) →
    composite_type_loop (p ++ a) ts =
      (true, p ++ join_names (a :: ts.map backend_name) ++ ")") := by
  intro ts
  induction ts with
  | nil => intro p a _; simp [composite_type_loop, join_names]
  | cons t ts ih =>
    intro p a hreg
    obtain ⟨info, hinfo, hname⟩ := registered_name t (hreg t (List.mem_cons_self _ _))
    simp only [composite_type_loop, hinfo, hname, List.map_cons, join_names]
    rw [ih (p ++ a ++ ", ") (backend_name t) (fun x hx => hreg x (List.mem_cons_of_mem _ hx))]
    simp [String.append_assoc]

theorem encode_composite_loop_overlong : ∀ (T : DbDataTypeVec) (V : DbDataValueVec)
    (res : Bytes), T.length < V.length → (encode_composite_loop res T V).1 = false := by
  intro T
  induction T with
  | nil =>
    intro V res h
    cases V with
    | nil => simp at h
    | cons v vs => rfl
  | cons t ts ih =>
    intro V res h
    cases V with
    | nil => simp at h
    | cons v vs =>
      cases hinfo : CdbIfTypeMap t with
      | none => simp [encode_composite_loop, hinfo]
      | some info =>
        simp only [encode_composite_loop, hinfo]
        exact ih vs _ (by simpa using h)

/-! ## Auxiliary facts about the schema registry -/

theorem lookup_append_new (l : CdbIfCfListType) (name : String) (info : CdbIfCfInfo)
    (h : l.lookup name = none) : (l ++ [(name, info)]).lookup name = some info := by
  induction l with
  | nil => simp [List.lookup]
  | cons p rest ih =>
    obtain ⟨k, v⟩ := p
    rw [List.lookup_cons] at h
    rw [List.cons_append, List.lookup_cons]
    cases hk : name == k with
    | true => rw [hk] at h; simp at h
    | false => rw [hk] at h; exact ih h

theorem lookup_ptr_map_insert (l : CdbIfCfListType) (name : String) (info : CdbIfCfInfo)
    (h : l.lookup name = none) : (ptr_map_insert l name info).lookup name = some info := by
  simp only [ptr_map_insert, h]
  exact lookup_append_new l name info h

theorem lookup_reset_cf (l : CdbIfCfListType) (name : String) (cf : NewCf)
    (info : CdbIfCfInfo) (h : l.lookup name = some info) :
    (reset_cf l name cf).lookup name = some { info with cf_ := some cf } := by
  induction l with
  | nil => simp [List.lookup] at h
  | cons p rest ih =>
    obtain ⟨k, v⟩ := p
    rw [List.lookup_cons] at h
    cases hk : name == k with
    | true =>
      rw [hk] at h
      simp only [Option.some.injEq] at h
      simp only [reset_cf, hk, if_true, List.lookup_cons, h]
    | false =>
      rw [hk] at h
      simp only [reset_cf, hk, Bool.false_eq_true, if_false, List.lookup_cons]
      exact ih h

/-- The descriptor of a type vector is computed exactly for the valid type vectors. -/
theorem composite_type_ok_iff (res : String) (T : DbDataTypeVec) :
    (DbDataTypeVecToCompositeType res T).1 = true ↔ valid_types T = true := by
  match T with
  | [] => simp [DbDataTypeVecToCompositeType, valid_types]
  | [t] =>
    cases hinfo : CdbIfTypeMap t <;>
      simp [DbDataTypeVecToCompositeType, hinfo, isRegistered, valid_types]
  | t :: t2 :: ts =>
    cases hinfo : CdbIfTypeMap t with
    | none => simp [DbDataTypeVecToCompositeType, hinfo, isRegistered, valid_types]
    | some info =>
      have hiff := composite_type_loop_true (t2 :: ts) ("CompositeType(" ++ info.cassandra_type_)
      simp only [DbDataTypeVecToCompositeType, hinfo, hiff]
      simp [valid_types, isRegistered, hinfo]

theorem column_metadata_loop_isSome : ∀ (cols : List (Bytes × DbDataType))
    (col_vec : List ColumnDef),
    (column_metadata_loop cols col_vec).isSome = cols.all (fun p => isRegistered p.2) := by
  intro cols
  induction cols with
  | nil => intro col_vec; rfl
  | cons p rest ih =>
    intro col_vec
    obtain ⟨name, type⟩ := p
    cases hinfo : CdbIfTypeMap type with
    | none => simp [column_metadata_loop, hinfo, isRegistered]
    | some jt => simp [column_metadata_loop, hinfo, isRegistered, ih]

/-- The common tail of `NewDb_AddColumnfamily` never issues a remote call for a name that
has an entry, and returns true then. -/
theorem add_or_attach_existing (client : CassandraClient) (s : CdbIfState) (cf : NewCf)
    (cf_def : CfDef) (info : CdbIfCfInfo)
    (h : Db_GetColumnfamily s.CdbIfCfList cf.cfname_ = some info) :
    add_or_attach client s cf cf_def =
      (true, { s with CdbIfCfList := reset_cf s.CdbIfCfList cf.cfname_ cf }) := by
  simp [add_or_attach, h]

theorem add_or_attach_new (client : CassandraClient) (s : CdbIfState) (cf : NewCf)
    (cf_def : CfDef) (h : Db_GetColumnfamily s.CdbIfCfList cf.cfname_ = none)
    (hok : client.system_add_column_family s.events cf_def = .ok) :
    add_or_attach client s cf cf_def =
      (true, { s with
        events := s.events ++ [Event.system_add_column_family cf_def],
        CdbIfCfList := ptr_map_insert s.CdbIfCfList cf.cfname_ ⟨some cf_def, some cf⟩ }) := by
  simp [add_or_attach, h, hok]

/-- After the common tail of `NewDb_AddColumnfamily` has returned true, the name has an entry
with a locally declared definition, and at most one remote call was added. -/
theorem add_or_attach_usable (client : CassandraClient) (s : CdbIfState) (cf : NewCf)
    (cf_def : CfDef) (h : (add_or_attach client s cf cf_def).1 = true) :
    ∃ info, (add_or_attach client s cf cf_def).2.CdbIfCfList.lookup cf.cfname_ = some info ∧
      info.cf_ = some cf := by
  cases hget : Db_GetColumnfamily s.CdbIfCfList cf.cfname_ with
  | some info =>
    rw [add_or_attach_existing client s cf cf_def info hget]
    exact ⟨_, lookup_reset_cf _ _ cf info hget, rfl⟩
  | none =>
    cases hcall : client.system_add_column_family s.events cf_def with
    | ok =>
      rw [add_or_attach_new client s cf cf_def hget hcall]
      exact ⟨_, lookup_ptr_map_insert _ _ _ hget, rfl⟩
    | SchemaDisagreementException => simp [add_or_attach, hget, hcall] at h
    | InvalidRequestException => simp [add_or_attach, hget, hcall] at h
    | TApplicationException => simp [add_or_attach, hget, hcall] at h
    | TException => simp [add_or_attach, hget, hcall] at h

theorem Db_FindColumnfamily_false (s : CdbIfState) (cfname : String)
    (h : (Db_FindColumnfamily s cfname).1 = false) : Db_FindColumnfamily s cfname = (false, s) := by
  unfold Db_FindColumnfamily at h ⊢
  cases hl : s.CdbIfCfList.lookup cfname with
  | none => rfl
  | some it =>
    rw [hl] at h
    cases hcf : it.cf_.isSome with
    | true => simp [hcf] at h
    | false => simp [hcf]

theorem Db_FindColumnfamily_true (s : CdbIfState) (cfname : String)
    (h : (Db_FindColumnfamily s cfname).1 = true) : Db_FindColumnfamily s cfname = (true, s) := by
  unfold Db_FindColumnfamily at h ⊢
  cases hl : s.CdbIfCfList.lookup cfname with
  | none => rw [hl] at h; simp at h
  | some it =>
    rw [hl] at h
    cases hcf : it.cf_.isSome with
    | true => simp [hcf]
    | false => simp [hcf] at h

/-- The function `NewDb_AddColumnfamily` as one case distinction: a usable family returns true
at once; otherwise a valid definition reaches the common tail with some `cf_def`, and any
other definition returns false. -/
theorem NewDb_AddColumnfamily_cases (client : CassandraClient) (s : CdbIfState) (cf : NewCf) :
    ((Db_FindColumnfamily s cf.cfname_).1 = true ∧ NewDb_AddColumnfamily client s cf = (true, s)) ∨
    ((Db_FindColumnfamily s cf.cfname_).1 = false ∧ valid_definition cf = true ∧
      ∃ cf_def, NewDb_AddColumnfamily client s cf = add_or_attach client s cf cf_def) ∨
    ((Db_FindColumnfamily s cf.cfname_).1 = false ∧ valid_definition cf = false ∧
      NewDb_AddColumnfamily client s cf = (false, s)) := by
  cases hfind : (Db_FindColumnfamily s cf.cfname_).1 with
  | true =>
    left
    refine ⟨rfl, ?_⟩
    simp [NewDb_AddColumnfamily, Db_FindColumnfamily_true s _ hfind]
  | false =>
    right
    have hf := Db_FindColumnfamily_false s _ hfind
    cases hty : cf.cftype_ with
    | COLUMN_FAMILY_INVALID =>
      right
      exact ⟨rfl, by simp [valid_definition, hty], by simp [NewDb_AddColumnfamily, hf, hty]⟩
    | COLUMN_FAMILY_SQL =>
      have hk := composite_type_ok_iff "" cf.key_validation_class
      have hc := column_metadata_loop_isSome cf.cfcolumns_ []
      cases hkey : DbDataTypeVecToCompositeType "" cf.key_validation_class with
      | mk b d =>
        rw [hkey] at hk
        cases b with
        | false =>
          right
          have : valid_types cf.key_validation_class = false := by
            cases hv : valid_types cf.key_validation_class with
            | false => rfl
            | true => simp [hv] at hk
          exact ⟨rfl, by simp [valid_definition, hty, this],
            by simp [NewDb_AddColumnfamily, hf, hty, hkey]⟩
        | true =>
          have hvk : valid_types cf.key_validation_class = true := hk.mp rfl
          cases hcol : column_metadata_loop cf.cfcolumns_ [] with
          | none =>
            right
            rw [hcol] at hc
            exact ⟨rfl, by simp [valid_definition, hty, ← hc],
              by simp [NewDb_AddColumnfamily, hf, hty, hkey, hcol]⟩
          | some col_vec =>
            left
            rw [hcol] at hc
            exact ⟨rfl, by simp [valid_definition, hty, hvk, ← hc],
              ⟨{ keyspace := s.tablespace_, name := cf.cfname_, key_validation_class := d,
                 comparator_type := "", default_validation_class := "",
                 column_metadata := col_vec },
               by simp [NewDb_AddColumnfamily, hf, hty, hkey, hcol]⟩⟩
    | COLUMN_FAMILY_NOSQL =>
      have hk := composite_type_ok_iff "" cf.key_validation_class
      have hc := composite_type_ok_iff "" cf.comparator_type
      have hd := composite_type_ok_iff "" cf.default_validation_class
      cases hkey : DbDataTypeVecToCompositeType "" cf.key_validation_class with
      | mk b1 d1 =>
        cases hcmp : DbDataTypeVecToCompositeType "" cf.comparator_type with
        | mk b2 d2 =>
          cases hdef : DbDataTypeVecToCompositeType "" cf.default_validation_class with
          | mk b3 d3 =>
            rw [hkey] at hk; rw [hcmp] at hc; rw [hdef] at hd
            cases b1 with
            | false =>
              right
              simp only [Bool.false_eq_true, false_iff, Bool.not_eq_true] at hk
              exact ⟨rfl, by simp [valid_definition, hty, hk],
                by simp [NewDb_AddColumnfamily, hf, hty, hkey]⟩
            | true =>
              simp only [true_iff] at hk
              cases b2 with
              | false =>
                right
                simp only [Bool.false_eq_true, false_iff, Bool.not_eq_true] at hc
                exact ⟨rfl, by simp [valid_definition, hty, hc],
                  by simp [NewDb_AddColumnfamily, hf, hty, hkey, hcmp]⟩
              | true =>
                simp only [true_iff] at hc
                cases b3 with
                | false =>
                  right
                  simp only [Bool.false_eq_true, false_iff, Bool.not_eq_true] at hd
                  exact ⟨rfl, by simp [valid_definition, hty, hd],
                    by simp [NewDb_AddColumnfamily, hf, hty, hkey, hcmp, hdef]⟩
                | true =>
                  left
                  simp only [true_iff] at hd
                  exact ⟨rfl, by simp [valid_definition, hty, hk, hc, hd],
                    ⟨{ keyspace := s.tablespace_, name := cf.cfname_,
                       key_validation_class := d1, comparator_type := d2,
                       default_validation_class := d3, column_metadata := [] },
                     by simp [NewDb_AddColumnfamily, hf, hty, hkey, hcmp, hdef]⟩⟩

theorem Db_FindColumnfamily_of_lookup (s : CdbIfState) (cfname : String) (info : CdbIfCfInfo)
    (cf : NewCf) (h : s.CdbIfCfList.lookup cfname = some info) (hcf : info.cf_ = some cf) :
    Db_FindColumnfamily s cfname = (true, s) := by
  simp [Db_FindColumnfamily, h, hcf]

theorem Db_FindColumnfamily_of_none (s : CdbIfState) (cfname : String)
    (h : s.CdbIfCfList.lookup cfname = none) : Db_FindColumnfamily s cfname = (false, s) := by
  simp [Db_FindColumnfamily, h]

theorem create_calls_append_one (events : List Event) (cf_def : CfDef) :
    create_calls (events ++ [Event.system_add_column_family cf_def]) = create_calls events + 1 := by
  simp [create_calls, List.filter_append]

/-- A true return of `NewDb_AddColumnfamily` leaves an entry with a locally declared
definition for the name. -/
theorem NewDb_AddColumnfamily_usable (client : CassandraClient) (s : CdbIfState) (cf : NewCf)
    (h : (NewDb_AddColumnfamily client s cf).1 = true) :
    ∃ info cf1, (NewDb_AddColumnfamily client s cf).2.CdbIfCfList.lookup cf.cfname_ = some info ∧
      info.cf_ = some cf1 := by
  rcases NewDb_AddColumnfamily_cases client s cf with ⟨hf, heq⟩ | ⟨_, _, cf_def, heq⟩ | ⟨_, _, heq⟩
  · rw [heq]
    unfold Db_FindColumnfamily at hf
    cases hl : s.CdbIfCfList.lookup cf.cfname_ with
    | none => rw [hl] at hf; simp at hf
    | some it =>
      rw [hl] at hf
      cases hcf : it.cf_ with
      | none => simp [hcf] at hf
      | some cf1 => exact ⟨it, cf1, rfl, hcf⟩
  · rw [heq] at h ⊢
    obtain ⟨info, h1, h2⟩ := add_or_attach_usable client s cf cf_def h
    exact ⟨info, cf, h1, h2⟩
  · rw [heq] at h; simp at h

/-- A valid definition declared on a registry without an entry for its name, against a
backend whose create call succeeds: `NewDb_AddColumnfamily` returns true. -/
theorem idempotent_declare_aux (client : CassandraClient) (s : CdbIfState) (cf : NewCf)
    (hno : Db_GetColumnfamily s.CdbIfCfList cf.cfname_ = none)
    (hvalid : valid_definition cf = true)
    (hok : ∀ events cf_def, client.system_add_column_family events cf_def = .ok) :
    (NewDb_AddColumnfamily client s cf).1 = true := by
  have hfind := Db_FindColumnfamily_of_none s cf.cfname_ hno
  rcases NewDb_AddColumnfamily_cases client s cf with ⟨hf, _⟩ | ⟨_, _, cf_def, heq⟩ | ⟨_, hv, _⟩
  · rw [hfind] at hf; simp at hf
  · rw [heq, add_or_attach_new client s cf cf_def hno (hok _ _)]
  · rw [hvalid] at hv; simp at hv

theorem NewDb_AddColumnfamily_found (client : CassandraClient) (s : CdbIfState) (cf : NewCf)
    (h : Db_FindColumnfamily s cf.cfname_ = (true, s)) :
    NewDb_AddColumnfamily client s cf = (true, s) := by
  simp only [NewDb_AddColumnfamily, h]

/-! ## Auxiliary facts about the write queue -/

/-- Enqueuing while the ready flag is false appends the entry and leaves everything else,
the stopped runner included, as it is. -/
theorem NewDb_AddColumn_gated (s : CdbIfState) (q : WorkQueue) (cl : Option ColList)
    (hq : s.cdbq_ = some q) (hg : s.db_init_done_ = false) :
    NewDb_AddColumn s cl =
      (true, { s with cdbq_ := some { q with queue_ := q.queue_ ++ [⟨cl⟩] } }) := by
  simp [NewDb_AddColumn, hq, WorkQueue.Enqueue, WorkQueue.MayBeStartRunner, Db_IsInitDone, hg]

theorem enqueue_all_gated : ∀ (items : List (Option ColList)) (s : CdbIfState) (q : WorkQueue),
    s.cdbq_ = some q → s.db_init_done_ = false →
    enqueue_all s items =
      { s with cdbq_ := some { q with queue_ := q.queue_ ++ items.map CdbIfColList.mk } } := by
  intro items
  induction items with
  | nil =>
    intro s q hq _
    simp only [enqueue_all, List.foldl_nil, List.map_nil, List.append_nil]
    cases s
    simp only at hq
    simp [hq]
  | cons cl rest ih =>
    intro s q hq hg
    have hstep := NewDb_AddColumn_gated s q cl hq hg
    have := ih { s with cdbq_ := some { q with queue_ := q.queue_ ++ [⟨cl⟩] } }
      { q with queue_ := q.queue_ ++ [⟨cl⟩] } rfl hg
    simp only [enqueue_all, List.foldl_cons, hstep] at this ⊢
    rw [this]
    simp

/-- The ready signal given to a gated object with a queue: the runner is not started,
because the gate predicate is evaluated before the flag is assigned. -/
theorem Db_SetInitDone_gated (s : CdbIfState) (q : WorkQueue) (hq : s.cdbq_ = some q)
    (hg : s.db_init_done_ = false) :
    Db_SetInitDone s true =
      some { s with db_init_done_ := true,
                    events := s.events ++ [Event.MayBeStartRunner] } := by
  cases s
  simp only at hq hg
  simp [Db_SetInitDone, hq, hg, WorkQueue.MayBeStartRunner, Db_IsInitDone]

theorem runner_triggers_append_one (events : List Event) :
    runner_triggers (events ++ [Event.MayBeStartRunner]) = runner_triggers events + 1 := by
  simp [runner_triggers, List.filter_append]

/-- The loop over the columns of `Db_AsyncAddColumn` for Dynamic columns. -/
theorem mutation_loop_dynamic (l : CdbIfCfListType) (cfname : String) (ts ttl : Nat)
    (cf : NewCf) (hdecl : declared_cf l cfname = some cf) :
    ∀ (columns : List NewCol) (cftype : ColumnFamilyType) (mutations : List Mutation),
    all_dynamic columns → cftype ≠ .COLUMN_FAMILY_SQL →
    mutation_loop l cfname ts ttl columns cftype mutations =
      .done (mutations ++ columns.map (expected_mutation cf ts ttl)) := by
  intro columns
  induction columns with
  | nil => intro cftype mutations _ _; simp [mutation_loop]
  | cons c rest ih =>
    intro cftype mutations hall hty
    have hc : c.cftype_ = .COLUMN_FAMILY_NOSQL := hall c (List.mem_cons_self _ _)
    have hrest : all_dynamic rest := fun x hx => hall x (List.mem_cons_of_mem _ hx)
    rw [mutation_loop]
    simp only [hc, hty, if_false]
    rw [ih _ _ hrest (by simp)]
    simp [expected_mutation, hc, ConstructDbDataValueColumnName,
      ConstructDbDataValueColumnValue, hdecl]

/-- The loop over the columns of `Db_AsyncAddColumn` for Flat columns. -/
theorem mutation_loop_flat (l : CdbIfCfListType) (cfname : String) (ts ttl : Nat)
    (cf : NewCf) (hdecl : declared_cf l cfname = some cf) :
    ∀ (columns : List NewCol) (cftype : ColumnFamilyType) (mutations : List Mutation),
    all_flat cf columns → cftype ≠ .COLUMN_FAMILY_NOSQL →
    mutation_loop l cfname ts ttl columns cftype mutations =
      .done (mutations ++ columns.map (expected_mutation cf ts ttl)) := by
  intro columns
  induction columns with
  | nil => intro cftype mutations _ _; simp [mutation_loop]
  | cons c rest ih =>
    intro cftype mutations hall hty
    obtain ⟨hc, n, v, hn, hv, hreg⟩ := hall c (List.mem_cons_self _ _)
    have hrest : all_flat cf rest := fun x hx => hall x (List.mem_cons_of_mem _ hx)
    rw [mutation_loop]
    simp only [hc, hn, hv, hty, if_false]
    cases hl : cf.cfcolumns_.lookup n with
    | none =>
      simp only [DbDataValueToStringFromCf, hdecl, hl]
      rw [ih _ _ hrest (by simp)]
      simp [expected_mutation, hc, hn, hv, hl]
    | some type =>
      obtain ⟨info, hinfo⟩ := Option.isSome_iff_exists.mp (hreg type hl)
      simp only [DbDataValueToStringFromCf, hdecl, hl, DbDataValueToString, hinfo]
      rw [ih _ _ hrest (by simp)]
      simp [expected_mutation, hc, hn, hv, hl, hinfo]

/-- The effect of `Db_AsyncAddColumn` on the object: only events are added, and they are
none, or one `batch_mutate` call, followed by the error handler exactly when the call ends
with a transport exception. -/
theorem Db_AsyncAddColumn_shape (client : CassandraClient) (s : CdbIfState) (ts : Nat)
    (cl : CdbIfColList) :
    ∃ ret evs, Db_AsyncAddColumn client s ts cl = (ret, { s with events := s.events ++ evs }) ∧
      (evs = [] ∨
        ∃ mutation_map,
          (evs = [Event.batch_mutate mutation_map .ONE] ∧
            client.batch_mutate s.events mutation_map .ONE ≠ .TTransportException) ∨
          (evs = [Event.batch_mutate mutation_map .ONE, Event.errhandler] ∧
            client.batch_mutate s.events mutation_map .ONE = .TTransportException)) := by
  have hnil : s = { s with events := s.events ++ [] } := by simp
  cases hcl : cl.new_cl with
  | none =>
    refine ⟨some true, [], ?_, Or.inl rfl⟩
    simp only [Db_AsyncAddColumn, hcl]
    rw [← hnil]
  | some new_colp =>
    cases hloop : mutation_loop s.CdbIfCfList new_colp.cfname_ ts s.cassandra_ttl_
        new_colp.columns_ .COLUMN_FAMILY_INVALID [] with
    | abort =>
      refine ⟨none, [], ?_, Or.inl rfl⟩
      simp only [Db_AsyncAddColumn, hcl, hloop]
      rw [← hnil]
    | retf =>
      refine ⟨some false, [], ?_, Or.inl rfl⟩
      simp only [Db_AsyncAddColumn, hcl, hloop]
      rw [← hnil]
    | done mutations =>
      cases hout : client.batch_mutate s.events
          [((ConstructDbDataValueKey s.CdbIfCfList [] new_colp.cfname_ new_colp.rowkey_).2,
            [(new_colp.cfname_, mutations)])] .ONE
      case TTransportException =>
        refine ⟨some false, _, ?_, Or.inr ⟨_, Or.inr ⟨rfl, hout⟩⟩⟩
        simp [Db_AsyncAddColumn, hcl, hloop, hout]
      all_goals
        refine ⟨some true, _, ?_, Or.inr ⟨_, Or.inl ⟨rfl, by rw [hout]; simp⟩⟩⟩
        simp [Db_AsyncAddColumn, hcl, hloop, hout]

/-! ## Auxiliary facts about reads -/

/-- A registered non-composite decoder returns the value that the registered non-composite
encoder was given, for every value of the tag's domain. -/
theorem non_composite_decode_encode (t : DbDataType) (v : DbDataValue) (info : CdbIfTypeInfo)
    (ht : CdbIfTypeMap t = some info) (hv : inDomain t v = true) :
    info.decode_non_composite_fn_ (info.encode_non_composite_fn_ v) = some v := by
  cases t <;> cases v <;> simp only [inDomain, Bool.false_eq_true, Bool.and_eq_true,
    decide_eq_true_eq] at hv <;>
    simp only [CdbIfTypeMap, Option.some.injEq, reduceCtorEq] at ht <;> subst ht
  · rfl
  · simp [Db_decode_UUID_non_composite, Db_encode_UUID_non_composite, readBytes, c_str, hv.1]
  · simp [Db_decode_UUID_non_composite, Db_encode_UUID_non_composite, readBytes, c_str, hv.1]
  · show some (DbDataValue.uint8 (get_value (encode_Unsigned_non_composite 8 (_ % 2 ^ 8)) % 2 ^ 8)) = _
    rw [Nat.mod_eq_of_lt hv, get_value_encode_Unsigned_non_composite 8 _ (by norm_num) hv,
      Nat.mod_eq_of_lt hv]
  · show some (DbDataValue.uint16 (get_value (encode_Unsigned_non_composite 16 (_ % 2 ^ 16)) % 2 ^ 16)) = _
    rw [Nat.mod_eq_of_lt hv, get_value_encode_Unsigned_non_composite 16 _ (by norm_num) hv,
      Nat.mod_eq_of_lt hv]
  · show some (DbDataValue.uint32 (get_value (encode_Unsigned_non_composite 32 (_ % 2 ^ 32)) % 2 ^ 32)) = _
    rw [Nat.mod_eq_of_lt hv, get_value_encode_Unsigned_non_composite 32 _ (by norm_num) hv,
      Nat.mod_eq_of_lt hv]
  · show some (DbDataValue.uint64 (get_value (encode_Unsigned_non_composite 64 (_ % 2 ^ 64)))) = _
    rw [Nat.mod_eq_of_lt hv, get_value_encode_Unsigned_non_composite 64 _ (by norm_num) hv]

/-- Decoding the output of the encoder for a value vector of the domain of a type vector
returns the vector, for one type as for several. -/
theorem vec_decode_encode (T : DbDataTypeVec) (V : DbDataValueVec)
    (hd : inDomainVec T V = true) (hf : V.all ascii_fits = true) :
    DbDataValueVecFromString [] T (DbDataValueVecToString [] T V).2 = some (true, V) := by
  obtain ⟨hreg, hlen⟩ := inDomainVec_registered T V hd
  match T with
  | [] =>
    match V, hlen with
    | [], _ => rfl
  | [t] =>
    match V, hlen with
    | [v], _ =>
      simp only [inDomainVec, Bool.and_eq_true] at hd
      obtain ⟨info, hinfo⟩ := inDomain_registered t v hd.1
      have hdec := non_composite_decode_encode t v info hinfo hd.1
      simp [DbDataValueVecToString, DbDataValueVecFromString, DbDataValueFromType, hinfo, hdec]
  | t1 :: t2 :: ts =>
    have henc : DbDataValueVecToString [] (t1 :: t2 :: ts) V =
        (true, concat_composite (t1 :: t2 :: ts) V) := by
      show encode_composite_loop [] (t1 :: t2 :: ts) V = _
      rw [encode_composite_loop_eq _ V [] (le_of_eq hlen) hreg, List.nil_append]
    have hdec := decode_composite_loop_eq (t1 :: t2 :: ts) V [] [] hd hf
    simp only [List.nil_append, List.length_nil] at hdec
    rw [henc]
    show (decode_composite_loop _ (t1 :: t2 :: ts) 0 []).map _ = _
    rw [hdec]; rfl

/-- Encoding a value vector of the domain of a non-empty type vector returns true. -/
theorem vec_encode_ok (T : DbDataTypeVec) (V : DbDataValueVec) (hne : T ≠ [])
    (hd : inDomainVec T V = true) : (DbDataValueVecToString [] T V).1 = true := by
  obtain ⟨hreg, hlen⟩ := inDomainVec_registered T V hd
  match T, hne with
  | [t], _ =>
    match V, hlen with
    | [v], _ =>
      simp only [inDomainVec, Bool.and_eq_true] at hd
      obtain ⟨info, hinfo⟩ := inDomain_registered t v hd.1
      simp [DbDataValueVecToString, hinfo]
  | t1 :: t2 :: ts, _ =>
    show (encode_composite_loop [] (t1 :: t2 :: ts) V).1 = true
    rw [encode_composite_loop_eq _ V [] (le_of_eq hlen) hreg]

/-- An unbounded range bound, the empty value vector, is encoded as the empty string under
every non-empty type vector. -/
theorem encode_empty_bound (T : DbDataTypeVec) (hne : T ≠ []) :
    DbDataValueVecToString [] T [] = (true, []) := by
  match T, hne with
  | [t], _ => rfl
  | t1 :: t2 :: ts, _ => rfl

/-- The Dynamic decoding loop returns the well-formed columns whose encodings it is given. -/
theorem nosql_columns_loop_encode (cf : NewCf) : ∀ (page acc : List NewCol),
    (∀ c ∈ page, well_formed_column cf c) →
    nosql_columns_loop cf (page.map (encode_column cf)) acc = some (acc ++ page) := by
  intro page
  induction page with
  | nil => intro acc _; simp [nosql_columns_loop]
  | cons c rest ih =>
    intro acc hwf
    obtain ⟨hty, hdn, hfn, hdv, hfv, _⟩ := hwf c (List.mem_cons_self _ _)
    have hn := vec_decode_encode cf.comparator_type c.name hdn hfn
    have hv := vec_decode_encode cf.default_validation_class c.value hdv hfv
    simp only [List.map_cons, nosql_columns_loop, encode_column, hn, hv]
    rw [ih _ (fun x hx => hwf x (List.mem_cons_of_mem _ hx))]
    have hc : (⟨.COLUMN_FAMILY_NOSQL, c.name, c.value⟩ : NewCol) = c := by
      cases c; simp only at hty; simp [hty]
    rw [hc]; simp

/-- One page request against the inclusive-start backend holding the encoded row: when the
family is declared Dynamic, the row key encodes, and the start bound encodes to `e`, the
request returns true and appends the first `count` columns of the row whose encoded names
are not below `e`. -/
theorem Db_GetRangeSlices_Internal_page (client : CassandraClient) (s : CdbIfState)
    (lt : Bytes → Bytes → Bool) (cf : NewCf) (cols : List NewCol) (cfname : String)
    (rowkey start : DbDataValueVec) (e : Bytes) (count : Nat) (cl0 : ColList)
    (hdecl : declared_cf s.CdbIfCfList cfname = some cf)
    (hty : cf.cftype_ = .COLUMN_FAMILY_NOSQL)
    (hcmp : cf.comparator_type ≠ [])
    (hkey : (DbDataValueVecToString [] cf.key_validation_class rowkey).1 = true)
    (hback : client.get_range_slices = inclusive_backend lt (cols.map (encode_column cf)))
    (hwf : ∀ c ∈ cols, well_formed_column cf c)
    (hstart : DbDataValueVecToString [] cf.comparator_type start = (true, e)) :
    Db_GetRangeSlices_Internal client s cl0 cfname ⟨start, [], count⟩ rowkey =
      some (true, { cl0 with columns_ := cl0.columns_ ++
        (cols.filter fun c => e.isEmpty || !lt (encode_column cf c).name e).take count }) := by
  obtain ⟨k, hk⟩ : ∃ k, DbDataValueVecToString [] cf.key_validation_class rowkey = (true, k) := by
    cases h : DbDataValueVecToString [] cf.key_validation_class rowkey with
    | mk b k => rw [h] at hkey; simp only at hkey; subst hkey; exact ⟨k, rfl⟩
  have hpage : (((cols.map (encode_column cf)).filter fun c =>
      (e.isEmpty || !lt c.name e) && (([] : Bytes).isEmpty || !lt [] c.name)).take count) =
      ((cols.filter fun c => e.isEmpty || !lt (encode_column cf c).name e).take count).map
        (encode_column cf) := by
    rw [List.filter_map, List.map_take]
    congr 2
    apply List.filter_congr
    intro x _
    simp
  have hsub : ∀ c ∈ (cols.filter fun c => e.isEmpty || !lt (encode_column cf c).name e).take count,
      well_formed_column cf c :=
    fun c hc => hwf c (List.mem_of_mem_filter (List.mem_of_mem_take hc))
  simp only [Db_GetRangeSlices_Internal, ConstructDbDataValueKey, ConstructDbDataValueColumnName,
    hdecl, hk, hstart, encode_empty_bound _ hcmp, hback, inclusive_backend, hpage,
    ColListFromColumnOrSuper, hty, nosql_columns_loop_encode cf _ _ hsub, Option.map_some']

/-- In a row sorted strictly by name, the columns whose names are not below the name of a
column `c` of the row are `c` and the columns after it. -/
theorem filter_from_column (lt : Bytes → Bytes → Bool) (cf : NewCf) (hlt : strict_order lt)
    (pre post : List NewCol) (c : NewCol)
    (hsorted : (pre ++ c :: post).Pairwise
      (fun a b => lt (encode_column cf a).name (encode_column cf b).name = true)) :
    (pre ++ c :: post).filter (fun x => !lt (encode_column cf x).name (encode_column cf c).name) =
      c :: post := by
  obtain ⟨hirr, htrans⟩ := hlt
  rw [List.pairwise_append] at hsorted
  obtain ⟨_, hcp, hcross⟩ := hsorted
  rw [List.pairwise_cons] at hcp
  rw [List.filter_append]
  have hpre : pre.filter (fun x => !lt (encode_column cf x).name (encode_column cf c).name) = [] := by
    rw [List.filter_eq_nil_iff]
    intro a ha
    simp [hcross a ha c (List.mem_cons_self _ _)]
  have hpost : (c :: post).filter
      (fun x => !lt (encode_column cf x).name (encode_column cf c).name) = c :: post := by
    rw [List.filter_eq_self]
    intro a ha
    rcases List.mem_cons.mp ha with rfl | ha
    · simp [hirr]
    · have h1 := hcp.1 a ha
      cases h2 : lt (encode_column cf a).name (encode_column cf c).name with
      | false => rfl
      | true =>
        have := htrans _ _ _ h1 h2
        rw [hirr] at this
        simp at this
  rw [hpre, hpost, List.nil_append]

theorem range_slices_loop_stop (client : CassandraClient) (s : CdbIfState) (cfname : String)
    (crange : ColumnNameRange) (rowkey : DbDataValueVec) (fuel : Nat) (col_list : ColList)
    (crange_new : ColumnNameRange) (result : Bool) :
    range_slices_loop client s cfname crange rowkey fuel col_list crange_new false result =
      .returned (result, col_list) := by
  cases fuel <;> simp [range_slices_loop]

theorem split_at_index (post : List NewCol) (k : Nat) (hk : k < post.length) :
    ∃ p1 c p2, post = p1 ++ c :: p2 ∧ p1.length = k :=
  ⟨post.take k, post[k], post.drop (k + 1),
    by rw [← List.drop_eq_getElem_cons hk, List.take_append_drop],
    by rw [List.length_take]; omega⟩

/-- The continuation loop of `Db_GetRangeSlices` against the inclusive-start backend: started
with the columns up to `c` accumulated and `c` as the start bound, and given enough
iterations, it returns true with the whole row accumulated. -/
theorem range_slices_loop_stitch (client : CassandraClient) (s : CdbIfState)
    (lt : Bytes → Bytes → Bool) (cf : NewCf) (cols : List NewCol) (cfname : String)
    (rowkey : DbDataValueVec) (k : Nat) (cl0 : ColList)
    (hdecl : declared_cf s.CdbIfCfList cfname = some cf)
    (hty : cf.cftype_ = .COLUMN_FAMILY_NOSQL)
    (hcmp : cf.comparator_type ≠ [])
    (hkey : (DbDataValueVecToString [] cf.key_validation_class rowkey).1 = true)
    (hback : client.get_range_slices = inclusive_backend lt (cols.map (encode_column cf)))
    (hlt : strict_order lt) (hrow : sorted_row lt cf cols) :
    ∀ (fuel : Nat) (pre post : List NewCol) (c : NewCol),
    cols = pre ++ c :: post → post.length + 1 ≤ fuel →
    range_slices_loop client s cfname ⟨[], [], k + 2⟩ rowkey fuel
        { cl0 with columns_ := pre ++ [c] } ⟨c.name, [], k + 2⟩ true true =
      .returned (true, { cl0 with columns_ := cols }) := by
  intro fuel
  induction fuel with
  | zero => intro pre post c _ h; omega
  | succ fuel ih =>
    intro pre post c hcols hfuel
    obtain ⟨hwf, hsorted⟩ := hrow
    have hc := hwf c (by rw [hcols]; simp)
    obtain ⟨_, hdn, _, _, _, hne⟩ := hc
    have hstart : DbDataValueVecToString [] cf.comparator_type c.name =
        (true, (encode_column cf c).name) := by
      have := vec_encode_ok cf.comparator_type c.name hcmp hdn
      cases h : DbDataValueVecToString [] cf.comparator_type c.name with
      | mk b e => rw [h] at this; simp only at this; subst this; simp [encode_column, h]
    have hpage := Db_GetRangeSlices_Internal_page client s lt cf cols cfname rowkey c.name
      (encode_column cf c).name (k + 2) ⟨"", [], []⟩ hdecl hty hcmp hkey hback hwf hstart
    have hfilter : (cols.filter fun x => (encode_column cf c).name.isEmpty ||
        !lt (encode_column cf x).name (encode_column cf c).name) = c :: post := by
      have hemp : (encode_column cf c).name.isEmpty = false := by
        cases h : (encode_column cf c).name with
        | nil => exact absurd h hne
        | cons _ _ => rfl
      simp only [hemp, Bool.false_or]
      rw [hcols] at hsorted ⊢
      exact filter_from_column lt cf hlt pre post c hsorted
    rw [hfilter] at hpage
    rw [range_slices_loop]
    simp only [Bool.and_self, if_true, hpage, List.nil_append, List.take_succ_cons, List.tail_cons]
    by_cases hk : k < post.length
    · obtain ⟨p1, c1, p2, hpost, hp1⟩ := split_at_index post k hk
      have htake : List.take (k + 1) post = p1 ++ [c1] := by
        rw [hpost, List.take_append_eq_append_take, hp1]
        simp [List.take_of_length_le (le_of_eq hp1 |>.trans (Nat.le_succ k))]
      have hlen : (c :: List.take (k + 1) post).length = k + 2 := by
        rw [htake]; simp [hp1]
      have hlast : (c :: List.take (k + 1) post).getLast? = some c1 := by
        rw [htake, ← List.cons_append, List.getLast?_append]; simp
      simp only [hlen, decide_True, hlast]
      have hcols2 : cols = (pre ++ c :: p1) ++ c1 :: p2 := by
        rw [hcols, hpost]; simp
      have := ih (pre ++ c :: p1) p2 c1 hcols2 (by
        have : post.length = p1.length + (p2.length + 1) := by rw [hpost]; simp
        omega)
      rw [htake]
      simpa using this
    · have htake : List.take (k + 1) post = post := List.take_of_length_le (by omega)
      have hlen : ¬ (c :: List.take (k + 1) post).length = k + 2 := by
        rw [htake]; simp; omega
      simp only [hlen, decide_False]
      rw [range_slices_loop_stop, htake, hcols]
      simp

theorem callbacks_Db_AsyncAddColumn (client : CassandraClient) (s : CdbIfState) (ts : Nat)
    (cl : CdbIfColList) :
    callbacks (Db_AsyncAddColumn client s ts cl).2.events = callbacks s.events := by
  obtain ⟨ret, evs, heq, hevs⟩ := Db_AsyncAddColumn_shape client s ts cl
  rw [heq]
  rcases hevs with rfl | ⟨m, ⟨rfl, _⟩ | ⟨rfl, _⟩⟩ <;> simp [callbacks, List.filterMap_append]

/-- A started runner whose callbacks do not abort hands the buffered entries to
`Db_AsyncAddColumn` one by one in FIFO order. -/
theorem runner_loop_in_order (client : CassandraClient) (clock : List Event → Nat) :
    ∀ (items : List CdbIfColList) (s : CdbIfState),
    (runner_loop client clock items s).1 = true →
    callbacks (runner_loop client clock items s).2.events = callbacks s.events ++ items := by
  intro items
  induction items with
  | nil => intro s _; simp [runner_loop]
  | cons entry rest ih =>
    intro s h
    rw [runner_loop] at h ⊢
    have hcb := callbacks_Db_AsyncAddColumn client
      { s with cdbq_ := s.cdbq_.map (fun q => { q with queue_ := rest }),
               events := s.events ++ [Event.callback entry] }
      (clock (s.events ++ [Event.callback entry])) entry
    cases hr : Db_AsyncAddColumn client
        { s with cdbq_ := s.cdbq_.map (fun q => { q with queue_ := rest }),
                 events := s.events ++ [Event.callback entry] }
        (clock (s.events ++ [Event.callback entry])) entry with
    | mk ret s2 =>
      rw [hr] at hcb
      simp only [hr] at h ⊢
      cases ret with
      | none => simp at h
      | some b =>
        simp only at h ⊢
        rw [ih s2 h, hcb]
        simp [callbacks, List.filterMap_append]

/-- The runner does start when an item is enqueued on a ready object, and a run then drains
the queue in FIFO order. -/
theorem enqueue_when_ready_drains (client : CassandraClient) (clock : List Event → Nat)
    (s : CdbIfState) (q : WorkQueue) (cl : Option ColList)
    (hq : s.cdbq_ = some q) (hready : s.db_init_done_ = true)
    (hrun : (run_queue client clock (NewDb_AddColumn s cl).2).1 = true) :
    callbacks (run_queue client clock (NewDb_AddColumn s cl).2).2.events =
      callbacks s.events ++ q.queue_ ++ [⟨cl⟩] := by
  have henq : NewDb_AddColumn s cl =
      (true, { s with cdbq_ := some ⟨q.queue_ ++ [⟨cl⟩], true⟩ }) := by
    simp [NewDb_AddColumn, hq, WorkQueue.Enqueue, WorkQueue.MayBeStartRunner, Db_IsInitDone,
      hready]
  rw [henq] at hrun ⊢
  simp only [run_queue, if_true] at hrun ⊢
  rw [runner_loop_in_order client clock _ _ hrun]
  simp

/-! ## Auxiliary facts about the signed reading and about byte-prefixes -/

theorem be_value_guard (bs : Bytes) : be_value (0 :: bs) = be_value bs := by
  simp [be_value]

/-- The signed reading of a non-composite unsigned encoding is the encoded value. -/
theorem signed_be_value_encode (w v : Nat) (hw : w ≤ 64) (hv : v < 2 ^ w) :
    signed_be_value (encode_Unsigned_non_composite w v) = (v : Int) := by
  obtain ⟨n, bs, _, henc, _, _, hval, _⟩ := guarded_of_encode w v hw hv
  rw [henc]
  simp only [signed_be_value]
  rw [if_neg (by omega), be_value_guard, hval]

/-- The same, for the value reduced to the width as the encoders do. -/
theorem signed_be_value_encode_mod (w v : Nat) (hw : w ≤ 64) (hv : v < 2 ^ w) :
    signed_be_value (encode_Unsigned_non_composite w (v % 2 ^ w)) = (v : Int) := by
  rw [Nat.mod_eq_of_lt hv]; exact signed_be_value_encode w v hw hv

/-- The composite encoding of the first `k` values is a byte-prefix of that of all values. -/
theorem concat_composite_take : ∀ (T : DbDataTypeVec) (V : DbDataValueVec) (k : Nat),
    concat_composite T (V.take k) <+: concat_composite T V := by
  intro T
  induction T with
  | nil => intro V k; cases V.take k <;> cases V <;> simp [concat_composite]
  | cons t ts ih =>
    intro V k
    cases V with
    | nil => simp [concat_composite]
    | cons v vs =>
      cases k with
      | zero => simp [concat_composite]
      | succ k =>
        simp only [List.take_succ_cons, concat_composite]
        exact (List.prefix_append_right_inj _).mpr (ih vs k)

/-! ## Auxiliary facts about unregistered type tags -/

/-- The encoding loop returns false when the value vector reaches an unregistered tag. -/
theorem encode_composite_loop_unregistered : ∀ (T : DbDataTypeVec) (V : DbDataValueVec)
    (res : Bytes), V.length = T.length → (∃ t ∈ T, isRegistered t = false) →
    (encode_composite_loop res T V).1 = false := by
  intro T
  induction T with
  | nil => intro V res _ h; obtain ⟨t, ht, _⟩ := h; simp at ht
  | cons t ts ih =>
    intro V res hlen h
    cases V with
    | nil => simp at hlen
    | cons v vs =>
      cases hmap : CdbIfTypeMap t with
      | none => simp [encode_composite_loop, hmap]
      | some kt =>
        simp only [encode_composite_loop, hmap]
        obtain ⟨u, hu, hreg⟩ := h
        rcases List.mem_cons.mp hu with rfl | hu
        · simp [isRegistered, hmap] at hreg
        · exact ih vs _ (by simpa using hlen) ⟨u, hu, hreg⟩

/-- The decoding loop passes over the unregistered tags: it runs as on the registered tags
alone. -/
theorem decode_composite_loop_skip (input : Bytes) : ∀ (T : DbDataTypeVec) (used : Nat)
    (res : DbDataValueVec),
    decode_composite_loop input T used res =
      decode_composite_loop input (T.filter isRegistered) used res := by
  intro T
  induction T with
  | nil => intro used res; rfl
  | cons t ts ih =>
    intro used res
    cases hmap : CdbIfTypeMap t with
    | none =>
      have hreg : isRegistered t = false := by simp [isRegistered, hmap]
      rw [List.filter_cons_of_neg (by simp [hreg])]
      simp only [decode_composite_loop, hmap]
      exact ih used res
    | some jt =>
      have hreg : isRegistered t = true := by simp [isRegistered, hmap]
      rw [List.filter_cons_of_pos hreg]
      simp only [decode_composite_loop, hmap]
      split
      · cases jt.decode_composite_fn_ ((c_str input).drop used) with
        | none => rfl
        | some r => exact ih _ _
      · rfl

/-! ## Auxiliary facts about re-declaration -/

/-- On a usable family `Db_UseColumnfamily` returns true and changes nothing. -/
theorem Db_UseColumnfamily_found (s : CdbIfState) (cf : NewCf)
    (h : Db_FindColumnfamily s cf.cfname_ = (true, s)) :
    Db_UseColumnfamily s cf = (true, s) := by
  simp only [Db_UseColumnfamily, h]

/-- A true return of `NewDb_AddColumnfamily` on a family that was not usable before leaves
the given definition as the locally declared one. -/
theorem NewDb_AddColumnfamily_declares (client : CassandraClient) (s : CdbIfState) (cf : NewCf)
    (h : (NewDb_AddColumnfamily client s cf).1 = true)
    (hnew : (Db_FindColumnfamily s cf.cfname_).1 = false) :
    declared_cf (NewDb_AddColumnfamily client s cf).2.CdbIfCfList cf.cfname_ = some cf := by
  rcases NewDb_AddColumnfamily_cases client s cf with ⟨hf, _⟩ | ⟨_, _, cf_def, heq⟩ | ⟨_, _, heq⟩
  · rw [hnew] at hf; simp at hf
  · rw [heq] at h ⊢
    obtain ⟨info, hl, hcf⟩ := add_or_attach_usable client s cf cf_def h
    simp [declared_cf, Db_GetColumnfamily, hl, hcf]
  · rw [heq] at h; simp at h

/-! ## Auxiliary facts about the multi-row read -/

/-- The inner loop of `Db_GetMultiRow`, started at the counter `i`, visits the next
`max_query_rows + 1 - i` row keys, as far as there are that many. -/
theorem multi_row_keys_eq (L : CdbIfCfListType) (cfname : String) (m : Nat)
    (enc : DbDataValueVec → Bytes) :
    ∀ (rowkeys : List DbDataValueVec) (i : Nat) (keys : List Bytes),
    (∀ k ∈ rowkeys, ConstructDbDataValueKey L [] cfname k = (true, enc k)) →
    multi_row_keys L cfname m rowkeys i keys =
      some (keys ++ (rowkeys.take (m + 1 - i)).map enc, rowkeys.drop (m + 1 - i)) := by
  intro rowkeys
  induction rowkeys with
  | nil => intro i keys _; simp [multi_row_keys]
  | cons k rest ih =>
    intro i keys hk
    by_cases hi : i ≤ m
    · have hsub : m + 1 - i = (m + 1 - (i + 1)) + 1 := by omega
      rw [hsub, List.take_succ_cons, List.drop_succ_cons]
      simp only [multi_row_keys, if_pos hi, hk k (List.mem_cons_self _ _)]
      rw [ih (i + 1) (keys ++ [enc k]) (fun k1 hk1 => hk k1 (List.mem_cons_of_mem _ hk1))]
      simp
    · have hsub : m + 1 - i = 0 := by omega
      rw [hsub]
      simp [multi_row_keys, hi]

theorem multi_row_loop_nil (mg : List Bytes → Option (List (Bytes × List Column)))
    (s : CdbIfState) (cfname : String) (m fuel : Nat) (ret : List ColList)
    (calls : List (List Bytes)) :
    multi_row_loop mg s cfname m fuel [] ret calls = (.returned (true, ret), calls) := by
  cases fuel <;> rfl

/-- One iteration of the loop of `Db_GetMultiRow` against a backend that returns no row: one
call with the keys of the next `max_query_rows + 1` row keys. -/
theorem multi_row_loop_step (mg : List Bytes → Option (List (Bytes × List Column)))
    (s : CdbIfState) (cfname : String) (m : Nat) (enc : DbDataValueVec → Bytes) (cf : NewCf)
    (hdecl : declared_cf s.CdbIfCfList cfname = some cf)
    (hmg : ∀ keys, mg keys = some [])
    (fuel : Nat) (rowkeys : List DbDataValueVec) (ret : List ColList)
    (calls : List (List Bytes)) (hne : rowkeys ≠ [])
    (hk : ∀ k ∈ rowkeys, ConstructDbDataValueKey s.CdbIfCfList [] cfname k = (true, enc k)) :
    multi_row_loop mg s cfname m (fuel + 1) rowkeys ret calls =
      multi_row_loop mg s cfname m fuel (rowkeys.drop (m + 1)) ret
        (calls ++ [(rowkeys.take (m + 1)).map enc]) := by
  cases rowkeys with
  | nil => exact absurd rfl hne
  | cons it rest =>
    simp only [multi_row_loop]
    rw [multi_row_keys_eq s.CdbIfCfList cfname m enc (it :: rest) 0 [] hk]
    simp only [Nat.sub_zero, List.nil_append, hmg, hdecl, multi_row_results]

/-- The batches of `Db_GetMultiRow` against a backend that returns no row: the function
returns true, the batches together are the encoded row keys in the given order, and a batch
holds between one and `max_query_rows + 1` keys. -/
theorem multi_row_loop_batches (mg : List Bytes → Option (List (Bytes × List Column)))
    (s : CdbIfState) (cfname : String) (m : Nat) (enc : DbDataValueVec → Bytes) (cf : NewCf)
    (hdecl : declared_cf s.CdbIfCfList cfname = some cf)
    (hmg : ∀ keys, mg keys = some []) :
    ∀ (fuel : Nat) (rowkeys : List DbDataValueVec) (ret : List ColList)
      (calls : List (List Bytes)), rowkeys.length ≤ fuel →
    (∀ k ∈ rowkeys, ConstructDbDataValueKey s.CdbIfCfList [] cfname k = (true, enc k)) →
    ∃ batches, multi_row_loop mg s cfname m fuel rowkeys ret calls =
        (.returned (true, ret), calls ++ batches) ∧
      batches.flatten = rowkeys.map enc ∧
      ∀ b ∈ batches, 1 ≤ b.length ∧ b.length ≤ m + 1 := by
  intro fuel
  induction fuel with
  | zero =>
    intro rowkeys ret calls hlen _
    have : rowkeys = [] := List.length_eq_zero.mp (Nat.le_zero.mp hlen)
    subst this
    exact ⟨[], by simp [multi_row_loop], rfl, by simp⟩
  | succ fuel ih =>
    intro rowkeys ret calls hlen hk
    by_cases hne : rowkeys = []
    · subst hne
      exact ⟨[], by simp [multi_row_loop], rfl, by simp⟩
    · have hpos : 0 < rowkeys.length := List.length_pos.mpr hne
      obtain ⟨batches, hrun, hflat, hsize⟩ := ih (rowkeys.drop (m + 1)) ret
        (calls ++ [(rowkeys.take (m + 1)).map enc])
        (by rw [List.length_drop]; omega)
        (fun k hk1 => hk k (List.mem_of_mem_drop hk1))
      refine ⟨(rowkeys.take (m + 1)).map enc :: batches, ?_, ?_, ?_⟩
      · rw [multi_row_loop_step mg s cfname m enc cf hdecl hmg fuel rowkeys ret calls hne hk,
          hrun]
        simp
      · rw [List.flatten_cons, hflat, ← List.map_append, List.take_append_drop]
      · intro b hb
        rcases List.mem_cons.mp hb with rfl | hb
        · rw [List.length_map, List.length_take]
          omega
        · exact hsize b hb

/-! ## Auxiliary facts about the translation of encodable items -/

theorem all_dynamic_of_encodable (cf : NewCf) (columns : List NewCol)
    (h : encodable_dynamic cf columns) : all_dynamic columns :=
  fun c hc => (h c hc).1

theorem all_flat_of_encodable (cf : NewCf) (columns : List NewCol)
    (h : encodable_flat cf columns) : all_flat cf columns := by
  intro c hc
  obtain ⟨hty, n, v, type, hn, hv, hl, hreg⟩ := h c hc
  refine ⟨hty, n, v, hn, hv, ?_⟩
  intro type1 hl1
  rw [hl] at hl1
  cases hl1
  exact hreg

/-- The mutation built for a Dynamic column that encodes carries its encoded name and
value. -/
theorem carries_encoding_dynamic (cf : NewCf) (ts ttl : Nat) (c : NewCol)
    (hty : c.cftype_ = .COLUMN_FAMILY_NOSQL)
    (hname : (DbDataValueVecToString [] cf.comparator_type c.name).1 = true)
    (hvalue : (DbDataValueVecToString [] cf.default_validation_class c.value).1 = true) :
    carries_encoding cf ts ttl c (expected_mutation cf ts ttl c) := by
  have hm : expected_mutation cf ts ttl c =
      ⟨(DbDataValueVecToString [] cf.comparator_type c.name).2,
       (DbDataValueVecToString [] cf.default_validation_class c.value).2, ts,
       if ttl = 0 then none else some ttl⟩ := by
    simp [expected_mutation, hty]
  rw [hm]
  refine ⟨rfl, rfl, Or.inl ⟨hty, ?_, ?_⟩⟩
  · exact Prod.ext hname rfl
  · exact Prod.ext hvalue rfl

/-- The mutation built for a Flat column with a declared, registered type carries its name
and its encoded value. -/
theorem carries_encoding_flat (cf : NewCf) (ts ttl : Nat) (c : NewCol) (n : Bytes)
    (v : DbDataValue) (type : DbDataType)
    (hty : c.cftype_ = .COLUMN_FAMILY_SQL) (hn : c.name = [.string n]) (hv : c.value = [v])
    (hl : cf.cfcolumns_.lookup n = some type) (hreg : isRegistered type = true) :
    carries_encoding cf ts ttl c (expected_mutation cf ts ttl c) := by
  obtain ⟨it, hit⟩ := Option.isSome_iff_exists.mp hreg
  have hm : expected_mutation cf ts ttl c =
      ⟨n, it.encode_non_composite_fn_ v, ts, if ttl = 0 then none else some ttl⟩ := by
    simp [expected_mutation, hty, hn, hv, hl, hit]
  rw [hm]
  exact ⟨rfl, rfl, Or.inr ⟨hty, v, type, it, hn, hv, hl, hit, rfl⟩⟩

/-! ## The claims -/

/-- C1. Non-composite round trip: for every tag and every value in the tag's domain,
the non-composite decoder registered for the tag in `CdbIfTypeMap`, applied to the
output of the registered non-composite encoder, returns exactly the value. -/
theorem non_composite_round_trip (t : DbDataType) (v : DbDataValue)
    (hv : inDomain t v = true) :
    ∃ info, CdbIfTypeMap t = some info ∧
      info.decode_non_composite_fn_ (info.encode_non_composite_fn_ v) = some v := by
  cases t <;> cases v <;> simp only [inDomain, Bool.false_eq_true, Bool.and_eq_true,
    decide_eq_true_eq] at hv <;> refine ⟨_, rfl, ?_⟩
  · rfl
  · simp [Db_decode_UUID_non_composite, Db_encode_UUID_non_composite, readBytes, c_str, hv.1]
  · simp [Db_decode_UUID_non_composite, Db_encode_UUID_non_composite, readBytes, c_str, hv.1]
  · show some (DbDataValue.uint8 (get_value (encode_Unsigned_non_composite 8 (_ % 2 ^ 8)) % 2 ^ 8)) = _
    rw [Nat.mod_eq_of_lt hv, get_value_encode_Unsigned_non_composite 8 _ (by norm_num) hv,
      Nat.mod_eq_of_lt hv]
  · show some (DbDataValue.uint16 (get_value (encode_Unsigned_non_composite 16 (_ % 2 ^ 16)) % 2 ^ 16)) = _
    rw [Nat.mod_eq_of_lt hv, get_value_encode_Unsigned_non_composite 16 _ (by norm_num) hv,
      Nat.mod_eq_of_lt hv]
  · show some (DbDataValue.uint32 (get_value (encode_Unsigned_non_composite 32 (_ % 2 ^ 32)) % 2 ^ 32)) = _
    rw [Nat.mod_eq_of_lt hv, get_value_encode_Unsigned_non_composite 32 _ (by norm_num) hv,
      Nat.mod_eq_of_lt hv]
  · show some (DbDataValue.uint64 (get_value (encode_Unsigned_non_composite 64 (_ % 2 ^ 64)))) = _
    rw [Nat.mod_eq_of_lt hv, get_value_encode_Unsigned_non_composite 64 _ (by norm_num) hv]

theorem non_composite_round_trip_witness :
    ∃ info, CdbIfTypeMap .Unsigned64Type = some info ∧
      info.decode_non_composite_fn_ (info.encode_non_composite_fn_ (.uint64 (2 ^ 64 - 1))) =
        some (.uint64 (2 ^ 64 - 1)) :=
  non_composite_round_trip .Unsigned64Type (.uint64 (2 ^ 64 - 1)) (by decide)

/-- C4. Non-composite unsigned-integer format: for each width 8, 16, 32, 64 and every
value `v` below `2 ^ w`, the encoding is `n + 1` bytes long, `n ≥ 1` being the least
number of bytes with `v < 256 ^ n`; its first byte is `0x00` and the remaining `n`
bytes are `v` in big-endian order. In particular 0 and 255 encode to 2 bytes, 256 to
3 bytes and `2 ^ 64 - 1` to 9 bytes. -/
theorem unsigned_non_composite_format (v : Nat) :
    (v < 2 ^ 8 → guarded_minimal_big_endian v (Db_encode_Unsigned8_non_composite (.uint8 v))) ∧
    (v < 2 ^ 16 → guarded_minimal_big_endian v (Db_encode_Unsigned16_non_composite (.uint16 v))) ∧
    (v < 2 ^ 32 → guarded_minimal_big_endian v (Db_encode_Unsigned32_non_composite (.uint32 v))) ∧
    (v < 2 ^ 64 → guarded_minimal_big_endian v (Db_encode_Unsigned64_non_composite (.uint64 v))) ∧
    Db_encode_Unsigned8_non_composite (.uint8 0) = [0, 0] ∧
    Db_encode_Unsigned8_non_composite (.uint8 255) = [0, 255] ∧
    Db_encode_Unsigned16_non_composite (.uint16 256) = [0, 1, 0] ∧
    Db_encode_Unsigned64_non_composite (.uint64 (2 ^ 64 - 1)) =
      [0, 255, 255, 255, 255, 255, 255, 255, 255] := by
  refine ⟨fun h => ?_, fun h => ?_, fun h => ?_, fun h => ?_, ?_, ?_, ?_, ?_⟩
  · show guarded_minimal_big_endian v (encode_Unsigned_non_composite 8 (v % 2 ^ 8))
    rw [Nat.mod_eq_of_lt h]; exact guarded_of_encode 8 v (by norm_num) h
  · show guarded_minimal_big_endian v (encode_Unsigned_non_composite 16 (v % 2 ^ 16))
    rw [Nat.mod_eq_of_lt h]; exact guarded_of_encode 16 v (by norm_num) h
  · show guarded_minimal_big_endian v (encode_Unsigned_non_composite 32 (v % 2 ^ 32))
    rw [Nat.mod_eq_of_lt h]; exact guarded_of_encode 32 v (by norm_num) h
  · show guarded_minimal_big_endian v (encode_Unsigned_non_composite 64 (v % 2 ^ 64))
    rw [Nat.mod_eq_of_lt h]; exact guarded_of_encode 64 v (by norm_num) h
  · simp [Db_encode_Unsigned8_non_composite, encode_Unsigned_non_composite, size_loop, put_value]
  · simp [Db_encode_Unsigned8_non_composite, encode_Unsigned_non_composite, size_loop, put_value]
  · simp [Db_encode_Unsigned16_non_composite, encode_Unsigned_non_composite, size_loop, put_value]
  · exact encode_Unsigned64_max

theorem unsigned_non_composite_format_witness :
    guarded_minimal_big_endian 70000 (Db_encode_Unsigned32_non_composite (.uint32 70000)) :=
  (unsigned_non_composite_format 70000).2.2.1 (by norm_num)

/-- C2, as amended. Composite round trip under the 16-bit length bound: for every type
vector `T` of length at least 2 and every value vector `V` of the same length with each
`V[i]` in the domain of `T[i]` and every Ascii component shorter than 65536 bytes,
`DbDataValueVecToString` from an empty output returns true, and `DbDataValueVecFromString`
on that output from an empty result returns true with result exactly `V`. -/
theorem composite_round_trip (T : DbDataTypeVec) (V : DbDataValueVec) (hT : 2 ≤ T.length)
    (hd : inDomainVec T V = true) (hf : V.all ascii_fits = true) :
    ∃ enc, DbDataValueVecToString [] T V = (true, enc) ∧
      DbDataValueVecFromString [] T enc = some (true, V) := by
  obtain ⟨hreg, hlen⟩ := inDomainVec_registered T V hd
  match T, hT with
  | t :: t2 :: ts, _ =>
    refine ⟨concat_composite (t :: t2 :: ts) V, ?_, ?_⟩
    · show encode_composite_loop [] (t :: t2 :: ts) V = _
      rw [encode_composite_loop_eq _ V [] (le_of_eq hlen) hreg, List.nil_append]
    · show (decode_composite_loop _ (t :: t2 :: ts) 0 []).map _ = _
      have := decode_composite_loop_eq (t :: t2 :: ts) V [] [] hd hf
      simp only [List.nil_append, List.length_nil] at this
      rw [this]; rfl

theorem composite_round_trip_witness :
    ∃ enc, DbDataValueVecToString [] [.AsciiType, .Unsigned32Type, .TimeUUIDType]
        [.string [65, 0, 66], .uint32 70000, .uuid (List.replicate 16 7)] = (true, enc) ∧
      DbDataValueVecFromString [] [.AsciiType, .Unsigned32Type, .TimeUUIDType] enc =
        some (true, [.string [65, 0, 66], .uint32 70000, .uuid (List.replicate 16 7)]) :=
  composite_round_trip [.AsciiType, .Unsigned32Type, .TimeUUIDType]
    [.string [65, 0, 66], .uint32 70000, .uuid (List.replicate 16 7)]
    (by decide) (by decide) (by decide)

/-- C2, counterexample. The value vector of an Ascii string of 65536 bytes and an empty
Ascii string lies in the domain of `[AsciiType, AsciiType]` and is encoded with result
true, but decoding the encoding does not return it: the 2-byte length field of the first
component holds `65536 mod 65536 = 0`. -/
theorem long_ascii_breaks_round_trip :
    inDomainVec [.AsciiType, .AsciiType] [.string (List.replicate 65536 65), .string []] = true ∧
    (DbDataValueVecToString [] [.AsciiType, .AsciiType]
      [.string (List.replicate 65536 65), .string []]).1 = true ∧
    DbDataValueVecFromString [] [.AsciiType, .AsciiType]
      (DbDataValueVecToString [] [.AsciiType, .AsciiType]
        [.string (List.replicate 65536 65), .string []]).2 ≠
      some (true, [.string (List.replicate 65536 65), .string []]) :=
  round_trip_wrap (List.replicate 65536 65) (List.length_replicate _ _)
    (isBytes_replicate 65536 65 (by norm_num))

/-- C3, as amended. Exact consumption under the 16-bit length bound: for every registered
tag and every value of its domain, an Ascii value being shorter than 65536 bytes, the
composite decoder applied to a buffer that starts with the bytes of the composite encoder
sets `used` to exactly the length of those bytes; and when `DbDataValueVecFromString`
decodes the encoding of a matching `V` under a type vector of length at least 2, its cursor
`used` equals the input length after the last component. -/
theorem composite_exact_consumption (t : DbDataType) (v : DbDataValue) (rest : Bytes)
    (T : DbDataTypeVec) (V : DbDataValueVec)
    (hd : inDomain t v = true) (hf : ascii_fits v = true)
    (hT : 2 ≤ T.length) (hTV : inDomainVec T V = true) (hVf : V.all ascii_fits = true) :
    (∃ info, CdbIfTypeMap t = some info ∧
      (info.decode_composite_fn_ (info.encode_composite_fn_ v ++ rest)).map Prod.snd =
        some (info.encode_composite_fn_ v).length) ∧
    decode_composite_loop (DbDataValueVecToString [] T V).2 T 0 [] =
      some (true, V, (DbDataValueVecToString [] T V).2.length) := by
  obtain ⟨info, ht⟩ := inDomain_registered t v hd
  refine ⟨⟨info, ht, by rw [composite_decode_encode t v info rest ht hd hf]; rfl⟩, ?_⟩
  obtain ⟨hreg, hlen⟩ := inDomainVec_registered T V hTV
  match T, hT with
  | t1 :: t2 :: ts, _ =>
    have henc : DbDataValueVecToString [] (t1 :: t2 :: ts) V =
        (true, concat_composite (t1 :: t2 :: ts) V) := by
      show encode_composite_loop [] (t1 :: t2 :: ts) V = _
      rw [encode_composite_loop_eq _ V [] (le_of_eq hlen) hreg, List.nil_append]
    have := decode_composite_loop_eq (t1 :: t2 :: ts) V [] [] hTV hVf
    simp only [List.nil_append, List.length_nil] at this
    rw [henc]; exact this

theorem composite_exact_consumption_witness :
    (∃ info, CdbIfTypeMap .Unsigned16Type = some info ∧
      (info.decode_composite_fn_
          (info.encode_composite_fn_ (.uint16 4660) ++ [1, 2, 3])).map Prod.snd =
        some (info.encode_composite_fn_ (.uint16 4660)).length) ∧
    decode_composite_loop
        (DbDataValueVecToString [] [.LexicalUUIDType, .Unsigned8Type]
          [.uuid (List.replicate 16 0), .uint8 255]).2
        [.LexicalUUIDType, .Unsigned8Type] 0 [] =
      some (true, [.uuid (List.replicate 16 0), .uint8 255],
        (DbDataValueVecToString [] [.LexicalUUIDType, .Unsigned8Type]
          [.uuid (List.replicate 16 0), .uint8 255]).2.length) :=
  composite_exact_consumption .Unsigned16Type (.uint16 4660) [1, 2, 3]
    [.LexicalUUIDType, .Unsigned8Type] [.uuid (List.replicate 16 0), .uint8 255]
    (by decide) (by decide) (by decide) (by decide) (by decide)

/-- C3, counterexample. For an Ascii string of 65536 bytes, a value of the domain of
`AsciiType`, the registered composite encoder produces 65539 bytes while the registered
composite decoder, applied to the buffer of those bytes, sets `used` to 3. -/
theorem long_ascii_breaks_consumption :
    inDomain .AsciiType (.string (List.replicate 65536 66)) = true ∧
    (CdbIfTypeMap .AsciiType).map (fun info =>
      ((info.decode_composite_fn_
          (c_str (info.encode_composite_fn_ (.string (List.replicate 65536 66))))).map Prod.snd,
        (info.encode_composite_fn_ (.string (List.replicate 65536 66))).length)) =
      some (some 3, 65539) :=
  ⟨isBytes_replicate 65536 66 (by norm_num),
   consumption_wrap (List.replicate 65536 66) (List.length_replicate _ _)⟩

/-- C5, as amended. Composite wire format under the 16-bit length bound: for every type
vector `T` of length at least 2 and every matching value vector `V` in which every Ascii
component is shorter than 65536 bytes, `DbDataValueVecToString` from an empty output returns
true and its output is the concatenation, in type-vector order, of one block per component,
each block being the 2-byte big-endian length of the component bytes, the component bytes,
and the terminator `0x00`; the component bytes of an Ascii value are the string's raw bytes,
and those of a UUID are its 16 raw bytes, with length field `0x0010` and 19 bytes in total. -/
theorem composite_wire_format_of_encode (T : DbDataTypeVec) (V : DbDataValueVec)
    (hT : 2 ≤ T.length) (hd : inDomainVec T V = true) (hf : V.all ascii_fits = true) :
    (DbDataValueVecToString [] T V).1 = true ∧
    composite_wire_format T V (DbDataValueVecToString [] T V).2 ∧
    (∀ u : Bytes, u.length = 16 →
      Db_encode_UUID_composite (.uuid u) = 0x00 :: 0x10 :: (u ++ [0]) ∧
      (Db_encode_UUID_composite (.uuid u)).length = 19) := by
  obtain ⟨hreg, hlen⟩ := inDomainVec_registered T V hd
  have huuid : ∀ u : Bytes, u.length = 16 →
      Db_encode_UUID_composite (.uuid u) = 0x00 :: 0x10 :: (u ++ [0]) ∧
      (Db_encode_UUID_composite (.uuid u)).length = 19 := by
    intro u hu
    have h : Db_encode_UUID_composite (.uuid u) = 0x00 :: 0x10 :: (u ++ [0]) := by
      show put_value 2 0x0010 ++ u ++ [0] = _
      rw [put_value_two _ (by norm_num)]; simp
    exact ⟨h, by rw [h]; simp [hu]⟩
  match T, hT with
  | t1 :: t2 :: ts, _ =>
    have henc : DbDataValueVecToString [] (t1 :: t2 :: ts) V =
        (true, concat_composite (t1 :: t2 :: ts) V) := by
      show encode_composite_loop [] (t1 :: t2 :: ts) V = _
      rw [encode_composite_loop_eq _ V [] (le_of_eq hlen) hreg, List.nil_append]
    rw [henc]
    exact ⟨rfl, concat_composite_wire_format _ V hd hf, huuid⟩

theorem composite_wire_format_of_encode_witness :
    (DbDataValueVecToString [] [.AsciiType, .TimeUUIDType]
      [.string [104, 105], .uuid (List.replicate 16 9)]).1 = true ∧
    composite_wire_format [.AsciiType, .TimeUUIDType]
      [.string [104, 105], .uuid (List.replicate 16 9)]
      (DbDataValueVecToString [] [.AsciiType, .TimeUUIDType]
        [.string [104, 105], .uuid (List.replicate 16 9)]).2 :=
  ⟨(composite_wire_format_of_encode [.AsciiType, .TimeUUIDType]
      [.string [104, 105], .uuid (List.replicate 16 9)] (by decide) (by decide) (by decide)).1,
   (composite_wire_format_of_encode [.AsciiType, .TimeUUIDType]
      [.string [104, 105], .uuid (List.replicate 16 9)] (by decide) (by decide) (by decide)).2.1⟩

/-- C5, counterexample. For the matching value vector of an Ascii string of 65536 bytes
and an empty Ascii string, the encoder returns true but its output is not in the stated
format: no 2-byte field holds the length 65536 of the first component's raw bytes. -/
theorem long_ascii_breaks_wire_format :
    inDomainVec [.AsciiType, .AsciiType] [.string (List.replicate 65536 67), .string []] = true ∧
    (DbDataValueVecToString [] [.AsciiType, .AsciiType]
      [.string (List.replicate 65536 67), .string []]).1 = true ∧
    ¬ composite_wire_format [.AsciiType, .AsciiType]
      [.string (List.replicate 65536 67), .string []]
      (DbDataValueVecToString [] [.AsciiType, .AsciiType]
        [.string (List.replicate 65536 67), .string []]).2 :=
  ⟨(round_trip_wrap (List.replicate 65536 67) (List.length_replicate _ _)
      (isBytes_replicate 65536 67 (by norm_num))).1,
   (round_trip_wrap (List.replicate 65536 67) (List.length_replicate _ _)
      (isBytes_replicate 65536 67 (by norm_num))).2.1,
   wire_format_wrap (List.replicate 65536 67) (List.length_replicate _ _) _ _ _⟩

/-- C6, as amended. Composite unsigned-integer component: for every unsigned value `v` of
at most 64 bits, `Db_encode_Unsigned_int_composite` produces the 2-byte big-endian length
`n + 1`, then the guard byte `0x00` and the `n` minimal big-endian magnitude bytes of `v`
(`n ≥ 1` least with `v < 256 ^ n`), then the terminator `0x00`, `n + 4` bytes in total; the
encoders of the four widths apply it to their value. -/
theorem composite_unsigned_format (v : Nat) (hv : v < 2 ^ 64) :
    guarded_composite_unsigned v (Db_encode_Unsigned_int_composite v) ∧
    (v < 2 ^ 8 → Db_encode_Unsigned8_composite (.uint8 v) = Db_encode_Unsigned_int_composite v) ∧
    (v < 2 ^ 16 →
      Db_encode_Unsigned16_composite (.uint16 v) = Db_encode_Unsigned_int_composite v) ∧
    (v < 2 ^ 32 →
      Db_encode_Unsigned32_composite (.uint32 v) = Db_encode_Unsigned_int_composite v) ∧
    Db_encode_Unsigned64_composite (.uint64 v) = Db_encode_Unsigned_int_composite v := by
  refine ⟨?_, fun h => ?_, fun h => ?_, fun h => ?_, ?_⟩
  · obtain ⟨n, hmin, h8, henc⟩ := encode_Unsigned_int_composite_eq v hv
    refine ⟨n, put_value n v, hmin, put_value_length n v, put_value_lt n v, ?_, ?_, ?_⟩
    · unfold be_value
      rw [be_value_put_value v hv n 0, Nat.mod_eq_of_lt hmin.2.1]; simp
    · have := is_composite_block_intro (0 :: put_value n v)
        (by simp [put_value_length]; omega)
      simpa [henc, put_value_length] using this
    · rw [henc]; simp [put_value_length]; omega
  · show Db_encode_Unsigned_int_composite (v % 2 ^ 8) = _
    rw [Nat.mod_eq_of_lt h]
  · show Db_encode_Unsigned_int_composite (v % 2 ^ 16) = _
    rw [Nat.mod_eq_of_lt h]
  · show Db_encode_Unsigned_int_composite (v % 2 ^ 32) = _
    rw [Nat.mod_eq_of_lt h]
  · show Db_encode_Unsigned_int_composite (v % 2 ^ 64) = _
    rw [Nat.mod_eq_of_lt hv]

theorem composite_unsigned_format_witness :
    guarded_composite_unsigned 256 (Db_encode_Unsigned_int_composite 256) :=
  (composite_unsigned_format 256 (by norm_num)).1

/-- C6, counterexample. The value 0 is encoded as the five bytes `00 02 00 00 00`: the
length field holds 2 and a guard byte precedes the single magnitude byte, so the output is
not the unguarded four-byte component of length 1. -/
theorem zero_carries_guard_byte :
    Db_encode_Unsigned8_composite (.uint8 0) = [0, 2, 0, 0, 0] ∧
    Db_encode_Unsigned_int_composite 0 = [0, 2, 0, 0, 0] ∧
    ¬ unguarded_composite_unsigned 0 (Db_encode_Unsigned_int_composite 0) := by
  have h0 : Db_encode_Unsigned_int_composite 0 = [0, 2, 0, 0, 0] := by
    simp [Db_encode_Unsigned_int_composite, size_loop, put_value]
  refine ⟨h0, h0, ?_⟩
  rintro ⟨n, bs, ⟨_, _, h3⟩, _, _, _, _, hl⟩
  have hn := h3 1 (le_refl 1) (by norm_num)
  rw [h0] at hl
  simp only [List.length_cons, List.length_nil] at hl
  omega

/-- C7. Backend type descriptor: `DbDataTypeVecToCompositeType` returns true if and only if
the type vector is non-empty and every tag of it is registered in `CdbIfTypeMap`; when it
returns true the result is the tag's backend name for a single tag, and otherwise
`CompositeType(` followed by the members' backend names in order separated by `", "` and
closed by `)`, the backend names being `AsciiType`, `LexicalUUIDType`, `TimeUUIDType` and,
for each of the four unsigned tags, `IntegerType`. -/
theorem composite_type_descriptor (res : String) (T : DbDataTypeVec) :
    ((DbDataTypeVecToCompositeType res T).1 = true ↔
      T ≠ [] ∧ ∀ t ∈ T, isRegistered t = true) ∧
    ((DbDataTypeVecToCompositeType res T).1 = true →
      (DbDataTypeVecToCompositeType res T).2 = composite_descriptor T) := by
  match T with
  | [] => simp [DbDataTypeVecToCompositeType]
  | [t] =>
    cases hinfo : CdbIfTypeMap t with
    | none => simp [DbDataTypeVecToCompositeType, hinfo, isRegistered]
    | some info =>
      obtain ⟨info2, hinfo2, hname⟩ := registered_name t (by simp [isRegistered, hinfo])
      rw [hinfo] at hinfo2
      cases hinfo2
      simp [DbDataTypeVecToCompositeType, hinfo, isRegistered, composite_descriptor, hname]
  | t :: t2 :: ts =>
    cases hinfo : CdbIfTypeMap t with
    | none => simp [DbDataTypeVecToCompositeType, hinfo, isRegistered]
    | some info =>
      obtain ⟨info2, hinfo2, hname⟩ := registered_name t (by simp [isRegistered, hinfo])
      rw [hinfo] at hinfo2
      cases hinfo2
      have hiff := composite_type_loop_true (t2 :: ts) ("CompositeType(" ++ info.cassandra_type_)
      constructor
      · simp only [DbDataTypeVecToCompositeType, hinfo, hiff]
        constructor
        · intro h
          refine ⟨by simp, fun x hx => ?_⟩
          rcases List.mem_cons.mp hx with rfl | hx
          · simp [isRegistered, hinfo]
          · exact h x hx
        · intro h x hx
          exact h.2 x (List.mem_cons_of_mem _ hx)
      · intro h
        simp only [DbDataTypeVecToCompositeType, hinfo] at h ⊢
        rw [composite_type_loop_eq (t2 :: ts) "CompositeType(" info.cassandra_type_ (hiff.mp h)]
        simp [composite_descriptor, hname]

theorem composite_type_descriptor_witness :
    (DbDataTypeVecToCompositeType "" [.AsciiType, .Unsigned32Type, .TimeUUIDType]).2 =
      "CompositeType(AsciiType, IntegerType, TimeUUIDType)" :=
  (composite_type_descriptor "" [.AsciiType, .Unsigned32Type, .TimeUUIDType]).2 (by decide)

/-- C8. Encode rejects over-long or shapeless input: `DbDataValueVecToString` returns false
when the type vector is empty, when it has one tag and at least two values are given, and
when it has at least two tags and more values than tags are given; with one registered tag
and one value it returns true and the output is the non-composite encoding of the value. -/
theorem encode_rejects_overlong (res : Bytes) (T : DbDataTypeVec) (V : DbDataValueVec)
    (t : DbDataType) (v : DbDataValue) (info : CdbIfTypeInfo) :
    (DbDataValueVecToString res [] V).1 = false ∧
    (T.length = 1 → 2 ≤ V.length → (DbDataValueVecToString res T V).1 = false) ∧
    (2 ≤ T.length → T.length < V.length → (DbDataValueVecToString res T V).1 = false) ∧
    (CdbIfTypeMap t = some info →
      DbDataValueVecToString res [t] [v] = (true, info.encode_non_composite_fn_ v)) := by
  refine ⟨rfl, fun hT hV => ?_, fun hT hV => ?_, fun ht => ?_⟩
  · match T, hT, V, hV with
    | [t1], _, _ :: _ :: _, _ => rfl
  · match T, hT with
    | t1 :: t2 :: ts, _ =>
      show (encode_composite_loop res (t1 :: t2 :: ts) V).1 = false
      exact encode_composite_loop_overlong _ V res hV
  · simp [DbDataValueVecToString, ht]

theorem encode_rejects_overlong_witness :
    (DbDataValueVecToString [] [.AsciiType, .Unsigned8Type]
      [.string [97], .uint8 1, .uint8 2]).1 = false :=
  (encode_rejects_overlong [] [.AsciiType, .Unsigned8Type] [.string [97], .uint8 1, .uint8 2]
    .AsciiType (.string []) ⟨"", Db_encode_string_composite, Db_decode_string_composite,
      Db_encode_string_non_composite, Db_decode_string_non_composite⟩).2.2.1
    (by decide) (by decide)

/-- C9. Partial-bound encoding: for every type vector `T` of at least two registered tags
and every value vector `V` shorter than `T`, the empty one included, `DbDataValueVecToString`
from an empty output returns true and the output is the concatenation of the composite
encodings of `V[0], ..., V[len(V)-1]` under `T[0], ..., T[len(V)-1]`; for the empty `V`, also
under a single tag, the output is the empty string. -/
theorem short_vector_encoding (T : DbDataTypeVec) (V : DbDataValueVec) (t : DbDataType)
    (hT : 2 ≤ T.length) (hreg : ∀ x ∈ T, isRegistered x = true) (hV : V.length < T.length) :
    DbDataValueVecToString [] T V = (true, concat_composite T V) ∧
    DbDataValueVecToString [] T [] = (true, []) ∧
    DbDataValueVecToString [] [t] [] = (true, []) := by
  match T, hT with
  | t1 :: t2 :: ts, _ =>
    refine ⟨?_, rfl, rfl⟩
    show encode_composite_loop [] (t1 :: t2 :: ts) V = _
    rw [encode_composite_loop_eq _ V [] (le_of_lt hV) hreg, List.nil_append]

theorem short_vector_encoding_witness :
    DbDataValueVecToString [] [.AsciiType, .Unsigned32Type, .TimeUUIDType]
        [.string [97, 98], .uint32 7] =
      (true, concat_composite [.AsciiType, .Unsigned32Type, .TimeUUIDType]
        [.string [97, 98], .uint32 7]) :=
  (short_vector_encoding [.AsciiType, .Unsigned32Type, .TimeUUIDType]
    [.string [97, 98], .uint32 7] .AsciiType (by decide) (by decide) (by decide)).1

/-- C10. Key/column builders: for every registry state, `ConstructDbDataValueKey`,
`ConstructDbDataValueColumnName` and `ConstructDbDataValueColumnValue` return false when the
column family name has no registry entry or has an entry without a locally declared
definition, and otherwise return exactly what `DbDataValueVecToString` returns on the
definition's `key_validation_class`, `comparator_type` and `default_validation_class`;
`DbDataValueToStringFromCf` returns false when the family is unknown or undeclared or when
the column name is absent from the definition's column map. -/
theorem builders_follow_registry (CdbIfCfList : CdbIfCfListType) (res : Bytes)
    (cfname : String) (rowkey name value : DbDataValueVec) (col_name : Bytes)
    (col_value : DbDataValue) :
    ((Db_GetColumnfamily CdbIfCfList cfname = none ∨
        ∃ info, Db_GetColumnfamily CdbIfCfList cfname = some info ∧ info.cf_ = none) →
      (ConstructDbDataValueKey CdbIfCfList res cfname rowkey).1 = false ∧
      (ConstructDbDataValueColumnName CdbIfCfList res cfname name).1 = false ∧
      (ConstructDbDataValueColumnValue CdbIfCfList res cfname value).1 = false ∧
      DbDataValueToStringFromCf CdbIfCfList res cfname col_name col_value =
        some (false, res)) ∧
    (∀ info cf, Db_GetColumnfamily CdbIfCfList cfname = some info → info.cf_ = some cf →
      ConstructDbDataValueKey CdbIfCfList res cfname rowkey =
        DbDataValueVecToString res cf.key_validation_class rowkey ∧
      ConstructDbDataValueColumnName CdbIfCfList res cfname name =
        DbDataValueVecToString res cf.comparator_type name ∧
      ConstructDbDataValueColumnValue CdbIfCfList res cfname value =
        DbDataValueVecToString res cf.default_validation_class value ∧
      (cf.cfcolumns_.lookup col_name = none →
        DbDataValueToStringFromCf CdbIfCfList res cfname col_name col_value =
          some (false, res))) := by
  constructor
  · intro h
    have hnone : declared_cf CdbIfCfList cfname = none := by
      rcases h with h | ⟨info, h, hcf⟩
      · simp [declared_cf, h]
      · simp [declared_cf, h, hcf]
    simp [ConstructDbDataValueKey, ConstructDbDataValueColumnName,
      ConstructDbDataValueColumnValue, DbDataValueToStringFromCf, hnone]
  · intro info cf h hcf
    have hsome : declared_cf CdbIfCfList cfname = some cf := by
      simp [declared_cf, h, hcf]
    refine ⟨by simp [ConstructDbDataValueKey, hsome],
      by simp [ConstructDbDataValueColumnName, hsome],
      by simp [ConstructDbDataValueColumnValue, hsome], fun hcol => ?_⟩
    simp [DbDataValueToStringFromCf, hsome, hcol]

theorem builders_follow_registry_witness :
    (ConstructDbDataValueKey
        [("MessageTable", ⟨some ⟨"ks", "MessageTable", "LexicalUUIDType", "", "", []⟩, none⟩)]
        [] "MessageTable" [.uuid (List.replicate 16 1)]).1 = false :=
  (builders_follow_registry
    [("MessageTable", ⟨some ⟨"ks", "MessageTable", "LexicalUUIDType", "", "", []⟩, none⟩)]
    [] "MessageTable" [.uuid (List.replicate 16 1)] [] [] [] (.string [])).1
    (Or.inr ⟨_, rfl, rfl⟩) |>.1

/-- C11. Idempotent declare: starting from a registry with no entry for the name of the
definition, for every valid Flat or Dynamic definition and a backend whose
create-column-family call succeeds, two consecutive `NewDb_AddColumnfamily` calls both
return true and exactly one `system_add_column_family` call is issued in total. -/
theorem idempotent_declare (client : CassandraClient) (s : CdbIfState) (cf : NewCf)
    (hno : Db_GetColumnfamily s.CdbIfCfList cf.cfname_ = none)
    (hvalid : valid_definition cf = true)
    (hok : ∀ events cf_def, client.system_add_column_family events cf_def = .ok) :
    (NewDb_AddColumnfamily client s cf).1 = true ∧
    (NewDb_AddColumnfamily client (NewDb_AddColumnfamily client s cf).2 cf).1 = true ∧
    create_calls (NewDb_AddColumnfamily client (NewDb_AddColumnfamily client s cf).2 cf).2.events =
      create_calls s.events + 1 := by
  have hfind := Db_FindColumnfamily_of_none s cf.cfname_ hno
  rcases NewDb_AddColumnfamily_cases client s cf with ⟨hf, _⟩ | ⟨_, _, cf_def, heq⟩ | ⟨_, hv, _⟩
  · rw [hfind] at hf; simp at hf
  · rw [heq, add_or_attach_new client s cf cf_def hno (hok _ _)]
    have hfind2 : Db_FindColumnfamily
        { s with events := s.events ++ [Event.system_add_column_family cf_def],
                 CdbIfCfList := ptr_map_insert s.CdbIfCfList cf.cfname_ ⟨some cf_def, some cf⟩ }
        cf.cfname_ = (true, _) :=
      Db_FindColumnfamily_of_lookup _ _ _ cf (lookup_ptr_map_insert _ _ _ hno) rfl
    rw [NewDb_AddColumnfamily_found client _ cf hfind2]
    exact ⟨rfl, rfl, create_calls_append_one _ _⟩
  · rw [hvalid] at hv; simp at hv

theorem idempotent_declare_witness :
    (NewDb_AddColumnfamily (accepting_client []) (construct false 0)
      (events_family [.LexicalUUIDType])).1 = true ∧
    (NewDb_AddColumnfamily (accepting_client [])
      (NewDb_AddColumnfamily (accepting_client []) (construct false 0)
        (events_family [.LexicalUUIDType])).2 (events_family [.LexicalUUIDType])).1 = true ∧
    create_calls (NewDb_AddColumnfamily (accepting_client [])
      (NewDb_AddColumnfamily (accepting_client []) (construct false 0)
        (events_family [.LexicalUUIDType])).2 (events_family [.LexicalUUIDType])).2.events =
      create_calls (construct false 0).events + 1 :=
  idempotent_declare (accepting_client []) (construct false 0) (events_family [.LexicalUUIDType])
    rfl (by decide) (fun _ _ => rfl)

/-- C12, as amended. Declare against an existing entry: for every definition whose name
already has an entry in the schema registry, `NewDb_AddColumnfamily` issues no remote call
(the events are unchanged); it returns true exactly when the entry already carries a locally
declared definition or the definition is valid. -/
theorem declare_existing_entry (client : CassandraClient) (s : CdbIfState) (cf : NewCf)
    (info : CdbIfCfInfo) (h : Db_GetColumnfamily s.CdbIfCfList cf.cfname_ = some info) :
    (NewDb_AddColumnfamily client s cf).2.events = s.events ∧
    ((NewDb_AddColumnfamily client s cf).1 = true ↔
      (info.cf_.isSome = true ∨ valid_definition cf = true)) := by
  have hlook : s.CdbIfCfList.lookup cf.cfname_ = some info := h
  rcases NewDb_AddColumnfamily_cases client s cf with ⟨hf, heq⟩ | ⟨hf, hv, cf_def, heq⟩ | ⟨hf, hv, heq⟩
  · rw [heq]
    refine ⟨rfl, ?_⟩
    simp only [Db_FindColumnfamily, hlook] at hf
    cases hcf : info.cf_.isSome with
    | true => simp
    | false => simp [hcf] at hf
  · rw [heq, add_or_attach_existing client s cf cf_def info h]
    exact ⟨rfl, by simp [hv]⟩
  · rw [heq]
    refine ⟨rfl, ?_⟩
    simp only [Db_FindColumnfamily, hlook] at hf
    cases hcf : info.cf_.isSome with
    | true => simp [hcf] at hf
    | false => simp [hv]

theorem declare_existing_entry_witness :
    (NewDb_AddColumnfamily (accepting_client [])
      { construct false 0 with
        CdbIfCfList := [("events", ⟨some ⟨"analytics", "events", "", "", "", []⟩, none⟩)] }
      (events_family [.AsciiType])).2.events = [] :=
  (declare_existing_entry (accepting_client [])
    { construct false 0 with
      CdbIfCfList := [("events", ⟨some ⟨"analytics", "events", "", "", "", []⟩, none⟩)] }
    (events_family [.AsciiType]) _ rfl).1

/-- C12, counterexample. The name `events` has a backend-confirmed entry without a locally
declared definition, and the definition has an empty key type vector:
`NewDb_AddColumnfamily` returns false. -/
theorem invalid_definition_on_existing_entry :
    Db_GetColumnfamily [("events", ⟨some ⟨"analytics", "events", "", "", "", []⟩, none⟩)]
      (events_family []).cfname_ =
      some ⟨some ⟨"analytics", "events", "", "", "", []⟩, none⟩ ∧
    (NewDb_AddColumnfamily (accepting_client [])
      { construct false 0 with
        CdbIfCfList := [("events", ⟨some ⟨"analytics", "events", "", "", "", []⟩, none⟩)] }
      (events_family [])).1 = false := by
  constructor <;> rfl

/-- C13. Declare makes a family usable: whenever `NewDb_AddColumnfamily` returns true,
`Db_FindColumnfamily` and `Db_Columnfamily_present` are both true for the name afterwards;
neither of the two lookups modifies the object; and on the registry left empty by a schema
sync that found zero column families, declaring the Flat family `events` with the columns
`id : Ascii` and `ts : U64` (over any valid key type vector) against a backend whose create
call succeeds returns true and makes `Db_FindColumnfamily` true for `events`. -/
theorem declare_makes_usable (client : CassandraClient) (s : CdbIfState) (cf : NewCf)
    (cfname : String) (key : DbDataTypeVec) (enable_stats : Bool) (ttl : Nat) :
    ((NewDb_AddColumnfamily client s cf).1 = true →
      (Db_FindColumnfamily (NewDb_AddColumnfamily client s cf).2 cf.cfname_).1 = true ∧
      (Db_Columnfamily_present (NewDb_AddColumnfamily client s cf).2 cf.cfname_).1 = true) ∧
    (Db_FindColumnfamily s cfname).2 = s ∧
    (Db_Columnfamily_present s cfname).2 = s ∧
    (client.describe_keyspace "analytics" = .ok [] → client.set_keyspace "analytics" = true →
      (∀ events cf_def, client.system_add_column_family events cf_def = .ok) →
      valid_types key = true →
      (Db_SetTablespace client (construct enable_stats ttl) "analytics").1 = true ∧
      (Db_SetTablespace client (construct enable_stats ttl) "analytics").2.CdbIfCfList = [] ∧
      (NewDb_AddColumnfamily client
        (Db_SetTablespace client (construct enable_stats ttl) "analytics").2
        (events_family key)).1 = true ∧
      (Db_FindColumnfamily (NewDb_AddColumnfamily client
        (Db_SetTablespace client (construct enable_stats ttl) "analytics").2
        (events_family key)).2 "events").1 = true) := by
  have husable : ∀ (s : CdbIfState) (cf : NewCf), (NewDb_AddColumnfamily client s cf).1 = true →
      (Db_FindColumnfamily (NewDb_AddColumnfamily client s cf).2 cf.cfname_).1 = true ∧
      (Db_Columnfamily_present (NewDb_AddColumnfamily client s cf).2 cf.cfname_).1 = true := by
    intro s cf h
    obtain ⟨info, cf1, hl, hcf⟩ := NewDb_AddColumnfamily_usable client s cf h
    exact ⟨by rw [Db_FindColumnfamily_of_lookup _ _ info cf1 hl hcf],
      by simp [Db_Columnfamily_present, hl]⟩
  refine ⟨husable s cf, ?_, ?_, ?_⟩
  · cases hfind : (Db_FindColumnfamily s cfname).1 with
    | true => rw [Db_FindColumnfamily_true s cfname hfind]
    | false => rw [Db_FindColumnfamily_false s cfname hfind]
  · unfold Db_Columnfamily_present
    cases s.CdbIfCfList.lookup cfname <;> rfl
  · intro hdesc hset hok hkey
    have hsync : Db_SetTablespace client (construct enable_stats ttl) "analytics" =
        (true, { construct enable_stats ttl with tablespace_ := "analytics" }) := by
      simp [Db_SetTablespace, Db_FindTablespace, hdesc, hset, construct]
    have hvalid : valid_definition (events_family key) = true := by
      simp [valid_definition, events_family, hkey, isRegistered, CdbIfTypeMap]
    have hdecl := (idempotent_declare_aux client
      { construct enable_stats ttl with tablespace_ := "analytics" } (events_family key)
      rfl hvalid hok)
    rw [hsync]
    exact ⟨rfl, rfl, hdecl, (husable _ _ hdecl).1⟩

theorem declare_makes_usable_witness :
    (Db_FindColumnfamily (NewDb_AddColumnfamily (accepting_client [])
      (Db_SetTablespace (accepting_client []) (construct true 0) "analytics").2
      (events_family [.LexicalUUIDType])).2 "events").1 = true :=
  ((declare_makes_usable (accepting_client []) (construct true 0)
    (events_family [.LexicalUUIDType]) "events" [.LexicalUUIDType] true 0).2.2.2
    rfl rfl (fun _ _ => rfl) (by decide)).2.2.2

/-- C14, as amended. Enqueue is accepted whenever the queue exists: after `Db_Init` the queue
exists, and in every state with a queue, Gated or Draining, `NewDb_AddColumn` returns true
and the submitted item is appended to the write queue; in a state without a queue (before
`Db_Init` has created it, and after `Db_Uninit` with shutdown) it returns false and nothing
is queued. -/
theorem enqueue_accepted_with_queue (client : CassandraClient) (s : CdbIfState)
    (cl : Option ColList) (q : WorkQueue) :
    (s.cdbq_ = some q →
      (NewDb_AddColumn s cl).1 = true ∧
      ∃ q1, (NewDb_AddColumn s cl).2.cdbq_ = some q1 ∧ q1.queue_ = q.queue_ ++ [⟨cl⟩]) ∧
    (s.cdbq_ = none → NewDb_AddColumn s cl = (false, s)) ∧
    (Db_Init client s).2.cdbq_.isSome = true ∧
    (s.cdbq_ = some q → (Db_Uninit s true).map (fun s1 => s1.cdbq_) = some none) := by
  refine ⟨fun hq => ?_, fun hq => ?_, ?_, fun hq => ?_⟩
  · cases hg : s.db_init_done_ <;>
      simp [NewDb_AddColumn, hq, WorkQueue.Enqueue, WorkQueue.MayBeStartRunner, Db_IsInitDone, hg]
  · simp [NewDb_AddColumn, hq]
  · cases hq : s.cdbq_ <;> simp [Db_Init, hq]
  · simp [Db_Uninit, hq]

theorem enqueue_accepted_with_queue_witness :
    (NewDb_AddColumn (Db_Init (accepting_client []) (construct false 0)).2
      (some ⟨"events", [.string [107]], []⟩)).1 = true :=
  ((enqueue_accepted_with_queue (accepting_client [])
    (Db_Init (accepting_client []) (construct false 0)).2
    (some ⟨"events", [.string [107]], []⟩) ⟨[], false⟩).1 rfl).1

/-- C14, counterexample. Before `Db_Init` has created the queue, and again after `Db_Init`
followed by `Db_Uninit` with shutdown, `NewDb_AddColumn` returns false and leaves the object
without a queue: the submitted item is dropped. -/
theorem enqueue_rejected_without_queue :
    NewDb_AddColumn (construct false 0) (some ⟨"events", [.string [107]], []⟩) =
      (false, construct false 0) ∧
    (Db_Uninit (Db_Init (accepting_client []) (construct false 0)).2 true).map
      (fun s => NewDb_AddColumn s (some ⟨"events", [.string [107]], []⟩)) =
      some (false, construct false 0) := by
  constructor <;> rfl

/-- C15, the code at the failing input. After `Db_Init` on a fresh object, five items are
enqueued while the object is not ready, and `Db_SetInitDone(true)` is called: the flag is
then true, but the runner of the queue has not been started, the five items are still
buffered in their order, and the only event is the invocation of `MayBeStartRunner`; a run
of the runner task hands nothing to `Db_AsyncAddColumn`. -/
theorem ready_signal_does_not_drain (client : CassandraClient) (clock : List Event → Nat)
    (c1 c2 c3 c4 c5 : Option ColList) :
    ∃ s, Db_SetInitDone
        (enqueue_all (Db_Init client (construct false 0)).2 [c1, c2, c3, c4, c5]) true = some s ∧
      s.db_init_done_ = true ∧
      s.cdbq_ = some ⟨[⟨c1⟩, ⟨c2⟩, ⟨c3⟩, ⟨c4⟩, ⟨c5⟩], false⟩ ∧
      s.events = [Event.MayBeStartRunner] ∧
      run_queue client clock s = (true, s) := by
  have hinit : (Db_Init client (construct false 0)).2 =
      { construct false 0 with cdbq_ := some ⟨[], false⟩ } := rfl
  have henq := enqueue_all_gated [c1, c2, c3, c4, c5]
    (Db_Init client (construct false 0)).2 ⟨[], false⟩ rfl rfl
  rw [henq]
  refine ⟨_, Db_SetInitDone_gated _ _ rfl rfl, rfl, rfl, rfl, rfl⟩

/-- C16, as amended. Ready signal is a two-state, idempotent switch: the object starts Gated;
in every state in which the queue exists, or the signal is false, or the object is already
ready, `Db_SetInitDone(b)` returns and `Db_IsInitDone()` is `b` afterwards;
`Db_SetInitDone(true)` on a ready object changes nothing; and `MayBeStartRunner` is invoked
exactly once on a transition from Gated to ready and not at all otherwise. -/
theorem ready_switch (s : CdbIfState) (b : Bool) (enable_stats : Bool) (ttl : Nat)
    (hq : s.cdbq_.isSome = true ∨ b = false ∨ s.db_init_done_ = true) :
    (Db_IsInitDone (construct enable_stats ttl)).1 = false ∧
    ∃ s1, Db_SetInitDone s b = some s1 ∧
      (Db_IsInitDone s1).1 = b ∧
      (s.db_init_done_ = true → b = true → s1 = s) ∧
      runner_triggers s1.events =
        runner_triggers s.events + (if s.db_init_done_ = false ∧ b = true then 1 else 0) := by
  refine ⟨rfl, ?_⟩
  cases hg : s.db_init_done_ <;> cases b
  · exact ⟨s, by simp [Db_SetInitDone, hg], by simp [Db_IsInitDone, hg], by simp, by simp⟩
  · cases hc : s.cdbq_ with
    | none => simp [hc, hg] at hq
    | some q =>
      rw [Db_SetInitDone_gated s q hc hg]
      exact ⟨_, rfl, rfl, by simp, by simp [runner_triggers_append_one]⟩
  · exact ⟨{ s with db_init_done_ := false }, by simp [Db_SetInitDone, hg], rfl, by simp,
      by simp⟩
  · exact ⟨s, by simp [Db_SetInitDone, hg], by simp [Db_IsInitDone, hg], by simp, by simp⟩

theorem ready_switch_witness :
    ∃ s1, Db_SetInitDone (Db_Init (accepting_client []) (construct false 0)).2 true = some s1 ∧
      (Db_IsInitDone s1).1 = true ∧
      runner_triggers s1.events =
        runner_triggers (Db_Init (accepting_client []) (construct false 0)).2.events + 1 :=
  match (ready_switch (Db_Init (accepting_client []) (construct false 0)).2 true false 0
    (Or.inl rfl)).2 with
  | ⟨s1, h1, h2, _, h4⟩ => ⟨s1, h1, h2, h4⟩

/-- C16, counterexample. On the object as constructed, which is Gated and has no queue,
`Db_SetInitDone(true)` dereferences the null `cdbq_`: it has no defined result, so
`Db_IsInitDone()` does not return true afterwards. -/
theorem ready_signal_without_queue :
    (Db_IsInitDone (construct false 0)).1 = false ∧
    Db_SetInitDone (construct false 0) true = none := by
  constructor <;> rfl

/-- C17. Not-ready signal retains buffered writes: `Db_SetInitDone(false)` changes only the
ready flag, leaving the buffered items of the write queue and the schema registry
unchanged; and `Db_Uninit` without shutdown followed by `Db_Init` keeps the existing queue
with every item buffered in it, so that the items are still there at the next ready
signal. -/
theorem not_ready_retains_writes (client : CassandraClient) (s : CdbIfState) (q : WorkQueue) :
    Db_SetInitDone s false = some { s with db_init_done_ := false } ∧
    (s.cdbq_ = some q →
      ∃ s1, Db_Uninit s false = some s1 ∧
        (Db_Init client s1).2.cdbq_ = some q ∧
        (Db_Init client s1).2.CdbIfCfList = s.CdbIfCfList ∧
        (Db_Init client s1).2.db_init_done_ = s.db_init_done_ ∧
        ((Db_Init client s1).2.db_init_done_ = false →
          ∃ s2, Db_SetInitDone (Db_Init client s1).2 true = some s2 ∧
            s2.cdbq_ = some q)) := by
  constructor
  · cases hg : s.db_init_done_
    · cases s
      simp only at hg
      simp [Db_SetInitDone, hg]
    · simp [Db_SetInitDone, hg]
  · intro hq
    refine ⟨s, by simp [Db_Uninit], by simp [Db_Init, hq], by simp [Db_Init, hq],
      by simp [Db_Init, hq], fun hg => ?_⟩
    have hs : (Db_Init client s).2 = s := by simp [Db_Init, hq]
    rw [hs] at hg ⊢
    rw [Db_SetInitDone_gated s q hq hg]
    exact ⟨_, rfl, hq⟩

theorem not_ready_retains_writes_witness :
    ∃ s1, Db_Uninit
        (enqueue_all (Db_Init (accepting_client []) (construct false 0)).2
          [some ⟨"events", [.string [107]], []⟩]) false = some s1 ∧
      (Db_Init (accepting_client []) s1).2.cdbq_ =
        some ⟨[⟨some ⟨"events", [.string [107]], []⟩⟩], false⟩ :=
  match (not_ready_retains_writes (accepting_client [])
    (enqueue_all (Db_Init (accepting_client []) (construct false 0)).2
      [some ⟨"events", [.string [107]], []⟩])
    ⟨[⟨some ⟨"events", [.string [107]], []⟩⟩], false⟩).2 rfl with
  | ⟨s1, h1, h2, _⟩ => ⟨s1, h1, h2⟩

/-- C18, as amended. Drain translation: for every queued item whose column family is
declared, whose row key the encoder accepts under the family's key type vector, and whose
columns are either all Dynamic with names and values that the encoder accepts under the
comparator and default-value types, or all Flat with a single-element string name to which
the column map gives a registered type and a single-element value, `Db_AsyncAddColumn`
returns and issues exactly one `batch_mutate` call at consistency level ONE; its mutation map
has exactly one row key, the encoding of the item's row key under the family's key type
vector, mapped to exactly one column family, the item's family name, whose mutation list has
one mutation per column of the item, in the item's column order, each carrying that column's
encoded name and encoded value. The error handler follows the call exactly when the call
ends with a transport exception. -/
theorem drain_translation (client : CassandraClient) (s : CdbIfState) (ts : Nat)
    (new_colp : ColList) (cf : NewCf)
    (hdecl : declared_cf s.CdbIfCfList new_colp.cfname_ = some cf)
    (hkey : (DbDataValueVecToString [] cf.key_validation_class new_colp.rowkey_).1 = true)
    (hcols : encodable_dynamic cf new_colp.columns_ ∨ encodable_flat cf new_colp.columns_) :
    ∃ ret key mutations,
      DbDataValueVecToString [] cf.key_validation_class new_colp.rowkey_ = (true, key) ∧
      List.Forall₂ (carries_encoding cf ts s.cassandra_ttl_) new_colp.columns_ mutations ∧
      Db_AsyncAddColumn client s ts ⟨some new_colp⟩ =
        (some ret, { s with events := s.events ++
          [Event.batch_mutate [(key, [(new_colp.cfname_, mutations)])] .ONE] ++
          (if client.batch_mutate s.events [(key, [(new_colp.cfname_, mutations)])] .ONE =
              .TTransportException
            then [Event.errhandler] else []) }) := by
  have hloop : mutation_loop s.CdbIfCfList new_colp.cfname_ ts s.cassandra_ttl_
      new_colp.columns_ .COLUMN_FAMILY_INVALID [] =
      .done (new_colp.columns_.map (expected_mutation cf ts s.cassandra_ttl_)) := by
    rcases hcols with h | h
    · simpa using mutation_loop_dynamic s.CdbIfCfList new_colp.cfname_ ts s.cassandra_ttl_ cf
        hdecl new_colp.columns_ .COLUMN_FAMILY_INVALID []
        (all_dynamic_of_encodable cf _ h) (by simp)
    · simpa using mutation_loop_flat s.CdbIfCfList new_colp.cfname_ ts s.cassandra_ttl_ cf
        hdecl new_colp.columns_ .COLUMN_FAMILY_INVALID []
        (all_flat_of_encodable cf _ h) (by simp)
  have hcarry : List.Forall₂ (carries_encoding cf ts s.cassandra_ttl_) new_colp.columns_
      (new_colp.columns_.map (expected_mutation cf ts s.cassandra_ttl_)) := by
    rw [List.forall₂_map_right_iff, List.forall₂_same]
    intro c hc
    rcases hcols with h | h
    · obtain ⟨hty, hname, hvalue⟩ := h c hc
      exact carries_encoding_dynamic cf ts _ c hty hname hvalue
    · obtain ⟨hty, n, v, type, hn, hv, hl, hreg⟩ := h c hc
      exact carries_encoding_flat cf ts _ c n v type hty hn hv hl hreg
  have hshape : ∃ ret, Db_AsyncAddColumn client s ts ⟨some new_colp⟩ =
      (some ret, { s with events := s.events ++
        [Event.batch_mutate
          [((DbDataValueVecToString [] cf.key_validation_class new_colp.rowkey_).2,
            [(new_colp.cfname_,
              new_colp.columns_.map (expected_mutation cf ts s.cassandra_ttl_))])]
          .ONE] ++
        (if client.batch_mutate s.events
            [((DbDataValueVecToString [] cf.key_validation_class new_colp.rowkey_).2,
              [(new_colp.cfname_,
                new_colp.columns_.map (expected_mutation cf ts s.cassandra_ttl_))])]
            .ONE = .TTransportException
          then [Event.errhandler] else []) }) := by
    simp only [Db_AsyncAddColumn, hloop, ConstructDbDataValueKey, hdecl]
    cases hout : client.batch_mutate s.events
        [((DbDataValueVecToString [] cf.key_validation_class new_colp.rowkey_).2,
          [(new_colp.cfname_,
            new_colp.columns_.map (expected_mutation cf ts s.cassandra_ttl_))])]
        .ONE <;> simp
  obtain ⟨ret, hret⟩ := hshape
  exact ⟨ret, _, _, Prod.ext hkey rfl, hcarry, hret⟩

theorem drain_translation_witness :
    ∃ ret key mutations,
      DbDataValueVecToString [] (events_family [.AsciiType]).key_validation_class
        [.string [107]] = (true, key) ∧
      List.Forall₂ (carries_encoding (events_family [.AsciiType]) 1700 0)
        [⟨.COLUMN_FAMILY_SQL, [.string [105, 100]], [.string [120]]⟩] mutations ∧
      Db_AsyncAddColumn (accepting_client [])
          { construct false 0 with
            CdbIfCfList := [("events", ⟨none, some (events_family [.AsciiType])⟩)] }
          1700 ⟨some ⟨"events", [.string [107]], [⟨.COLUMN_FAMILY_SQL, [.string [105, 100]],
            [.string [120]]⟩]⟩⟩ =
        (some ret, { construct false 0 with
          CdbIfCfList := [("events", ⟨none, some (events_family [.AsciiType])⟩)],
          events := [] ++ [Event.batch_mutate [(key, [("events", mutations)])] .ONE] ++
            (if (accepting_client []).batch_mutate [] [(key, [("events", mutations)])] .ONE =
                .TTransportException
              then [Event.errhandler] else []) }) :=
  drain_translation (accepting_client [])
    { construct false 0 with
      CdbIfCfList := [("events", ⟨none, some (events_family [.AsciiType])⟩)] }
    1700 ⟨"events", [.string [107]], [⟨.COLUMN_FAMILY_SQL, [.string [105, 100]],
      [.string [120]]⟩]⟩ (events_family [.AsciiType]) rfl rfl
    (Or.inr (by
      intro c hc
      simp only [List.mem_singleton] at hc
      subst hc
      exact ⟨rfl, [105, 100], .string [120], .AsciiType, rfl, rfl, by decide, rfl⟩))

/-- C18, counterexample. The family `events` is declared with the one key type Ascii, and the
queued item has a row key of two values and one Flat column with a single-element string
name and a single-element value. The encoder rejects the row key under the key type vector,
leaving its output empty, so the row key has no encoding; `Db_AsyncAddColumn` returns true
all the same and issues a `batch_mutate` call keyed by the empty string. -/
theorem drain_with_unencodable_key :
    declared_cf [("events", ⟨none, some (events_family [.AsciiType])⟩)] "events" =
      some (events_family [.AsciiType]) ∧
    DbDataValueVecToString [] (events_family [.AsciiType]).key_validation_class
      [.string [107], .string [108]] = (false, []) ∧
    Db_AsyncAddColumn (accepting_client [])
        { construct false 0 with
          CdbIfCfList := [("events", ⟨none, some (events_family [.AsciiType])⟩)] }
        1700 ⟨some ⟨"events", [.string [107], .string [108]],
          [⟨.COLUMN_FAMILY_SQL, [.string [105, 100]], [.string [120]]⟩]⟩⟩ =
      (some true, { construct false 0 with
        CdbIfCfList := [("events", ⟨none, some (events_family [.AsciiType])⟩)],
        events := [Event.batch_mutate [([], [("events", [⟨[105, 100], [120], 1700, none⟩])])]
          .ONE] }) := by
  refine ⟨rfl, rfl, rfl⟩

/-- A family declared, against the data model, with a column `id` whose type is not
registered: for an item with the Flat column `id`, the assertion of `DbDataValueToString`
aborts `Db_AsyncAddColumn` before any `batch_mutate` call is issued. -/
theorem drain_aborts_on_unregistered_column :
    declared_cf [("events", ⟨none, some ⟨"events", .COLUMN_FAMILY_SQL,
        [([105, 100], .Unregistered 99)], [.AsciiType], [], []⟩⟩)] "events" =
      some ⟨"events", .COLUMN_FAMILY_SQL, [([105, 100], .Unregistered 99)], [.AsciiType], [], []⟩ ∧
    Db_AsyncAddColumn (accepting_client [])
        { construct false 0 with
          CdbIfCfList := [("events", ⟨none, some ⟨"events", .COLUMN_FAMILY_SQL,
            [([105, 100], .Unregistered 99)], [.AsciiType], [], []⟩⟩)] }
        1700 ⟨some ⟨"events", [.string [107]], [⟨.COLUMN_FAMILY_SQL, [.string [105, 100]],
          [.string [120]]⟩]⟩⟩ =
      (none, { construct false 0 with
        CdbIfCfList := [("events", ⟨none, some ⟨"events", .COLUMN_FAMILY_SQL,
          [([105, 100], .Unregistered 99)], [.AsciiType], [], []⟩⟩)] }) := by
  constructor <;> rfl

/-- C19. Write failure policy: for every drained item, `Db_AsyncAddColumn` issues at most
one `batch_mutate` call; the error handler is invoked exactly once, right after the call,
when the call ends with a transport exception, and is not invoked when no call is issued
or the call succeeds or ends with any other exception; in every case the write queue and
the registry are left as they are, so the item is not enqueued again. -/
theorem write_failure_policy (client : CassandraClient) (s : CdbIfState) (ts : Nat)
    (cl : CdbIfColList) :
    (∃ evs, (Db_AsyncAddColumn client s ts cl).2.events = s.events ++ evs ∧
      (evs = [] ∨
        ∃ mutation_map,
          (evs = [Event.batch_mutate mutation_map .ONE] ∧
            client.batch_mutate s.events mutation_map .ONE ≠ .TTransportException) ∨
          (evs = [Event.batch_mutate mutation_map .ONE, Event.errhandler] ∧
            client.batch_mutate s.events mutation_map .ONE = .TTransportException))) ∧
    batch_mutate_calls (Db_AsyncAddColumn client s ts cl).2.events ≤
      batch_mutate_calls s.events + 1 ∧
    (Db_AsyncAddColumn client s ts cl).2.cdbq_ = s.cdbq_ ∧
    (Db_AsyncAddColumn client s ts cl).2.CdbIfCfList = s.CdbIfCfList := by
  obtain ⟨ret, evs, heq, hevs⟩ := Db_AsyncAddColumn_shape client s ts cl
  rw [heq]
  refine ⟨⟨evs, rfl, hevs⟩, ?_, rfl, rfl⟩
  rcases hevs with rfl | ⟨m, ⟨rfl, _⟩ | ⟨rfl, _⟩⟩ <;>
    simp [batch_mutate_calls, List.filter_append]

/-- C20, as amended. Pagination stitching: against the backend with inclusive start that
answers a page request with the first `count` columns of the row, in sorted name order under
a strict order on names, whose names are not below the start bound, for every row of a
declared Dynamic family with a non-empty comparator and a row key that the encoder accepts,
whose columns are Dynamic, have names and values in the domains of the comparator and
default-value types with every Ascii component shorter than 65536 bytes, have non-empty
encoded names and are sorted strictly by encoded name (hence pairwise distinct), and for
every page size `count ≥ 2`, `Db_GetRangeSlices` with an unbounded range and an initially
empty result, run for at least as many iterations as the row has columns plus one, returns
true and a column list equal to the row's columns in their original order. This covers 25
columns with page size 10, and the row whose last column ends a full page, where the
continuation contributes no column. -/
theorem pagination_stitching (client : CassandraClient) (s : CdbIfState)
    (lt : Bytes → Bytes → Bool) (cf : NewCf) (cols : List NewCol) (cfname : String)
    (rowkey : DbDataValueVec) (count : Nat) (cl0 : ColList) (fuel : Nat)
    (hdecl : declared_cf s.CdbIfCfList cfname = some cf)
    (hty : cf.cftype_ = .COLUMN_FAMILY_NOSQL)
    (hcmp : cf.comparator_type ≠ [])
    (hkey : (DbDataValueVecToString [] cf.key_validation_class rowkey).1 = true)
    (hback : client.get_range_slices = inclusive_backend lt (cols.map (encode_column cf)))
    (hlt : strict_order lt) (hrow : sorted_row lt cf cols)
    (hcount : 2 ≤ count) (hempty : cl0.columns_ = []) (hfuel : cols.length + 1 ≤ fuel) :
    Db_GetRangeSlices client s fuel cl0 cfname ⟨[], [], count⟩ rowkey =
      .returned (true, { cl0 with columns_ := cols }) := by
  obtain ⟨k, rfl⟩ : ∃ k, count = k + 2 := ⟨count - 2, by omega⟩
  have hpage := Db_GetRangeSlices_Internal_page client s lt cf cols cfname rowkey [] []
    (k + 2) cl0 hdecl hty hcmp hkey hback hrow.1 (encode_empty_bound _ hcmp)
  have hfilter : (cols.filter fun c => ([] : Bytes).isEmpty ||
      !lt (encode_column cf c).name []) = cols := by
    rw [List.filter_eq_self]; intro a _; rfl
  rw [hfilter, hempty, List.nil_append] at hpage
  rw [Db_GetRangeSlices, hpage]
  by_cases hk : k + 1 < cols.length
  · obtain ⟨p1, c, p2, hcols, hp1⟩ := split_at_index cols (k + 1) hk
    have htake : List.take (k + 2) cols = p1 ++ [c] := by
      rw [hcols, List.take_append_eq_append_take, hp1]
      simp [List.take_of_length_le (le_of_eq hp1 |>.trans (Nat.le_succ (k + 1)))]
    have hlen : (p1 ++ [c]).length = k + 2 := by simp [hp1]
    have hlast : (p1 ++ [c]).getLast? = some c := by
      rw [List.getLast?_append]; simp
    rw [htake]
    simp only [hlen, decide_True, hlast]
    exact range_slices_loop_stitch client s lt cf cols cfname rowkey k cl0 hdecl hty hcmp hkey
      hback hlt hrow fuel p1 p2 c hcols (by
        have : cols.length = p1.length + (p2.length + 1) := by rw [hcols]; simp
        omega)
  · have htake : List.take (k + 2) cols = cols := List.take_of_length_le (by omega)
    have hlen : ¬ (List.take (k + 2) cols).length = k + 2 := by
      rw [htake]; omega
    simp only [hlen, decide_False]
    rw [range_slices_loop_stop, htake]

theorem pagination_stitching_witness :
    Db_GetRangeSlices
        { accepting_client [] with
          get_range_slices := inclusive_backend value_lt (abc_row.map (encode_column ascii_family)) }
        { construct false 0 with CdbIfCfList := [("t", ⟨none, some ascii_family⟩)] }
        4 ⟨"", [], []⟩ "t" ⟨[], [], 2⟩ [.string [107]] =
      .returned (true, ⟨"", [], abc_row⟩) :=
  pagination_stitching
    { accepting_client [] with
      get_range_slices := inclusive_backend value_lt (abc_row.map (encode_column ascii_family)) }
    { construct false 0 with CdbIfCfList := [("t", ⟨none, some ascii_family⟩)] }
    value_lt ascii_family abc_row "t" [.string [107]] 2 ⟨"", [], []⟩ 4
    rfl rfl (by decide) (by decide) rfl
    ⟨fun a => by simp [value_lt],
     fun a b c hab hbc => by
      simp only [value_lt, decide_eq_true_eq] at hab hbc ⊢
      exact Nat.lt_trans hab hbc⟩
    (by simp only [sorted_row, well_formed_column]; decide)
    (by decide) rfl (by decide)

/-- C20, counterexample. The family `events` is declared as a Flat family, whose comparator is
empty, and the inclusive-start backend holds its row of the two columns `id` and `ts`, with
distinct names. `Db_GetRangeSlices` with an unbounded range, the page size 2 and an
initially empty result returns false with no column: the encoder rejects the start bound
under the empty comparator before any page is requested. -/
theorem pagination_on_flat_family :
    declared_cf [("events", ⟨none, some (events_family [.AsciiType])⟩)] "events" =
      some (events_family [.AsciiType]) ∧
    Db_GetRangeSlices
        { accepting_client [] with
          get_range_slices := inclusive_backend value_lt
            [⟨[105, 100], [120], 0, none⟩, ⟨[116, 115], [0, 5], 0, none⟩] }
        { construct false 0 with
          CdbIfCfList := [("events", ⟨none, some (events_family [.AsciiType])⟩)] }
        3 ⟨"", [], []⟩ "events" ⟨[], [], 2⟩ [.string [107]] =
      .returned (false, ⟨"", [], []⟩) := by
  refine ⟨rfl, rfl⟩

/-- Claim C23. For each width `w` of 8, 16, 32 and 64 bits and every value `v < 2 ^ w`, the
bytes of the non-composite encoding of `v`, read as a big-endian two's-complement signed
integer, equal `v`, so they are never negative; and for `u < v` the signed reading of the
encoding of `u` is strictly below that of the encoding of `v`. -/
theorem guard_byte_signed_reading (u v : Nat) :
    (v < 2 ^ 8 →
      signed_be_value (Db_encode_Unsigned8_non_composite (.uint8 v)) = (v : Int) ∧
      (u < v → signed_be_value (Db_encode_Unsigned8_non_composite (.uint8 u)) <
        signed_be_value (Db_encode_Unsigned8_non_composite (.uint8 v)))) ∧
    (v < 2 ^ 16 →
      signed_be_value (Db_encode_Unsigned16_non_composite (.uint16 v)) = (v : Int) ∧
      (u < v → signed_be_value (Db_encode_Unsigned16_non_composite (.uint16 u)) <
        signed_be_value (Db_encode_Unsigned16_non_composite (.uint16 v)))) ∧
    (v < 2 ^ 32 →
      signed_be_value (Db_encode_Unsigned32_non_composite (.uint32 v)) = (v : Int) ∧
      (u < v → signed_be_value (Db_encode_Unsigned32_non_composite (.uint32 u)) <
        signed_be_value (Db_encode_Unsigned32_non_composite (.uint32 v)))) ∧
    (v < 2 ^ 64 →
      signed_be_value (Db_encode_Unsigned64_non_composite (.uint64 v)) = (v : Int) ∧
      (u < v → signed_be_value (Db_encode_Unsigned64_non_composite (.uint64 u)) <
        signed_be_value (Db_encode_Unsigned64_non_composite (.uint64 v)))) := by
  refine ⟨fun hv => ⟨?_, fun huv => ?_⟩, fun hv => ⟨?_, fun huv => ?_⟩,
    fun hv => ⟨?_, fun huv => ?_⟩, fun hv => ⟨?_, fun huv => ?_⟩⟩
  · exact signed_be_value_encode_mod 8 v (by norm_num) hv
  · show signed_be_value (encode_Unsigned_non_composite 8 (u % 2 ^ 8)) <
      signed_be_value (encode_Unsigned_non_composite 8 (v % 2 ^ 8))
    rw [signed_be_value_encode_mod 8 u (by norm_num) (lt_trans huv hv),
      signed_be_value_encode_mod 8 v (by norm_num) hv]
    exact_mod_cast huv
  · exact signed_be_value_encode_mod 16 v (by norm_num) hv
  · show signed_be_value (encode_Unsigned_non_composite 16 (u % 2 ^ 16)) <
      signed_be_value (encode_Unsigned_non_composite 16 (v % 2 ^ 16))
    rw [signed_be_value_encode_mod 16 u (by norm_num) (lt_trans huv hv),
      signed_be_value_encode_mod 16 v (by norm_num) hv]
    exact_mod_cast huv
  · exact signed_be_value_encode_mod 32 v (by norm_num) hv
  · show signed_be_value (encode_Unsigned_non_composite 32 (u % 2 ^ 32)) <
      signed_be_value (encode_Unsigned_non_composite 32 (v % 2 ^ 32))
    rw [signed_be_value_encode_mod 32 u (by norm_num) (lt_trans huv hv),
      signed_be_value_encode_mod 32 v (by norm_num) hv]
    exact_mod_cast huv
  · exact signed_be_value_encode_mod 64 v (by norm_num) hv
  · show signed_be_value (encode_Unsigned_non_composite 64 (u % 2 ^ 64)) <
      signed_be_value (encode_Unsigned_non_composite 64 (v % 2 ^ 64))
    rw [signed_be_value_encode_mod 64 u (by norm_num) (lt_trans huv hv),
      signed_be_value_encode_mod 64 v (by norm_num) hv]
    exact_mod_cast huv

theorem guard_byte_signed_reading_witness :
    signed_be_value (Db_encode_Unsigned8_non_composite (.uint8 200)) = 200 ∧
    signed_be_value (Db_encode_Unsigned8_non_composite (.uint8 100)) <
      signed_be_value (Db_encode_Unsigned8_non_composite (.uint8 200)) :=
  ⟨((guard_byte_signed_reading 100 200).1 (by norm_num)).1,
   ((guard_byte_signed_reading 100 200).1 (by norm_num)).2 (by norm_num)⟩

/-- Claim C29. Prefix property of the composite encoding: for every type vector `T` of length
at least 2 over registered tags, every value vector `V` no longer than `T` and every
`k ≤ V.length`, `DbDataValueVecToString` returns true on the first `k` values of `V` and on
`V`, and the bytes it produces for the first `k` values are a byte-prefix of the bytes it
produces for `V`. -/
theorem composite_encoding_extends (T : DbDataTypeVec) (V : DbDataValueVec) (k : Nat)
    (hT : 2 ≤ T.length) (hreg : ∀ t ∈ T, isRegistered t = true)
    (hlen : V.length ≤ T.length) (hk : k ≤ V.length) :
    (DbDataValueVecToString [] T (V.take k)).1 = true ∧
    (DbDataValueVecToString [] T V).1 = true ∧
    (DbDataValueVecToString [] T (V.take k)).2 <+: (DbDataValueVecToString [] T V).2 := by
  have hlenk : (V.take k).length ≤ T.length := by
    rw [List.length_take]; omega
  match T, hT with
  | t :: t2 :: ts, _ =>
    show (encode_composite_loop [] (t :: t2 :: ts) (V.take k)).1 = true ∧
      (encode_composite_loop [] (t :: t2 :: ts) V).1 = true ∧
      (encode_composite_loop [] (t :: t2 :: ts) (V.take k)).2 <+:
        (encode_composite_loop [] (t :: t2 :: ts) V).2
    rw [encode_composite_loop_eq _ _ [] hlenk hreg, encode_composite_loop_eq _ _ [] hlen hreg]
    exact ⟨rfl, rfl, by simpa using concat_composite_take _ V k⟩

theorem composite_encoding_extends_witness :
    (DbDataValueVecToString [] [.AsciiType, .AsciiType, .LexicalUUIDType]
      ([DbDataValue.string [97, 98], DbDataValue.string [99]].take 1)).1 = true ∧
    (DbDataValueVecToString [] [.AsciiType, .AsciiType, .LexicalUUIDType]
      [.string [97, 98], .string [99]]).1 = true ∧
    (DbDataValueVecToString [] [.AsciiType, .AsciiType, .LexicalUUIDType]
      ([DbDataValue.string [97, 98], DbDataValue.string [99]].take 1)).2 <+:
    (DbDataValueVecToString [] [.AsciiType, .AsciiType, .LexicalUUIDType]
      [.string [97, 98], .string [99]]).2 :=
  composite_encoding_extends [.AsciiType, .AsciiType, .LexicalUUIDType]
    [.string [97, 98], .string [99]] 1 (by decide) (by decide) (by decide) (by decide)

/-- Claim C30. Composite round trip under the 16-bit length bound: for every type vector `T`
of length at least 2 and every matching value vector `V` (same length, each `V[i]` in the
domain of `T[i]`, so all tags are registered) in which every Ascii component is shorter than
65536 bytes, `DbDataValueVecToString(T, V)` returns true and `DbDataValueVecFromString` on
its bytes returns true with result exactly `V`. Ascii components that are empty or contain
zero bytes are covered, since they are in the domain and within the bound. -/
theorem bounded_composite_round_trip (T : DbDataTypeVec) (V : DbDataValueVec)
    (hT : 2 ≤ T.length) (hd : inDomainVec T V = true) (hf : V.all ascii_fits = true) :
    (DbDataValueVecToString [] T V).1 = true ∧
    DbDataValueVecFromString [] T (DbDataValueVecToString [] T V).2 = some (true, V) :=
  ⟨vec_encode_ok T V (by intro h; rw [h] at hT; simp at hT) hd, vec_decode_encode T V hd hf⟩

theorem bounded_composite_round_trip_witness :
    (DbDataValueVecToString [] [.AsciiType, .AsciiType, .Unsigned8Type]
      [.string [], .string [0, 65, 0], .uint8 0]).1 = true ∧
    DbDataValueVecFromString [] [.AsciiType, .AsciiType, .Unsigned8Type]
      (DbDataValueVecToString [] [.AsciiType, .AsciiType, .Unsigned8Type]
        [.string [], .string [0, 65, 0], .uint8 0]).2 =
      some (true, [.string [], .string [0, 65, 0], .uint8 0]) :=
  bounded_composite_round_trip [.AsciiType, .AsciiType, .Unsigned8Type]
    [.string [], .string [0, 65, 0], .uint8 0] (by decide) (by decide) (by decide)

/-- Claim C26, as amended. For every type vector `T` that contains a tag absent from
`CdbIfTypeMap`: `DbDataValueVecToString(T, V)` with `len(V) = len(T)` returns false; for
`len(T) = 1`, `DbDataValueVecFromString(T, s)` returns false for every input `s` and leaves
the result as it was; for `len(T) ≥ 2`, `DbDataValueVecFromString(T, s)` logs the
unregistered tag and goes on with the next one, so it behaves on every input `s` as the
decoding loop over the registered tags of `T` alone. -/
theorem unregistered_tag_handling (T : DbDataTypeVec) (V : DbDataValueVec) (s : Bytes)
    (h : ∃ t ∈ T, isRegistered t = false) :
    (V.length = T.length → ∀ res, (DbDataValueVecToString res T V).1 = false) ∧
    (T.length = 1 → ∀ res, DbDataValueVecFromString res T s = some (false, res)) ∧
    (2 ≤ T.length → ∀ res, DbDataValueVecFromString res T s =
      (decode_composite_loop s (T.filter isRegistered) 0 res).map fun r => (r.1, r.2.1)) := by
  refine ⟨fun hlen res => ?_, fun hT res => ?_, fun hT res => ?_⟩
  · match T, h with
    | [], h => obtain ⟨t, ht, _⟩ := h; simp at ht
    | [t], h =>
      obtain ⟨u, hu, hreg⟩ := h
      obtain rfl : u = t := by simpa using hu
      have hmap : CdbIfTypeMap u = none := by
        simpa [isRegistered] using hreg
      match V, hlen with
      | [v], _ => simp [DbDataValueVecToString, hmap]
    | t :: t2 :: ts, h =>
      exact encode_composite_loop_unregistered (t :: t2 :: ts) V res hlen h
  · match T, hT, h with
    | [t], _, h =>
      obtain ⟨u, hu, hreg⟩ := h
      obtain rfl : u = t := by simpa using hu
      have hmap : CdbIfTypeMap u = none := by
        simpa [isRegistered] using hreg
      simp [DbDataValueVecFromString, DbDataValueFromType, hmap]
  · match T, hT with
    | t :: t2 :: ts, _ =>
      show (decode_composite_loop s (t :: t2 :: ts) 0 res).map _ = _
      rw [decode_composite_loop_skip]

theorem unregistered_tag_handling_witness :
    (∀ res, (DbDataValueVecToString res [.AsciiType, .Unregistered 0]
      [.string [97], .string [98]]).1 = false) ∧
    (∀ res, DbDataValueVecFromString res [.Unregistered 0] [0, 1, 97, 0] =
      some (false, res)) ∧
    (∀ res, DbDataValueVecFromString res [.AsciiType, .Unregistered 0] [0, 1, 97, 0] =
      (decode_composite_loop [0, 1, 97, 0]
        ([DbDataType.AsciiType, DbDataType.Unregistered 0].filter isRegistered) 0 res).map
          fun r => (r.1, r.2.1)) :=
  ⟨(unregistered_tag_handling [.AsciiType, .Unregistered 0] [.string [97], .string [98]]
      [0, 1, 97, 0] ⟨.Unregistered 0, by decide, rfl⟩).1 rfl,
   (unregistered_tag_handling [.Unregistered 0] [.string [97]]
      [0, 1, 97, 0] ⟨.Unregistered 0, by decide, rfl⟩).2.1 rfl,
   (unregistered_tag_handling [.AsciiType, .Unregistered 0] [.string [97], .string [98]]
      [0, 1, 97, 0] ⟨.Unregistered 0, by decide, rfl⟩).2.2 (by decide)⟩

/-- Claim C26, counterexample. The type vector `[AsciiType, Unregistered]` contains a tag absent
from `CdbIfTypeMap`, yet `DbDataValueVecFromString` on the four bytes of the composite
encoding of the string `a` returns true, with the one value decoded for the registered
tag; on two unregistered tags and the input bytes 1, 2, 3 it returns true with no value. -/
theorem composite_decode_skips_unregistered :
    isRegistered (.Unregistered 0) = false ∧
    DbDataValueVecFromString [] [.AsciiType, .Unregistered 0] [0, 1, 97, 0] =
      some (true, [.string [97]]) ∧
    DbDataValueVecFromString [] [.Unregistered 0, .Unregistered 1] [1, 2, 3] =
      some (true, []) :=
  ⟨rfl, by decide, rfl⟩

/-- Claim C27. Code at the failing input: the registry is empty, so the family `events` of the
queued item has no declared definition; `Db_AsyncAddColumn` on the item with one Dynamic
column returns true and issues one `batch_mutate` call, keyed by the empty row key, whose
one mutation has an empty column name and an empty value. -/
theorem undeclared_family_is_written :
    declared_cf (construct false 0).CdbIfCfList "events" = none ∧
    (Db_AsyncAddColumn (accepting_client []) (construct false 0) 1700
      ⟨some ⟨"events", [.string [107]],
        [⟨.COLUMN_FAMILY_NOSQL, [.string [110]], [.string [118]]⟩]⟩⟩).1 = some true ∧
    (Db_AsyncAddColumn (accepting_client []) (construct false 0) 1700
      ⟨some ⟨"events", [.string [107]],
        [⟨.COLUMN_FAMILY_NOSQL, [.string [110]], [.string [118]]⟩]⟩⟩).2.events =
      [Event.batch_mutate [([], [("events", [⟨[], [], 1700, none⟩])])] .ONE] :=
  ⟨rfl, rfl, rfl⟩

/-- Claim C28, as amended. After `NewDb_AddColumnfamily(def1)` has succeeded, a call
`NewDb_AddColumnfamily(def2)` or `Db_UseColumnfamily(def2)` with the same family name
returns true and leaves the object, the registry included, as the first call left it; when
the family was not usable before the first call, the locally declared definition of the
name after the second call is therefore `def1`, whatever `def2` is. -/
theorem redeclare_keeps_first (client : CassandraClient) (s : CdbIfState) (def1 def2 : NewCf)
    (h1 : (NewDb_AddColumnfamily client s def1).1 = true)
    (hname : def2.cfname_ = def1.cfname_) :
    NewDb_AddColumnfamily client (NewDb_AddColumnfamily client s def1).2 def2 =
      (true, (NewDb_AddColumnfamily client s def1).2) ∧
    Db_UseColumnfamily (NewDb_AddColumnfamily client s def1).2 def2 =
      (true, (NewDb_AddColumnfamily client s def1).2) ∧
    ((Db_FindColumnfamily s def1.cfname_).1 = false →
      declared_cf (NewDb_AddColumnfamily client (NewDb_AddColumnfamily client s def1).2
          def2).2.CdbIfCfList def1.cfname_ = some def1 ∧
      declared_cf (Db_UseColumnfamily (NewDb_AddColumnfamily client s def1).2
          def2).2.CdbIfCfList def1.cfname_ = some def1) := by
  obtain ⟨info, cf1, hl, hcf⟩ := NewDb_AddColumnfamily_usable client s def1 h1
  have hfound : Db_FindColumnfamily (NewDb_AddColumnfamily client s def1).2 def2.cfname_ =
      (true, (NewDb_AddColumnfamily client s def1).2) := by
    rw [hname]; exact Db_FindColumnfamily_of_lookup _ _ info cf1 hl hcf
  have hadd := NewDb_AddColumnfamily_found client _ def2 hfound
  have huse := Db_UseColumnfamily_found _ def2 hfound
  refine ⟨hadd, huse, fun hnew => ?_⟩
  rw [hadd, huse]
  exact ⟨NewDb_AddColumnfamily_declares client s def1 h1 hnew,
    NewDb_AddColumnfamily_declares client s def1 h1 hnew⟩

theorem redeclare_keeps_first_witness :
    NewDb_AddColumnfamily (accepting_client [])
        (NewDb_AddColumnfamily (accepting_client []) (construct false 0)
          (events_family [.AsciiType])).2 (events_family [.LexicalUUIDType]) =
      (true, (NewDb_AddColumnfamily (accepting_client []) (construct false 0)
          (events_family [.AsciiType])).2) ∧
    Db_UseColumnfamily
        (NewDb_AddColumnfamily (accepting_client []) (construct false 0)
          (events_family [.AsciiType])).2 (events_family [.LexicalUUIDType]) =
      (true, (NewDb_AddColumnfamily (accepting_client []) (construct false 0)
          (events_family [.AsciiType])).2) ∧
    declared_cf (NewDb_AddColumnfamily (accepting_client [])
        (NewDb_AddColumnfamily (accepting_client []) (construct false 0)
          (events_family [.AsciiType])).2
        (events_family [.LexicalUUIDType])).2.CdbIfCfList
        (events_family [.AsciiType]).cfname_ = some (events_family [.AsciiType]) ∧
    declared_cf (Db_UseColumnfamily
        (NewDb_AddColumnfamily (accepting_client []) (construct false 0)
          (events_family [.AsciiType])).2
        (events_family [.LexicalUUIDType])).2.CdbIfCfList
        (events_family [.AsciiType]).cfname_ = some (events_family [.AsciiType]) :=
  have h := redeclare_keeps_first (accepting_client []) (construct false 0)
    (events_family [.AsciiType]) (events_family [.LexicalUUIDType]) (by decide) rfl
  ⟨h.1, h.2.1, h.2.2 (by decide)⟩

/-- Claim C28, counterexample. On a fresh object and a backend that accepts every call, the
family `events` is declared with an Ascii key and then again, by either function, with a
UUID key: both second calls return true, the two definitions differ, and the locally
declared definition of `events` is still the first one, not the second. -/
theorem redeclare_does_not_replace :
    (NewDb_AddColumnfamily (accepting_client []) (construct false 0)
      (events_family [.AsciiType])).1 = true ∧
    events_family [.LexicalUUIDType] ≠ events_family [.AsciiType] ∧
    declared_cf (NewDb_AddColumnfamily (accepting_client [])
        (NewDb_AddColumnfamily (accepting_client []) (construct false 0)
          (events_family [.AsciiType])).2
        (events_family [.LexicalUUIDType])).2.CdbIfCfList "events" ≠
      some (events_family [.LexicalUUIDType]) ∧
    declared_cf (Db_UseColumnfamily
        (NewDb_AddColumnfamily (accepting_client []) (construct false 0)
          (events_family [.AsciiType])).2
        (events_family [.LexicalUUIDType])).2.CdbIfCfList "events" ≠
      some (events_family [.LexicalUUIDType]) := by
  refine ⟨by decide, by decide, by decide, by decide⟩

/-- Claim C24. An exclusive-start backend loses a column: the backend answers a page request
with the columns strictly above the start bound, so the continuation request that starts at
`b` is answered with the column `c` alone. Against it, for the row of the three columns `a`,
`b`, `c` of a declared Dynamic family and the page size 2, `Db_GetRangeSlices` with an
unbounded range returns true with the columns `a` and `b` only, however many iterations its
loop is allowed: the row has more columns than the page size, the column `c` lies in the
requested range, and it is omitted because the first element of the continuation page,
which is `c` and not the boundary column `b`, is dropped. -/
theorem exclusive_start_loses_column (fuel : Nat) :
    exclusive_backend value_lt (abc_row.map (encode_column ascii_family))
        ⟨"t", [98], [], 2, [107], [107], 1⟩ =
      some [⟨[107], [⟨[99], [122], 0, none⟩]⟩] ∧
    2 < abc_row.length ∧
    (⟨.COLUMN_FAMILY_NOSQL, [.string [99]], [.string [122]]⟩ : NewCol) ∈ abc_row ∧
    Db_GetRangeSlices
        { accepting_client [] with
          get_range_slices := exclusive_backend value_lt (abc_row.map (encode_column ascii_family)) }
        { construct false 0 with CdbIfCfList := [("t", ⟨none, some ascii_family⟩)] }
        (fuel + 1) ⟨"", [], []⟩ "t" ⟨[], [], 2⟩ [.string [107]] =
      .returned (true, ⟨"", [],
        [⟨.COLUMN_FAMILY_NOSQL, [.string [97]], [.string [120]]⟩,
         ⟨.COLUMN_FAMILY_NOSQL, [.string [98]], [.string [121]]⟩]⟩) := by
  refine ⟨by decide, by decide, by decide, ?_⟩
  cases fuel <;> rfl

/-- Claim C25. Code at the failing input: the value vector of the Ascii strings `ab` and `cd`
under `[AsciiType, AsciiType]` encodes to ten bytes. On the strict prefix of eight bytes,
which ends inside the second component, `DbDataValueVecFromString` returns true with the
strings `ab` and `c` followed by a zero byte, the terminator of the buffer; on the strict
prefix of seven bytes it reads beyond the buffer; on the strict prefix of nine bytes, which
lacks only the last terminator, it returns true with the whole vector. It returns false on
the prefix of five bytes, which ends where a component ends. -/
theorem truncated_composite_is_decoded :
    DbDataValueVecToString [] [.AsciiType, .AsciiType] [.string [97, 98], .string [99, 100]] =
      (true, [0, 2, 97, 98, 0, 0, 2, 99, 100, 0]) ∧
    DbDataValueVecFromString [] [.AsciiType, .AsciiType] [0, 2, 97, 98, 0, 0, 2, 99] =
      some (true, [.string [97, 98], .string [99, 0]]) ∧
    DbDataValueVecFromString [] [.AsciiType, .AsciiType] [0, 2, 97, 98, 0, 0, 2] = none ∧
    DbDataValueVecFromString [] [.AsciiType, .AsciiType] [0, 2, 97, 98, 0, 0, 2, 99, 100] =
      some (true, [.string [97, 98], .string [99, 100]]) ∧
    DbDataValueVecFromString [] [.AsciiType, .AsciiType] [0, 2, 97, 98, 0] =
      some (false, [.string [97, 98]]) := by
  refine ⟨by decide, by decide, by decide, by decide, by decide⟩

/-- Claim C21. Code at the failing input: against the inclusive-start backend, for the row of
the three columns `a`, `b`, `c` of a declared Dynamic family, `Db_GetRangeSlices` with the
page size 1 does not return within any number of iterations of its loop: every page holds
one column, which is as many as the page size, so the loop goes on, and every continuation
page is the boundary column `a` again. The same holds for the page size 0, where every page
is empty and an empty page has as many columns as the page size. -/
theorem pagination_never_returns (fuel : Nat) :
    Db_GetRangeSlices
        { accepting_client [] with
          get_range_slices := inclusive_backend value_lt (abc_row.map (encode_column ascii_family)) }
        { construct false 0 with CdbIfCfList := [("t", ⟨none, some ascii_family⟩)] }
        fuel ⟨"", [], []⟩ "t" ⟨[], [], 1⟩ [.string [107]] = .out_of_fuel ∧
    Db_GetRangeSlices
        { accepting_client [] with
          get_range_slices := inclusive_backend value_lt (abc_row.map (encode_column ascii_family)) }
        { construct false 0 with CdbIfCfList := [("t", ⟨none, some ascii_family⟩)] }
        fuel ⟨"", [], []⟩ "t" ⟨[], [], 0⟩ [.string [107]] = .out_of_fuel := by
  have h1 : ∀ n, range_slices_loop
      { accepting_client [] with
        get_range_slices := inclusive_backend value_lt (abc_row.map (encode_column ascii_family)) }
      { construct false 0 with CdbIfCfList := [("t", ⟨none, some ascii_family⟩)] }
      "t" ⟨[], [], 1⟩ [.string [107]] n
      ⟨"", [], [⟨.COLUMN_FAMILY_NOSQL, [.string [97]], [.string [120]]⟩]⟩
      ⟨[.string [97]], [], 1⟩ true true = .out_of_fuel := by
    intro n
    induction n with
    | zero => rfl
    | succ n ih => exact ih
  have h0 : ∀ n, range_slices_loop
      { accepting_client [] with
        get_range_slices := inclusive_backend value_lt (abc_row.map (encode_column ascii_family)) }
      { construct false 0 with CdbIfCfList := [("t", ⟨none, some ascii_family⟩)] }
      "t" ⟨[], [], 0⟩ [.string [107]] n ⟨"", [], []⟩ ⟨[], [], 0⟩ true true = .out_of_fuel := by
    intro n
    induction n with
    | zero => rfl
    | succ n ih => exact ih
  exact ⟨h1 fuel, h0 fuel⟩

/-- Claim C22. Code at the failing input: whatever the value `m` of `max_query_rows` is, for
the `m + 1` distinct row keys of a declared family with an Ascii key, against a backend
that returns no row, `Db_GetMultiRow` returns true after one `multiget_slice` call, and
that call carries all `m + 1` encoded keys, one more than `max_query_rows`: the loop that
fills a sub-batch goes on while `i <= max_query_rows`. -/
theorem multi_row_batch_exceeds_limit (m : Nat) :
    Db_GetMultiRow (fun _ => some [])
        { construct false 0 with CdbIfCfList := [("t", ⟨none, some ascii_family⟩)] }
        m [] "t" ((List.range (m + 1)).map fun i => [DbDataValue.string [i]]) =
      (.returned (true, []), [(List.range (m + 1)).map fun i => [i]]) ∧
    m < ((List.range (m + 1)).map fun i => ([i] : Bytes)).length := by
  refine ⟨?_, by simp⟩
  have hk : ∀ k ∈ (List.range (m + 1)).map (fun i => [DbDataValue.string [i]]),
      ConstructDbDataValueKey
        ({ construct false 0 with
            CdbIfCfList := [("t", ⟨none, some ascii_family⟩)] } : CdbIfState).CdbIfCfList
        [] "t" k =
      (true, (DbDataValueVecToString [] [.AsciiType] k).2) := by
    intro k hk
    obtain ⟨i, _, rfl⟩ := List.mem_map.mp hk
    rfl
  have hlen : ((List.range (m + 1)).map fun i => [DbDataValue.string [i]]).length = m + 1 := by
    simp
  unfold Db_GetMultiRow
  rw [hlen, multi_row_loop_step (fun _ => some [])
    { construct false 0 with CdbIfCfList := [("t", ⟨none, some ascii_family⟩)] }
    "t" m (fun k => (DbDataValueVecToString [] [.AsciiType] k).2) ascii_family rfl
    (fun _ => rfl) m _ [] [] (by intro h; rw [h] at hlen; simp at hlen) hk,
    List.drop_of_length_le (le_of_eq hlen), List.take_of_length_le (le_of_eq hlen),
    multi_row_loop_nil, List.map_map]
  rfl

end CdbIf
